import Mathlib

/-!
# git-user: profile catalogue, persistence and command contracts

A shallow embedding of `main.go`.  Go strings are byte sequences, the catalogue is a list of
`GitProfile`, and the environment the commands act on (the configuration directory, the
persisted document, the global git identity, standard input and standard output) is an explicit
`World` value threaded through every function.

The persisted document is produced by `json.MarshalIndent` and read back by `json.Unmarshal`;
both are embedded at byte level (as is `unicode/utf8`, `strings.TrimSpace` and `strconv.Atoi`),
following the behaviour of the Go standard library (Go 1.22 encoder output).
-/

namespace GitUser

/-! ## Bytes and strings -/

/-- A Go `byte`. -/
abbrev Byte := Fin 256

/-- A Go `string`: an immutable sequence of bytes, not necessarily valid UTF-8. -/
abbrev GoString := List Byte

/-- GitProfile represents a git user's profile. -/
structure GitProfile where
  Name : GoString
  Email : GoString
  deriving DecidableEq, Repr

/-! ## unicode/utf8 -/

/-- The rune `utf8.RuneError` (U+FFFD). -/
def RuneError : Nat := 0xFFFD

/-- The `first` table of `unicode/utf8`, size part: 1 for ASCII, 2 to 4 for a leading byte of a
multi-byte sequence, 0 for a byte that cannot start a sequence. -/
def firstSize (p0 : Nat) : Nat :=
  if p0 < 0x80 then 1
  else if p0 < 0xC2 then 0
  else if p0 < 0xE0 then 2
  else if p0 < 0xF0 then 3
  else if p0 < 0xF5 then 4
  else 0

/-- Lower bound of `acceptRanges` for the second byte after the leading byte `p0`. -/
def acceptLo (p0 : Nat) : Nat :=
  if p0 = 0xE0 then 0xA0 else if p0 = 0xF0 then 0x90 else 0x80

/-- Upper bound of `acceptRanges` for the second byte after the leading byte `p0`. -/
def acceptHi (p0 : Nat) : Nat :=
  if p0 = 0xED then 0x9F else if p0 = 0xF4 then 0x8F else 0xBF

/-- A continuation byte, between `locb` and `hicb`. -/
def isCont (b : Nat) : Bool := 0x80 ≤ b && b ≤ 0xBF

/-- The function `utf8.DecodeRune` (and `DecodeRuneInString`): the first rune of `p` and its width
in bytes; `(RuneError, 0)` on empty input and `(RuneError, 1)` on an invalid encoding. -/
def decodeRune (p : GoString) : Nat × Nat :=
  match p with
  | [] => (RuneError, 0)
  | p0 :: t =>
    if p0.val < 0x80 then (p0.val, 1)
    else if firstSize p0.val = 0 then (RuneError, 1)
    else
      match t with
      | [] => (RuneError, 1)
      | b1 :: t1 =>
        if b1.val < acceptLo p0.val ∨ acceptHi p0.val < b1.val then (RuneError, 1)
        else if firstSize p0.val = 2 then ((p0.val % 32) * 64 + b1.val % 64, 2)
        else
          match t1 with
          | [] => (RuneError, 1)
          | b2 :: t2 =>
            if !isCont b2.val then (RuneError, 1)
            else if firstSize p0.val = 3 then
              ((p0.val % 16) * 4096 + (b1.val % 64) * 64 + b2.val % 64, 3)
            else
              match t2 with
              | [] => (RuneError, 1)
              | b3 :: _ =>
                if !isCont b3.val then (RuneError, 1)
                else ((p0.val % 8) * 262144 + (b1.val % 64) * 4096 + (b2.val % 64) * 64
                        + b3.val % 64, 4)

/-- A byte from a natural number (`byte(x)` conversion, truncating). -/
def byte (n : Nat) : Byte := Fin.ofNat n

/-- The function `utf8.AppendRune` on an empty buffer (`utf8.EncodeRune`): surrogates and values
above `utf8.MaxRune` are encoded as `RuneError`. -/
def encodeRune (r : Nat) : GoString :=
  if r ≤ 0x7F then [byte r]
  else if r ≤ 0x7FF then [byte (0xC0 + r / 64), byte (0x80 + r % 64)]
  else if r > 0x10FFFF ∨ (0xD800 ≤ r ∧ r ≤ 0xDFFF) then [0xEF, 0xBF, 0xBD]
  else if r ≤ 0xFFFF then
    [byte (0xE0 + r / 4096), byte (0x80 + (r / 64) % 64), byte (0x80 + r % 64)]
  else
    [byte (0xF0 + r / 262144), byte (0x80 + (r / 4096) % 64), byte (0x80 + (r / 64) % 64),
      byte (0x80 + r % 64)]

/-- Validity loop of `utf8.Valid`: every position decodes to a rune other than an encoding error. -/
def validLoop : Nat → GoString → Bool
  | _, [] => true
  | 0, _ :: _ => false
  | fuel + 1, b :: t =>
    if (decodeRune (b :: t)).2 = 1 ∧ 0x80 ≤ b.val then false
    else validLoop fuel ((b :: t).drop (decodeRune (b :: t)).2)

/-- The function `utf8.Valid` (`utf8.ValidString`): the string consists of well-formed UTF-8
sequences only. -/
def validUTF8 (s : GoString) : Bool := validLoop s.length s

/-- Loop of `coerceUTF8`. -/
def coerceLoop : Nat → GoString → GoString
  | _, [] => []
  | 0, _ :: _ => []
  | fuel + 1, b :: t =>
    if (decodeRune (b :: t)).2 = 1 ∧ 0x80 ≤ b.val then
      [0xEF, 0xBF, 0xBD] ++ coerceLoop fuel t
    else
      (b :: t).take (decodeRune (b :: t)).2
        ++ coerceLoop fuel ((b :: t).drop (decodeRune (b :: t)).2)

/-- The string `s` coerced to valid UTF-8: every byte that does not belong to a well-formed
sequence is replaced by the encoding of U+FFFD, everything else is kept. -/
def coerceUTF8 (s : GoString) : GoString := coerceLoop s.length s

/-! ## encoding/json: encoder -/

/-- The table `htmlSafeSet`: ASCII bytes that `json.Marshal` copies into a string literal
unescaped.  Control bytes, the quote, the backslash and the HTML characters `<`, `>`, `&` are
excluded. -/
def htmlSafe (b : Nat) : Bool :=
  0x20 ≤ b && b < 0x80 && b != 0x22 && b != 0x26 && b != 0x3C && b != 0x3E && b != 0x5C

/-- One character of the string `hex = "0123456789abcdef"`. -/
def hexDigit (n : Nat) : Byte := if n < 10 then byte (0x30 + n) else byte (0x57 + n)

/-- Escape written by `appendString` for an ASCII byte that is not in `htmlSafeSet`. -/
def escapeByte (b : Byte) : GoString :=
  if b = 0x5C ∨ b = 0x22 then [0x5C, b]
  else if b = 0x08 then [0x5C, 0x62]
  else if b = 0x0C then [0x5C, 0x66]
  else if b = 0x0A then [0x5C, 0x6E]
  else if b = 0x0D then [0x5C, 0x72]
  else if b = 0x09 then [0x5C, 0x74]
  else [0x5C, 0x75, 0x30, 0x30, hexDigit (b.val / 16), hexDigit (b.val % 16)]

/-- Main loop of `appendString(dst, src, escapeHTML = true)`: the body of the string literal.
An invalid byte is replaced by the escape of U+FFFD; U+2028 and U+2029 are escaped. -/
def encodeLoop : Nat → GoString → GoString
  | _, [] => []
  | 0, _ :: _ => []
  | fuel + 1, b :: t =>
    if b.val < 0x80 then
      (if htmlSafe b.val then [b] else escapeByte b) ++ encodeLoop fuel t
    else if (decodeRune (b :: t)).1 = RuneError ∧ (decodeRune (b :: t)).2 = 1 then
      [0x5C, 0x75, 0x66, 0x66, 0x66, 0x64] ++ encodeLoop fuel t
    else if (decodeRune (b :: t)).1 = 0x2028 ∨ (decodeRune (b :: t)).1 = 0x2029 then
      [0x5C, 0x75, 0x32, 0x30, 0x32, hexDigit ((decodeRune (b :: t)).1 % 16)]
        ++ encodeLoop fuel ((b :: t).drop (decodeRune (b :: t)).2)
    else
      (b :: t).take (decodeRune (b :: t)).2
        ++ encodeLoop fuel ((b :: t).drop (decodeRune (b :: t)).2)

/-- The body of the string literal written for `src`: the loop runs at most once per byte. -/
def encodeBody (src : GoString) : GoString := encodeLoop src.length src

/-- The JSON string literal written by `json.Marshal` for a Go string. -/
def appendString (src : GoString) : GoString :=
  [0x22] ++ encodeBody src ++ [0x22]

/-- One profile as written by `json.MarshalIndent(profiles, "", "  ")`: an object of depth one,
with the keys `name` and `email` in this order. -/
def marshalProfile (p : GitProfile) : GoString :=
  -- `  {\n    "name": `
  [0x20, 0x20, 0x7B, 0x0A, 0x20, 0x20, 0x20, 0x20, 0x22, 0x6E, 0x61, 0x6D, 0x65, 0x22, 0x3A, 0x20]
    ++ appendString p.Name
    -- `,\n    "email": `
    ++ [0x2C, 0x0A, 0x20, 0x20, 0x20, 0x20, 0x22, 0x65, 0x6D, 0x61, 0x69, 0x6C, 0x22, 0x3A, 0x20]
    ++ appendString p.Email
    -- `\n  }`
    ++ [0x0A, 0x20, 0x20, 0x7D]

/-- The elements of a non-empty array, separated by `,\n`. -/
def marshalElems : List GitProfile → GoString
  | [] => []
  | [p] => marshalProfile p
  | p :: q :: ps => marshalProfile p ++ [0x2C, 0x0A] ++ marshalElems (q :: ps)

/-- The call `json.MarshalIndent(profiles, "", "  ")` for a non-nil slice: `[]` for the empty
slice, otherwise one indented object per element between `[\n` and `\n]`. -/
def MarshalIndent (profiles : List GitProfile) : GoString :=
  match profiles with
  | [] => [0x5B, 0x5D]
  | _ :: _ => [0x5B, 0x0A] ++ marshalElems profiles ++ [0x0A, 0x5D]

/-- The call `json.MarshalIndent` for the nil slice: the literal `null`. -/
def marshalNil : GoString := [0x6E, 0x75, 0x6C, 0x6C]

/-! ## encoding/json: scanner and decoder

`json.Unmarshal` first validates the whole input with the byte-driven state machine of
`scanner.go` (`checkValid`) and only then decodes.  The embedding runs the same state machine
once and lets it also assemble the value it has scanned; string literals are kept raw and are
unquoted when they are stored, as `literalStore` does. -/

/-- A scanned JSON value.  String literals and object keys hold the bytes between the quotes. -/
inductive JValue where
  | null
  | bool (b : Bool)
  | number
  | string (raw : GoString)
  | array (elems : List JValue)
  | object (members : List (GoString × JValue))

/-- An entry of the scanner's `parseState` stack, with the part of the container read so far.
`obj ms none` is `parseObjectKey` before the key or `parseObjectValue` after the value;
`obj ms (some k)` holds the key `k` whose value has not been completed. -/
inductive Frame where
  | arr (elems : List JValue)
  | obj (members : List (GoString × JValue)) (key : Option GoString)

/-- The scanner's `step` function, as data. -/
inductive Step where
  | beginValue
  | beginValueOrEmpty
  | beginString
  | beginStringOrEmpty
  | endValue
  | endTop
  | inString (acc : GoString)
  | inStringEsc (acc : GoString)
  | inStringEscU (acc : GoString) (seen : Nat)
  | neg
  | s1
  | s0
  | dot
  | dot0
  | e
  | eSign
  | e0
  | lit (rest : GoString) (v : JValue)

/-- The scanner: current step, the stack of open containers, and the completed top-level value. -/
structure Scanner where
  step : Step
  parseState : List Frame
  result : Option JValue

/-- The constant `maxNestingDepth`. -/
def maxNestingDepth : Nat := 10000

/-- The function `isSpace` of the scanner. -/
def isSpace (c : Byte) : Bool := c = 0x20 || c = 0x09 || c = 0x0D || c = 0x0A

/-- A hexadecimal digit, as tested by `stateInStringEscU`. -/
def isHex (c : Byte) : Bool :=
  (0x30 ≤ c.val && c.val ≤ 0x39) || (0x61 ≤ c.val && c.val ≤ 0x66)
    || (0x41 ≤ c.val && c.val ≤ 0x46)

/-- A decimal digit. -/
def isDigit (c : Byte) : Bool := 0x30 ≤ c.val && c.val ≤ 0x39

/-- A value `v` has been completed: store it in the innermost open container, or as the
top-level value; the next step is `stateEndValue`. -/
def complete (s : Scanner) (v : JValue) : Option Scanner :=
  match s.parseState with
  | [] => some { step := .endValue, parseState := [], result := some v }
  | .arr es :: fs => some { s with step := .endValue, parseState := .arr (es ++ [v]) :: fs }
  | .obj ms none :: fs =>
    match v with
    | .string k => some { s with step := .endValue, parseState := .obj ms (some k) :: fs }
    | _ => none
  | .obj ms (some k) :: fs =>
    some { s with step := .endValue, parseState := .obj (ms ++ [(k, v)]) none :: fs }

/-- The method `pushParseState`: open a container, failing beyond `maxNestingDepth`. -/
def pushParseState (s : Scanner) (f : Frame) (next : Step) : Option Scanner :=
  if (f :: s.parseState).length ≤ maxNestingDepth then
    some { s with step := next, parseState := f :: s.parseState }
  else none

/-- The method `popParseState`: close the innermost container, whose value is `v`.  When the
stack becomes empty the scanner is at `stateEndTop`. -/
def popParseState (s : Scanner) (v : JValue) : Option Scanner :=
  match s.parseState with
  | [] => none
  | _ :: fs =>
    match complete { s with parseState := fs } v with
    | none => none
    | some s1 => if fs.isEmpty then some { s1 with step := .endTop } else some s1

/-- The state `stateEndTop`: only white space may follow the top-level value. -/
def stateEndTop (s : Scanner) (c : Byte) : Option Scanner :=
  if isSpace c then some { s with step := .endTop } else none

/-- The state `stateEndValue`: after a value, look for `:`, `,`, `}` or `]` according to the
innermost open container. -/
def stateEndValue (s : Scanner) (c : Byte) : Option Scanner :=
  match s.parseState with
  | [] => stateEndTop s c
  | f :: _ =>
    if isSpace c then some { s with step := .endValue }
    else
      match f with
      | .obj _ (some _) =>
        if c = 0x3A then some { s with step := .beginValue } else none
      | .obj ms none =>
        if c = 0x2C then some { s with step := .beginString }
        else if c = 0x7D then popParseState s (.object ms)
        else none
      | .arr es =>
        if c = 0x2C then some { s with step := .beginValue }
        else if c = 0x5D then popParseState s (.array es)
        else none

/-- The state `stateBeginValue`. -/
def stateBeginValue (s : Scanner) (c : Byte) : Option Scanner :=
  if isSpace c then some s
  else if c = 0x7B then pushParseState s (.obj [] none) .beginStringOrEmpty
  else if c = 0x5B then pushParseState s (.arr []) .beginValueOrEmpty
  else if c = 0x22 then some { s with step := .inString [] }
  else if c = 0x2D then (complete s .number).map fun s1 => { s1 with step := .neg }
  else if c = 0x30 then (complete s .number).map fun s1 => { s1 with step := .s0 }
  else if c = 0x74 then some { s with step := .lit [0x72, 0x75, 0x65] (.bool true) }
  else if c = 0x66 then some { s with step := .lit [0x61, 0x6C, 0x73, 0x65] (.bool false) }
  else if c = 0x6E then some { s with step := .lit [0x75, 0x6C, 0x6C] .null }
  else if 0x31 ≤ c.val ∧ c.val ≤ 0x39 then
    (complete s .number).map fun s1 => { s1 with step := .s1 }
  else none

/-- The state `stateBeginString`. -/
def stateBeginString (s : Scanner) (c : Byte) : Option Scanner :=
  if isSpace c then some s
  else if c = 0x22 then some { s with step := .inString [] }
  else none

/-- The state `state0`: after a leading `0` or the integer part. -/
def state0 (s : Scanner) (c : Byte) : Option Scanner :=
  if c = 0x2E then some { s with step := .dot }
  else if c = 0x65 ∨ c = 0x45 then some { s with step := .e }
  else stateEndValue s c

/-- The state `stateESign`. -/
def stateESign (s : Scanner) (c : Byte) : Option Scanner :=
  if isDigit c then some { s with step := .e0 } else none

/-- One call of `s.step(s, c)`. -/
def scanByte (s : Scanner) (c : Byte) : Option Scanner :=
  match s.step with
  | .beginValue => stateBeginValue s c
  | .beginValueOrEmpty =>
    if isSpace c then some s
    else if c = 0x5D then stateEndValue s c
    else stateBeginValue s c
  | .beginString => stateBeginString s c
  | .beginStringOrEmpty =>
    if isSpace c then some s
    else if c = 0x7D then stateEndValue s c
    else stateBeginString s c
  | .endValue => stateEndValue s c
  | .endTop => stateEndTop s c
  | .inString acc =>
    if c = 0x22 then complete s (.string acc)
    else if c = 0x5C then some { s with step := .inStringEsc (acc ++ [c]) }
    else if c.val < 0x20 then none
    else some { s with step := .inString (acc ++ [c]) }
  | .inStringEsc acc =>
    if c = 0x62 ∨ c = 0x66 ∨ c = 0x6E ∨ c = 0x72 ∨ c = 0x74 ∨ c = 0x5C ∨ c = 0x2F ∨ c = 0x22 then
      some { s with step := .inString (acc ++ [c]) }
    else if c = 0x75 then some { s with step := .inStringEscU (acc ++ [c]) 0 }
    else none
  | .inStringEscU acc seen =>
    if isHex c then
      if seen < 3 then some { s with step := .inStringEscU (acc ++ [c]) (seen + 1) }
      else some { s with step := .inString (acc ++ [c]) }
    else none
  | .neg =>
    if c = 0x30 then some { s with step := .s0 }
    else if 0x31 ≤ c.val ∧ c.val ≤ 0x39 then some { s with step := .s1 }
    else none
  | .s1 => if isDigit c then some s else state0 s c
  | .s0 => state0 s c
  | .dot => if isDigit c then some { s with step := .dot0 } else none
  | .dot0 =>
    if isDigit c then some s
    else if c = 0x65 ∨ c = 0x45 then some { s with step := .e }
    else stateEndValue s c
  | .e => if c = 0x2B ∨ c = 0x2D then some { s with step := .eSign } else stateESign s c
  | .eSign => stateESign s c
  | .e0 => if isDigit c then some s else stateEndValue s c
  | .lit rest v =>
    match rest with
    | [] => none
    | [x] => if c = x then complete s v else none
    | x :: y :: r => if c = x then some { s with step := .lit (y :: r) v } else none

/-- Feed the input to the scanner byte by byte, stopping at the first error. -/
def scanBytes : Option Scanner → GoString → Option Scanner
  | s, [] => s
  | none, _ :: _ => none
  | some s, c :: t => scanBytes (scanByte s c) t

/-- The method `scanner.eof`: at the end of the input a space is fed to the scanner unless the
top-level value has already been closed; the input is valid when this ends at `stateEndTop`. -/
def scanEOF (s : Scanner) : Option JValue :=
  match s.step with
  | .endTop => s.result
  | _ =>
    match scanByte s 0x20 with
    | some s1 => (match s1.step with | .endTop => s1.result | _ => none)
    | none => none

/-- The function `checkValid` together with the value read: `none` is a syntax error. -/
def parseJSON (data : GoString) : Option JValue :=
  match scanBytes (some { step := .beginValue, parseState := [], result := none }) data with
  | none => none
  | some s => scanEOF s

/-- A hexadecimal digit's value, as computed by `getu4`. -/
def hexVal (c : Byte) : Option Nat :=
  if 0x30 ≤ c.val ∧ c.val ≤ 0x39 then some (c.val - 0x30)
  else if 0x61 ≤ c.val ∧ c.val ≤ 0x66 then some (c.val - 0x61 + 10)
  else if 0x41 ≤ c.val ∧ c.val ≤ 0x46 then some (c.val - 0x41 + 10)
  else none

/-- The function `getu4`: the rune of a leading `\uXXXX` escape, `none` (the source's `-1`) when
the input does not start with one. -/
def getu4 (s : GoString) : Option Nat :=
  match s with
  | b :: u :: h1 :: h2 :: h3 :: h4 :: _ =>
    if b = 0x5C ∧ u = 0x75 then
      match hexVal h1, hexVal h2, hexVal h3, hexVal h4 with
      | some a, some b, some c, some d => some (((a * 16 + b) * 16 + c) * 16 + d)
      | _, _, _, _ => none
    else none
  | _ => none

/-- The function `utf16.IsSurrogate`. -/
def isSurrogate (r : Nat) : Bool := 0xD800 ≤ r && r < 0xE000

/-- The function `utf16.DecodeRune`: the rune of a surrogate pair, U+FFFD when the pair is not
valid (`r2 = none` is the source's `-1`). -/
def utf16DecodeRune (r1 : Nat) (r2 : Option Nat) : Nat :=
  match r2 with
  | some r2 =>
    if 0xD800 ≤ r1 ∧ r1 < 0xDC00 ∧ 0xDC00 ≤ r2 ∧ r2 < 0xE000 then
      (r1 - 0xD800) * 1024 + (r2 - 0xDC00) + 0x10000
    else RuneError
  | none => RuneError

/-- First loop of `unquoteBytes`: the number of leading bytes that need no unquoting (no
backslash, quote, control byte or invalid UTF-8). -/
def unquoteScan : Nat → GoString → Nat
  | _, [] => 0
  | 0, _ :: _ => 0
  | fuel + 1, c :: t =>
    if c = 0x5C ∨ c = 0x22 ∨ c.val < 0x20 then 0
    else if c.val < 0x80 then 1 + unquoteScan fuel t
    else if (decodeRune (c :: t)).1 = RuneError ∧ (decodeRune (c :: t)).2 = 1 then 0
    else (decodeRune (c :: t)).2 + unquoteScan fuel ((c :: t).drop (decodeRune (c :: t)).2)

/-- One iteration of the second loop of `unquoteBytes`, at the input `c :: t`: the bytes written
and the number of bytes of `t` consumed with `c`.  Escapes are decoded, surrogate halves and
invalid UTF-8 become U+FFFD; `none` is the source's `ok = false`. -/
def unquoteStep (c : Byte) (t : GoString) : Option (GoString × Nat) :=
  if c = 0x5C then
    match t with
    | [] => none
    | e :: _ =>
      if e = 0x22 ∨ e = 0x5C ∨ e = 0x2F ∨ e = 0x27 then some ([e], 1)
      else if e = 0x62 then some ([0x08], 1)
      else if e = 0x66 then some ([0x0C], 1)
      else if e = 0x6E then some ([0x0A], 1)
      else if e = 0x72 then some ([0x0D], 1)
      else if e = 0x74 then some ([0x09], 1)
      else if e = 0x75 then
        match getu4 (c :: t) with
        | none => none
        | some rr =>
          if isSurrogate rr then
            if utf16DecodeRune rr (getu4 (t.drop 5)) ≠ RuneError then
              some (encodeRune (utf16DecodeRune rr (getu4 (t.drop 5))), 11)
            else some (encodeRune RuneError, 5)
          else some (encodeRune rr, 5)
      else none
  else if c = 0x22 ∨ c.val < 0x20 then none
  else if c.val < 0x80 then some ([c], 0)
  else some (encodeRune (decodeRune (c :: t)).1, (decodeRune (c :: t)).2 - 1)

/-- Second loop of `unquoteBytes`. -/
def unquoteLoop : Nat → GoString → Option GoString
  | _, [] => some []
  | 0, _ :: _ => none
  | fuel + 1, c :: t =>
    match unquoteStep c t with
    | none => none
    | some (out, n) => (unquoteLoop fuel (t.drop n)).map (out ++ ·)

/-- The second loop of `unquoteBytes` run on `s`: it runs at most once per byte. -/
def unquoteRest (s : GoString) : Option GoString := unquoteLoop s.length s

/-- The function `unquoteBytes`, applied to the bytes between the quotes of a literal. -/
def unquote (s : GoString) : Option GoString :=
  if unquoteScan s.length s = s.length then some s
  else
    (unquoteRest (s.drop (unquoteScan s.length s))).map (s.take (unquoteScan s.length s) ++ ·)

/-- The function `foldName` on the ASCII bytes of a key: lower-case letters become upper-case.
Other bytes are kept: a rune outside ASCII folds to a rune outside ASCII or to `K` or `S`, so it
never folds to a letter of `NAME` or `EMAIL`. -/
def foldName (key : GoString) : GoString :=
  key.map fun c => if 0x61 ≤ c.val ∧ c.val ≤ 0x7A then byte (c.val - 0x20) else c

/-- The JSON key of the field `Name` (its struct tag). -/
def nameKey : GoString := [0x6E, 0x61, 0x6D, 0x65]

/-- The JSON key of the field `Email` (its struct tag). -/
def emailKey : GoString := [0x65, 0x6D, 0x61, 0x69, 0x6C]

/-- Field lookup of `decodeState.object`: exact match of the key, else match of the folded
names. -/
def matchesField (key field : GoString) : Bool :=
  key = field || foldName key = foldName field

/-- The method `literalStore` (and `object`/`array`) for a destination of kind string: a string
literal is unquoted and stored, `null` leaves the field as it is, any other value is an
`UnmarshalTypeError`. -/
def decodeField (cur : GoString) (v : JValue) : Option GoString :=
  match v with
  | .string raw => unquote raw
  | .null => some cur
  | _ => none

/-- The method `decodeState.object` for a destination of type `GitProfile`: members are stored in
order, so a later duplicate key overrides an earlier one; unknown keys are skipped. -/
def decodeMembers : List (GoString × JValue) → GitProfile → Option GitProfile
  | [], p => some p
  | (rawKey, v) :: ms, p =>
    match unquote rawKey with
    | none => none
    | some key =>
      if matchesField key nameKey then
        match decodeField p.Name v with
        | none => none
        | some n => decodeMembers ms { p with Name := n }
      else if matchesField key emailKey then
        match decodeField p.Email v with
        | none => none
        | some e => decodeMembers ms { p with Email := e }
      else decodeMembers ms p

/-- Decoding of one array element into a zero `GitProfile`: an object fills the fields, `null`
leaves the zero value, anything else is an `UnmarshalTypeError`. -/
def decodeElem (v : JValue) : Option GitProfile :=
  match v with
  | .object ms => decodeMembers ms ⟨[], []⟩
  | .null => some ⟨[], []⟩
  | _ => none

/-- Decoding of the elements of the top-level array. -/
def decodeElems : List JValue → Option (List GitProfile)
  | [] => some []
  | v :: vs =>
    match decodeElem v, decodeElems vs with
    | some p, some ps => some (p :: ps)
    | _, _ => none

/-- Decoding of the top-level value into a nil `[]GitProfile`: an array gives its elements,
`null` leaves the slice nil (empty), anything else is an `UnmarshalTypeError`. -/
def decodeSlice (v : JValue) : Option (List GitProfile) :=
  match v with
  | .array es => decodeElems es
  | .null => some []
  | _ => none

/-- The call `json.Unmarshal(data, &profiles)` with `var profiles []GitProfile`: `none` when it
returns an error (a syntax error or an `UnmarshalTypeError`). -/
def Unmarshal (data : GoString) : Option (List GitProfile) :=
  match parseJSON data with
  | none => none
  | some v => decodeSlice v

/-! ## strings.TrimSpace and strconv.Atoi -/

/-- The function `unicode.IsSpace`. -/
def isSpaceRune (r : Nat) : Bool :=
  (0x09 ≤ r && r ≤ 0x0D) || r = 0x20 || r = 0x85 || r = 0xA0 || r = 0x1680
    || (0x2000 ≤ r && r ≤ 0x200A) || r = 0x2028 || r = 0x2029 || r = 0x202F || r = 0x205F
    || r = 0x3000

/-- The function `strings.TrimLeftFunc(s, unicode.IsSpace)`: drop the leading white-space
runes. -/
def trimLeft : Nat → GoString → GoString
  | _, [] => []
  | 0, s => s
  | fuel + 1, b :: t =>
    if isSpaceRune (decodeRune (b :: t)).1 then trimLeft fuel ((b :: t).drop (decodeRune (b :: t)).2)
    else b :: t

/-- The function `utf8.RuneStart`. -/
def runeStart (b : Byte) : Bool := b.val / 64 != 2

/-- Backward search of `utf8.DecodeLastRune`, on the reversed input: the distance from the end
at which decoding starts (at most `utf8.UTFMax` bytes are searched for the start of a rune). -/
def lastRuneStart (rev : GoString) : Nat :=
  match rev with
  | _ :: b1 :: r1 =>
    if runeStart b1 then 2
    else
      match r1 with
      | [] => 2
      | b2 :: r2 =>
        if runeStart b2 then 3
        else
          match r2 with
          | [] => 3
          | b3 :: r3 =>
            if runeStart b3 then 4
            else
              match r3 with
              | [] => 4
              | _ :: _ => 5
  | _ => 1

/-- The function `utf8.DecodeLastRune` (and `DecodeLastRuneInString`). -/
def decodeLastRune (p : GoString) : Nat × Nat :=
  match p.getLast? with
  | none => (RuneError, 0)
  | some l =>
    if l.val < 0x80 then (l.val, 1)
    else if (decodeRune (p.drop (p.length - lastRuneStart p.reverse))).2
        ≠ lastRuneStart p.reverse then (RuneError, 1)
    else decodeRune (p.drop (p.length - lastRuneStart p.reverse))

/-- The function `strings.TrimRightFunc(s, unicode.IsSpace)`: drop the trailing white-space
runes. -/
def trimRight : Nat → GoString → GoString
  | _, [] => []
  | 0, s => s
  | fuel + 1, b :: t =>
    if isSpaceRune (decodeLastRune (b :: t)).1 then
      trimRight fuel ((b :: t).take ((b :: t).length - (decodeLastRune (b :: t)).2))
    else b :: t

/-- The function `strings.TrimSpace`. -/
def TrimSpace (s : GoString) : GoString :=
  trimRight s.length (trimLeft s.length s)

/-- Digit loop of the fast path of `strconv.Atoi`. -/
def atoiDigits : GoString → Nat → Option Nat
  | [], n => some n
  | ch :: t, n => if isDigit ch then atoiDigits t (n * 10 + (ch.val - 0x30)) else none

/-- Digit loop of `strconv.ParseUint(s, 10, 64)`: `none` on a syntax error or when the value
does not fit 64 bits. -/
def parseUintLoop : GoString → Nat → Option Nat
  | [], n => some n
  | c :: t, n =>
    if isDigit c then
      if n ≥ (2 ^ 64 - 1) / 10 + 1 then none
      else if n * 10 + (c.val - 0x30) > 2 ^ 64 - 1 then none
      else parseUintLoop t (n * 10 + (c.val - 0x30))
    else none

/-- The function `strconv.ParseUint(s, 10, 0)` on a 64-bit platform. -/
def ParseUint (s : GoString) : Option Nat :=
  match s with
  | [] => none
  | _ :: _ => parseUintLoop s 0

/-- The function `strconv.ParseInt(s, 10, 0)` on a 64-bit platform. -/
def ParseInt (s : GoString) : Option Int :=
  match s with
  | [] => none
  | c :: t =>
    if c = 0x2B then
      match ParseUint t with
      | some un => if un ≥ 2 ^ 63 then none else some (un : Int)
      | none => none
    else if c = 0x2D then
      match ParseUint t with
      | some un => if un > 2 ^ 63 then none else some (-(un : Int))
      | none => none
    else
      match ParseUint (c :: t) with
      | some un => if un ≥ 2 ^ 63 then none else some (un : Int)
      | none => none

/-- The function `strconv.Atoi` on a 64-bit platform: `none` when it returns an error. -/
def Atoi (s : GoString) : Option Int :=
  match s with
  | [] => ParseInt []
  | c :: t =>
    if (c :: t).length < 19 then
      if c = 0x2D then
        (match t with
         | [] => none
         | _ :: _ => (atoiDigits t 0).map fun (n : Nat) => -(n : Int))
      else if c = 0x2B then
        (match t with
         | [] => none
         | _ :: _ => (atoiDigits t 0).map fun (n : Nat) => (n : Int))
      else (atoiDigits (c :: t) 0).map fun (n : Nat) => (n : Int)
    else ParseInt (c :: t)

/-! ## The environment -/

/-- A line (or prompt) written to standard output, one constructor per format string of
`main.go`. -/
inductive Line where
  /-- The line `Stored profiles:`. -/
  | storedProfiles
  /-- The format `[%d] %s - %s %s\n` of `listProfiles`, the last argument being the marker. -/
  | listEntry (i : Nat) (name email marker : GoString)
  /-- The format `Current active git profile: %s - %s\n`. -/
  | currentActive (name email : GoString)
  /-- The line `Note: The current git profile is not imported in the profiles list.`. -/
  | noteNotImported
  /-- The line `You can import it using the 'import' subcommand.`. -/
  | hintImport
  /-- The line `Select a profile:`. -/
  | selectProfile
  /-- The format `[%d] %s - %s\n` of `switchProfile`. -/
  | switchEntry (i : Nat) (name email : GoString)
  /-- The prompt `Enter profile number: `. -/
  | enterNumber
  /-- The format `Profile switched to: %s - %s\n`. -/
  | switched (name email : GoString)
  /-- The format `Current git profile imported: %s - %s\n`. -/
  | imported (name email : GoString)
  deriving DecidableEq, Repr

/-- The errors returned by the functions of `main.go`. -/
inductive Err where
  /-- An error of `os.UserHomeDir` or `os.MkdirAll`. -/
  | env
  /-- An error of `ioutil.ReadFile` or `ioutil.WriteFile`. -/
  | io
  /-- An error of `json.Unmarshal`. -/
  | json
  /-- An error of running `git`. -/
  | git
  /-- An error of `reader.ReadString`. -/
  | stdin
  /-- The error `profile with name '%s' already exists`. -/
  | alreadyExists (name : GoString)
  /-- The error `profile with name '%s' not found`. -/
  | notFound (name : GoString)
  /-- The error `no profiles found, add a profile using 'git-user add'`. -/
  | noProfiles
  /-- The error `invalid selection`. -/
  | invalidSelection
  /-- The error `no current git user name found`. -/
  | noUserName
  /-- The error `no current git user email found`. -/
  | noUserEmail
  /-- The error `current git profile already exists in profiles`. -/
  | alreadyImported
  /-- The run-time panic of an index expression that is out of range. -/
  | indexOutOfRange
  deriving DecidableEq, Repr

/-- The file `profiles.json` when it exists. -/
structure Doc where
  /-- The bytes of the file. -/
  content : GoString
  /-- Whether `ioutil.ReadFile` of the file succeeds. -/
  readable : Bool
  deriving DecidableEq, Repr

/-- Everything outside the process that the functions of `main.go` read or change. -/
structure World where
  /-- Whether `os.UserHomeDir` succeeds. -/
  homeOk : Bool
  /-- Whether `os.Stat` of the directory `~/.config/git-user` reports anything but that it does
  not exist. -/
  dirExists : Bool
  /-- Whether `os.MkdirAll` of that directory succeeds. -/
  mkdirOk : Bool
  /-- Whether the path of `profiles.json` cannot be looked up, because `~/.config/git-user` is not
  a directory or may not be searched: `os.Stat`, `ioutil.ReadFile` and `ioutil.WriteFile` of the
  path then fail with an error other than `not exist` (`ENOTDIR`, `EACCES`). -/
  docBlocked : Bool
  /-- The file `profiles.json`, `none` when it does not exist. -/
  doc : Option Doc
  /-- Whether `ioutil.WriteFile` of the document succeeds when its path can be looked up. -/
  writeOk : Bool
  /-- The value of `user.name` in the global git configuration; `none` when
  `git config --global user.name` fails (git is missing or the key is not set). -/
  gitName : Option GoString
  /-- The value of `user.email`, likewise. -/
  gitEmail : Option GoString
  /-- Whether `git config --global user.name <value>` succeeds. -/
  setNameOk : Bool
  /-- Whether `git config --global user.email <value>` succeeds. -/
  setEmailOk : Bool
  /-- The value that git keeps when `git config --global <key> <value>` succeeds, as a function
  of the value it is given.  This is git's own treatment of a value, which the program does not
  control. -/
  gitKeeps : GoString → GoString
  /-- The calls of `setGitConfig` made so far, with their arguments. -/
  setCalls : List (GoString × GoString)
  /-- The bytes not yet read from standard input. -/
  stdin : GoString
  /-- The output written so far. -/
  stdout : List Line

/-- Append to standard output. -/
def World.print (w : World) (ls : List Line) : World := { w with stdout := w.stdout ++ ls }

/-! ## main.go -/

/-- getConfigFilePath returns the full path to the profiles file, creating the directory if it
doesn't exist.  The path itself is fixed; only success and the effect on the directory are
recorded. -/
def getConfigFilePath (w : World) : Except Err Unit × World :=
  if !w.homeOk then (.error .env, w)
  else if !w.dirExists then
    if w.mkdirOk then (.ok (), { w with dirExists := true }) else (.error .env, w)
  else (.ok (), w)

/-- The test `os.IsNotExist(err)` on the error of `os.Stat(path)`, for the path of the document:
true only when the path can be looked up and there is no such file. -/
def statNotExist (w : World) : Bool := !w.docBlocked && w.doc.isNone

/-- The call `ioutil.ReadFile(path)` for the path of the document: the bytes of the file, `none`
when the call fails. -/
def readFile (w : World) : Option GoString :=
  if w.docBlocked then none
  else
    match w.doc with
    | none => none
    | some file => if file.readable then some file.content else none

/-- loadProfiles loads profiles from the file. If the file does not exist, it returns an empty
list. -/
def loadProfiles (w : World) : Except Err (List GitProfile) × World :=
  match getConfigFilePath w with
  | (.error err, w1) => (.error err, w1)
  | (.ok _, w1) =>
    if statNotExist w1 then (.ok [], w1)
    else
      match readFile w1 with
      | none => (.error .io, w1)
      | some data =>
        match Unmarshal data with
        | none => (.error .json, w1)
        | some profiles => (.ok profiles, w1)

/-- The effect of a successful `ioutil.WriteFile(path, data, 0644)`: an existing file keeps its
permissions, a new file is created readable. -/
def writeFile (data : GoString) (old : Option Doc) : Doc :=
  match old with
  | some file => { file with content := data }
  | none => { content := data, readable := true }

/-- saveProfiles saves profiles to the file.  A failing write is taken to leave the document as
it was. -/
def saveProfiles (profiles : List GitProfile) (w : World) : Except Err Unit × World :=
  match getConfigFilePath w with
  | (.error err, w1) => (.error err, w1)
  | (.ok _, w1) =>
    if w1.writeOk && !w1.docBlocked then
      (.ok (), { w1 with doc := some (writeFile (MarshalIndent profiles) w1.doc) })
    else (.error .io, w1)

/-- addProfile adds a new profile. If a profile with the same name exists, it returns an
error. -/
def addProfile (name email : GoString) (w : World) : Except Err Unit × World :=
  match loadProfiles w with
  | (.error err, w1) => (.error err, w1)
  | (.ok profiles, w1) =>
    if profiles.any (fun p => p.Name = name) then (.error (.alreadyExists name), w1)
    else saveProfiles (profiles ++ [{ Name := name, Email := email }]) w1

/-- The search loop of `deleteProfile`: the index of the first profile named `name`, `none` for
the source's `-1`. -/
def findIndex (name : GoString) : List GitProfile → Nat → Option Nat
  | [], _ => none
  | p :: ps, i => if p.Name = name then some i else findIndex name ps (i + 1)

/-- deleteProfile removes a profile by name. -/
def deleteProfile (name : GoString) (w : World) : Except Err Unit × World :=
  match loadProfiles w with
  | (.error err, w1) => (.error err, w1)
  | (.ok profiles, w1) =>
    match findIndex name profiles 0 with
    | none => (.error (.notFound name), w1)
    | some index => saveProfiles (profiles.take index ++ profiles.drop (index + 1)) w1

/-- getCurrentGitConfig returns the current git configuration value for the given key
(`user.name` when `email` is false, `user.email` otherwise).  The command prints the value
followed by a newline. -/
def getCurrentGitConfig (email : Bool) (w : World) : Except Err GoString :=
  match (if email then w.gitEmail else w.gitName) with
  | none => .error .git
  | some v => .ok (TrimSpace (v ++ [0x0A]))

/-- The loop of `listProfiles` that prints the entries: the lines printed from index `i` on, and
whether the current profile was found. -/
def listEntries (currentName currentEmail : GoString) :
    List GitProfile → Nat → List Line × Bool
  | [], _ => ([], false)
  | p :: ps, i =>
    let r := listEntries currentName currentEmail ps (i + 1)
    if p.Name = currentName ∧ p.Email = currentEmail then
      (.listEntry i p.Name p.Email [0x2A] :: r.1, true)
    else (.listEntry i p.Name p.Email [0x20] :: r.1, r.2)

/-- listProfiles prints the list of stored profiles, marking the currently set git profile.
If the current git profile is not among the stored profiles, a message is printed. -/
def listProfiles (w : World) : Except Err Unit × World :=
  match loadProfiles w with
  | (.error err, w1) => (.error err, w1)
  | (.ok profiles, w1) =>
    let currentName := match getCurrentGitConfig false w1 with
      | .ok v => v
      | .error _ => []
    let currentEmail := match getCurrentGitConfig true w1 with
      | .ok v => v
      | .error _ => []
    let r := listEntries currentName currentEmail profiles 0
    let w2 := w1.print (.storedProfiles :: r.1)
    if currentName ≠ [] ∧ currentEmail ≠ [] ∧ !r.2 then
      (.ok (), w2.print [.currentActive currentName currentEmail, .noteNotImported, .hintImport])
    else (.ok (), w2)

/-- setGitConfig sets the global git configuration for user.name and user.email.  The call is
recorded; what the configuration holds after a command that succeeds is what git keeps of the
value. -/
def setGitConfig (name email : GoString) (w : World) : Except Err Unit × World :=
  let w1 := { w with setCalls := w.setCalls ++ [(name, email)] }
  if !w1.setNameOk then (.error .git, w1)
  else if !w1.setEmailOk then (.error .git, { w1 with gitName := some (w1.gitKeeps name) })
  else
    (.ok (), { w1 with
      gitName := some (w1.gitKeeps name)
      gitEmail := some (w1.gitKeeps email) })

/-- The lines `[%d] %s - %s` printed by `switchProfile`, from index `i` on. -/
def switchEntries : List GitProfile → Nat → List Line
  | [], _ => []
  | p :: ps, i => .switchEntry i p.Name p.Email :: switchEntries ps (i + 1)

/-- The method `reader.ReadString(delim)`: the input up to and including the first `delim` and
the rest of the input; `none` when the input ends before a delimiter (the error `io.EOF`). -/
def readString (delim : Byte) : GoString → Option (GoString × GoString)
  | [] => none
  | c :: t =>
    if c = delim then some ([c], t)
    else (readString delim t).map fun r => (c :: r.1, r.2)

/-- switchProfile interactively switches the git profile by letting the user choose from a
list. -/
def switchProfile (w : World) : Except Err Unit × World :=
  match loadProfiles w with
  | (.error err, w1) => (.error err, w1)
  | (.ok profiles, w1) =>
    if profiles.length = 0 then (.error .noProfiles, w1)
    else
      let w2 := w1.print (.selectProfile :: switchEntries profiles 0 ++ [.enterNumber])
      match readString 0x0A w2.stdin with
      | none => (.error .stdin, { w2 with stdin := [] })
      | some (input, rest) =>
        let w3 := { w2 with stdin := rest }
        match Atoi (TrimSpace input) with
        | none => (.error .invalidSelection, w3)
        | some index =>
          if index < 0 ∨ index ≥ profiles.length then (.error .invalidSelection, w3)
          else
            match profiles.get? index.toNat with
            | none => (.error .indexOutOfRange, w3)
            | some selected =>
              match setGitConfig selected.Name selected.Email w3 with
              | (.error err, w4) => (.error err, w4)
              | (.ok _, w4) => (.ok (), w4.print [.switched selected.Name selected.Email])

/-- importProfile imports the current global git profile into the stored profiles. -/
def importProfile (w : World) : Except Err Unit × World :=
  match getCurrentGitConfig false w with
  | .error _ => (.error .noUserName, w)
  | .ok name =>
    if name = [] then (.error .noUserName, w)
    else
      match getCurrentGitConfig true w with
      | .error _ => (.error .noUserEmail, w)
      | .ok email =>
        if email = [] then (.error .noUserEmail, w)
        else
          match loadProfiles w with
          | (.error err, w1) => (.error err, w1)
          | (.ok profiles, w1) =>
            if profiles.any (fun p => p.Name = name ∧ p.Email = email) then
              (.error .alreadyImported, w1)
            else
              match saveProfiles (profiles ++ [{ Name := name, Email := email }]) w1 with
              | (.error err, w2) => (.error err, w2)
              | (.ok _, w2) => (.ok (), w2.print [.imported name email])

/-! ## Notions used to state the properties -/

/-- The JSON value written for one profile. -/
def profileValue (p : GitProfile) : JValue :=
  .object [(nameKey, .string (encodeBody p.Name)), (emailKey, .string (encodeBody p.Email))]

/-- A profile with both fields coerced to valid UTF-8. -/
def coerceProfile (p : GitProfile) : GitProfile :=
  { Name := coerceUTF8 p.Name, Email := coerceUTF8 p.Email }

/-- Both fields of the profile are valid UTF-8. -/
def validProfile (p : GitProfile) : Bool := validUTF8 p.Name && validUTF8 p.Email

/-- The value of a sequence of decimal digits. -/
def decimalValue (digits : GoString) : Nat :=
  digits.foldl (fun n c => n * 10 + (c.val - 0x30)) 0

/-- The string `t` is a decimal integer with value `i`: one or more decimal digits (the bytes
`0` to `9`), optionally preceded by a sign. -/
def IsDecimalInteger (t : GoString) (i : Int) : Prop :=
  ∃ digits : GoString, digits ≠ [] ∧ (∀ c ∈ digits, 0x30 ≤ c.val ∧ c.val ≤ 0x39) ∧
    ((t = digits ∧ i = decimalValue digits) ∨ (t = 0x2B :: digits ∧ i = decimalValue digits)
      ∨ (t = 0x2D :: digits ∧ i = -(decimalValue digits : Int)))

/-- The UTF-8 encodings of the white-space characters of Unicode (the characters with the
property `White_Space`): U+0009 to U+000D, U+0020, U+0085, U+00A0, U+1680, U+2000 to U+200A,
U+2028, U+2029, U+202F, U+205F and U+3000. -/
def whiteSpaceChars : List GoString :=
  [[0x09], [0x0A], [0x0B], [0x0C], [0x0D], [0x20], [0xC2, 0x85], [0xC2, 0xA0],
    [0xE1, 0x9A, 0x80], [0xE2, 0x80, 0x80], [0xE2, 0x80, 0x81], [0xE2, 0x80, 0x82],
    [0xE2, 0x80, 0x83], [0xE2, 0x80, 0x84], [0xE2, 0x80, 0x85], [0xE2, 0x80, 0x86],
    [0xE2, 0x80, 0x87], [0xE2, 0x80, 0x88], [0xE2, 0x80, 0x89], [0xE2, 0x80, 0x8A],
    [0xE2, 0x80, 0xA8], [0xE2, 0x80, 0xA9], [0xE2, 0x80, 0xAF], [0xE2, 0x81, 0x9F],
    [0xE3, 0x80, 0x80]]

/-- The string consists of white-space characters only (it may be empty). -/
def IsWhiteSpace (s : GoString) : Prop :=
  ∃ cs : List GoString, (∀ c ∈ cs, c ∈ whiteSpaceChars) ∧ s = cs.flatten

/-- The string `s`, with the white space around it trimmed, is a decimal integer with value
`i`. -/
def TrimsToInteger (s : GoString) (i : Int) : Prop :=
  ∃ pre core post : GoString, s = pre ++ core ++ post ∧ IsWhiteSpace pre ∧ IsWhiteSpace post ∧
    IsDecimalInteger core i

/-- A mutating command of the tool.  An import carries the global git identity found at the time
it runs. -/
inductive Op where
  | add (name email : GoString)
  | delete (name : GoString)
  | importCurrent (gitName gitEmail : Option GoString)

/-- Run one command. -/
def runOp (op : Op) (w : World) : Except Err Unit × World :=
  match op with
  | .add name email => addProfile name email w
  | .delete name => deleteProfile name w
  | .importCurrent n e => importProfile { w with gitName := n, gitEmail := e }

/-- Run a sequence of commands, each of which has to succeed. -/
def runOps : List Op → World → Option World
  | [], w => some w
  | op :: ops, w =>
    match runOp op w with
    | (.ok _, w1) => runOps ops w1
    | (.error _, _) => none

/-- The command neither is an import nor adds a name that is not valid UTF-8. -/
def Op.plain : Op → Bool
  | .add name _ => validUTF8 name
  | .delete _ => true
  | .importCurrent _ _ => false

/-- The entry line that `listProfiles` prints for the profile `p` at index `i`, given the
current identity. -/
def listLine (currentName currentEmail : GoString) (ip : Nat × GitProfile) : Line :=
  .listEntry ip.1 ip.2.Name ip.2.Email
    (if ip.2.Name = currentName ∧ ip.2.Email = currentEmail then [0x2A] else [0x20])

/-- The line that `switchProfile` prints for the profile `p` at index `i`. -/
def switchLine (ip : Nat × GitProfile) : Line := .switchEntry ip.1 ip.2.Name ip.2.Email

/-- The result of reading a key of the git identity, the empty string when the read fails, as
`listProfiles` takes it. -/
def currentOrEmpty (email : Bool) (w : World) : GoString :=
  match getCurrentGitConfig email w with
  | .ok v => v
  | .error _ => []

/-- The lines that `switchProfile` prints before it reads the answer. -/
def promptLines (C : List GitProfile) : List Line :=
  .selectProfile :: C.enum.map switchLine ++ [.enterNumber]

/-- The advisory lines that `listProfiles` prints after the entries when the current identity
is known and is not an entry of the catalogue. -/
def advisoryLines (currentName currentEmail : GoString) (C : List GitProfile) : List Line :=
  if currentName ≠ [] ∧ currentEmail ≠ [] ∧
      ¬ (∃ p ∈ C, p.Name = currentName ∧ p.Email = currentEmail) then
    [.currentActive currentName currentEmail, .noteNotImported, .hintImport]
  else []

/-- A fresh environment: a home directory without configuration directory, no document, no git
identity, everything working, and a git that keeps the values it is given. -/
def freshWorld : World :=
  { homeOk := true, dirExists := false, mkdirOk := true, docBlocked := false, doc := none,
    writeOk := true, gitName := none, gitEmail := none, setNameOk := true, setEmailOk := true,
    gitKeeps := fun v => v, setCalls := [], stdin := [], stdout := [] }

/-- The configuration directory is in place: the path can be computed without creating anything,
and the document can be looked up. -/
def World.ready (w : World) : Bool := w.homeOk && w.dirExists && !w.docBlocked

/-- The document, if there is one, can be read. -/
def World.readable (w : World) : Bool :=
  match w.doc with
  | none => true
  | some d => d.readable

/-- The part of `loadProfiles` that follows the computation of the path. -/
def readDocument (doc : Option Doc) : Except Err (List GitProfile) :=
  match doc with
  | none => .ok []
  | some file =>
    if !file.readable then .error .io
    else
      match Unmarshal file.content with
      | none => .error .json
      | some profiles => .ok profiles

/-- The value of a digit sequence continuing the value `n`. -/
def digitsFrom (n : Nat) (digits : GoString) : Nat :=
  digits.foldl (fun n c => n * 10 + (c.val - 0x30)) n

/-- The entry line carries the marker `*`. -/
def Line.marked : Line → Bool
  | .listEntry _ _ _ marker => marker = [0x2A]
  | _ => false

/-- The end of `switchProfile`, once an entry has been selected: the call of `setGitConfig` and
the report. -/
def finishSwitch (name email : GoString) (w : World) : Except Err Unit × World :=
  match setGitConfig name email w with
  | (.error err, w4) => (.error err, w4)
  | (.ok _, w4) => (.ok (), w4.print [.switched name email])

/-- The state of the world when `switchProfile` has printed the list and read the answer. -/
def promptWorld (w : World) (C : List GitProfile) (rest : GoString) : World :=
  { ((loadProfiles w).2.print (.selectProfile :: switchEntries C 0 ++ [.enterNumber])) with
    stdin := rest }

/-- An environment whose document is the text written for the catalogue `C`, and whose global
git identity is as given. -/
def storedWorld (C : List GitProfile) (gitName gitEmail : Option GoString) : World :=
  { freshWorld with
    dirExists := true
    doc := some { content := MarshalIndent C, readable := true }
    gitName := gitName
    gitEmail := gitEmail }

/-- The profile `Alice` / `a@x`. -/
def alice : GitProfile := ⟨[0x41, 0x6C, 0x69, 0x63, 0x65], [0x61, 0x40, 0x78]⟩

/-- The profile `Bob` / `b@x`. -/
def bob : GitProfile := ⟨[0x42, 0x6F, 0x62], [0x62, 0x40, 0x78]⟩


/-! ## Lemmas -/

/-! ### unicode/utf8 -/

theorem byte_val (n : Nat) (h : n < 256) : (byte n).val = n := by
  simp [byte, Fin.ofNat]; omega

theorem byte_eq (b : Byte) (n : Nat) (h : n = b.val) : byte n = b := by
  apply Fin.ext; rw [byte_val n (by omega)]; exact h

theorem decodeRune_size_pos (b : Byte) (t : GoString) : 1 ≤ (decodeRune (b :: t)).2 := by
  simp only [decodeRune]
  repeat' split
  all_goals simp

theorem decodeRune_size_le (s : GoString) : (decodeRune s).2 ≤ s.length := by
  cases s with
  | nil => simp [decodeRune]
  | cons b t =>
    simp only [decodeRune]
    repeat' split
    all_goals simp

theorem firstSize_two (p : Nat) : firstSize p = 2 ↔ 0xC2 ≤ p ∧ p < 0xE0 := by
  unfold firstSize; split_ifs <;> constructor <;> intro h <;> first | omega | exact h.elim
theorem firstSize_three (p : Nat) : firstSize p = 3 ↔ 0xE0 ≤ p ∧ p < 0xF0 := by
  unfold firstSize; split_ifs <;> constructor <;> intro h <;> first | omega | exact h.elim
theorem firstSize_four (p : Nat) : firstSize p = 4 ↔ 0xF0 ≤ p ∧ p < 0xF5 := by
  unfold firstSize; split_ifs <;> constructor <;> intro h <;> first | omega | exact h.elim
theorem firstSize_zero (p : Nat) : firstSize p = 0 ↔ (0x80 ≤ p ∧ p < 0xC2) ∨ 0xF5 ≤ p := by
  unfold firstSize; split_ifs <;> constructor <;> intro h <;> first | omega | exact h.elim
theorem acceptLo_cases (p : Nat) :
    (p = 0xE0 ∧ acceptLo p = 0xA0) ∨ (p = 0xF0 ∧ acceptLo p = 0x90) ∨
      (p ≠ 0xE0 ∧ p ≠ 0xF0 ∧ acceptLo p = 0x80) := by
  unfold acceptLo; split_ifs <;> omega
theorem acceptHi_cases (p : Nat) :
    (p = 0xED ∧ acceptHi p = 0x9F) ∨ (p = 0xF4 ∧ acceptHi p = 0x8F) ∨
      (p ≠ 0xED ∧ p ≠ 0xF4 ∧ acceptHi p = 0xBF) := by
  unfold acceptHi; split_ifs <;> omega
theorem isCont_iff (b : Nat) : isCont b = true ↔ 0x80 ≤ b ∧ b ≤ 0xBF := by
  simp [isCont]

/-- Shape of a decoding of a multi-byte sequence. -/
inductive Decoded : GoString → Nat → Nat → Prop
  | two (p0 b1 : Byte) (t : GoString) (h0 : 0xC2 ≤ p0.val ∧ p0.val < 0xE0)
      (h1 : 0x80 ≤ b1.val ∧ b1.val ≤ 0xBF) :
      Decoded (p0 :: b1 :: t) ((p0.val % 32) * 64 + b1.val % 64) 2
  | three (p0 b1 b2 : Byte) (t : GoString) (h0 : 0xE0 ≤ p0.val ∧ p0.val < 0xF0)
      (h1 : acceptLo p0.val ≤ b1.val ∧ b1.val ≤ acceptHi p0.val)
      (h2 : 0x80 ≤ b2.val ∧ b2.val ≤ 0xBF) :
      Decoded (p0 :: b1 :: b2 :: t)
        ((p0.val % 16) * 4096 + (b1.val % 64) * 64 + b2.val % 64) 3
  | four (p0 b1 b2 b3 : Byte) (t : GoString) (h0 : 0xF0 ≤ p0.val ∧ p0.val < 0xF5)
      (h1 : acceptLo p0.val ≤ b1.val ∧ b1.val ≤ acceptHi p0.val)
      (h2 : 0x80 ≤ b2.val ∧ b2.val ≤ 0xBF) (h3 : 0x80 ≤ b3.val ∧ b3.val ≤ 0xBF) :
      Decoded (p0 :: b1 :: b2 :: b3 :: t)
        ((p0.val % 8) * 262144 + (b1.val % 64) * 4096 + (b2.val % 64) * 64 + b3.val % 64) 4

theorem decodeRune_cases (b : Byte) (t : GoString) (hb : 0x80 ≤ b.val) :
    decodeRune (b :: t) = (RuneError, 1) ∨
      Decoded (b :: t) (decodeRune (b :: t)).1 (decodeRune (b :: t)).2 := by
  simp only [decodeRune]
  rw [if_neg (by omega)]
  split
  · left; rfl
  rename_i hz
  have hz1 : ¬ ((0x80 ≤ b.val ∧ b.val < 0xC2) ∨ 0xF5 ≤ b.val) :=
    fun h => hz ((firstSize_zero _).mpr h)
  cases t with
  | nil => left; rfl
  | cons b1 t1 =>
    simp only []
    split
    · left; rfl
    rename_i h1
    split
    · rename_i hs
      right
      have := (firstSize_two _).mp hs
      have hl := acceptLo_cases b.val
      have hh := acceptHi_cases b.val
      exact Decoded.two b b1 t1 this (by omega)
    rename_i hs2
    have hs2' : ¬ (0xC2 ≤ b.val ∧ b.val < 0xE0) := fun h => hs2 ((firstSize_two _).mpr h)
    cases t1 with
    | nil => left; rfl
    | cons b2 t2 =>
      simp only []
      split
      · left; rfl
      rename_i h2
      have h2' := (isCont_iff _).mp (by simpa using h2)
      split
      · rename_i hs
        right
        exact Decoded.three b b1 b2 t2 ((firstSize_three _).mp hs) (by omega) h2'
      rename_i hs3
      have hs3' : ¬ (0xE0 ≤ b.val ∧ b.val < 0xF0) := fun h => hs3 ((firstSize_three _).mpr h)
      cases t2 with
      | nil => left; rfl
      | cons b3 t3 =>
        simp only []
        split
        · left; rfl
        rename_i h3
        have h3' := (isCont_iff _).mp (by simpa using h3)
        right
        exact Decoded.four b b1 b2 b3 t3 (by omega) (by omega) h2' h3'

theorem Decoded.decode {s : GoString} {r k : Nat} (h : Decoded s r k) : decodeRune s = (r, k) := by
  cases h with
  | two p0 b1 t h0 h1 =>
    have hs := (firstSize_two p0.val).mpr h0
    have hl := acceptLo_cases p0.val
    have hh := acceptHi_cases p0.val
    simp only [decodeRune]
    rw [if_neg (by omega), if_neg (by omega), if_neg (by omega), if_pos hs]
  | three p0 b1 b2 t h0 h1 h2 =>
    have hs := (firstSize_three p0.val).mpr h0
    simp only [decodeRune]
    rw [if_neg (by omega), if_neg (by omega), if_neg (by omega), if_neg (by omega),
      if_neg (by simp [isCont]; omega), if_pos hs]
  | four p0 b1 b2 b3 t h0 h1 h2 h3 =>
    have hs := (firstSize_four p0.val).mpr h0
    simp only [decodeRune]
    rw [if_neg (by omega), if_neg (by omega), if_neg (by omega), if_neg (by omega),
      if_neg (by simp [isCont]; omega), if_neg (by omega), if_neg (by simp [isCont]; omega)]

theorem Decoded.take_eq {s : GoString} {r k : Nat} (h : Decoded s r k) :
    s.take k = encodeRune r := by
  cases h with
  | two p0 b1 t h0 h1 =>
    unfold encodeRune
    rw [if_neg (by omega), if_pos (by omega), byte_eq p0 _ (by omega), byte_eq b1 _ (by omega)]
    rfl
  | three p0 b1 b2 t h0 h1 h2 =>
    have hl := acceptLo_cases p0.val
    have hh := acceptHi_cases p0.val
    unfold encodeRune
    rw [if_neg (by omega), if_neg (by omega), if_neg (by omega), if_pos (by omega),
      byte_eq p0 _ (by omega), byte_eq b1 _ (by omega), byte_eq b2 _ (by omega)]
    rfl
  | four p0 b1 b2 b3 t h0 h1 h2 h3 =>
    have hl := acceptLo_cases p0.val
    have hh := acceptHi_cases p0.val
    unfold encodeRune
    rw [if_neg (by omega), if_neg (by omega), if_neg (by omega), if_neg (by omega),
      byte_eq p0 _ (by omega), byte_eq b1 _ (by omega), byte_eq b2 _ (by omega),
      byte_eq b3 _ (by omega)]
    rfl

theorem Decoded.size {s : GoString} {r k : Nat} (h : Decoded s r k) :
    2 ≤ k ∧ k ≤ s.length ∧ k ≤ 4 := by
  cases h <;> simp

theorem Decoded.rune {s : GoString} {r k : Nat} (h : Decoded s r k) :
    0x80 ≤ r ∧ r ≤ 0x10FFFF ∧ ¬ (0xD800 ≤ r ∧ r ≤ 0xDFFF) := by
  cases h with
  | two p0 b1 t h0 h1 => omega
  | three p0 b1 b2 t h0 h1 h2 =>
    have hl := acceptLo_cases p0.val
    have hh := acceptHi_cases p0.val
    omega
  | four p0 b1 b2 b3 t h0 h1 h2 h3 =>
    have hl := acceptLo_cases p0.val
    have hh := acceptHi_cases p0.val
    omega

theorem Decoded.high {s : GoString} {r k : Nat} (h : Decoded s r k) :
    ∀ c ∈ s.take k, 0x80 ≤ c.val := by
  cases h with
  | two p0 b1 t h0 h1 => simp; omega
  | three p0 b1 b2 t h0 h1 h2 =>
    have hl := acceptLo_cases p0.val
    simp; omega
  | four p0 b1 b2 b3 t h0 h1 h2 h3 =>
    have hl := acceptLo_cases p0.val
    simp; omega

theorem Decoded.append {s : GoString} {r k : Nat} (h : Decoded s r k) (x : GoString) :
    Decoded (s.take k ++ x) r k := by
  cases h with
  | two p0 b1 t h0 h1 => exact Decoded.two p0 b1 x h0 h1
  | three p0 b1 b2 t h0 h1 h2 => exact Decoded.three p0 b1 b2 x h0 h1 h2
  | four p0 b1 b2 b3 t h0 h1 h2 h3 => exact Decoded.four p0 b1 b2 b3 x h0 h1 h2 h3

/-- The encoding of a rune outside ASCII, after coercion of surrogates and out-of-range values to
U+FFFD, decodes to the coerced rune. -/
theorem encodeRune_decoded (r : Nat) (hr : 0x80 ≤ r) (x : GoString) :
    ∃ r1, Decoded (encodeRune r ++ x) r1 (encodeRune r).length := by
  unfold encodeRune
  rw [if_neg (by omega)]
  split
  · rename_i h
    have h0 := byte_val (0xC0 + r / 64) (by omega)
    have h1 := byte_val (0x80 + r % 64) (by omega)
    exact ⟨_, Decoded.two _ _ x (by omega) (by omega)⟩
  split
  · exact ⟨_, Decoded.three 0xEF 0xBF 0xBD x (by decide) (by decide) (by decide)⟩
  rename_i h1 h2
  split
  · rename_i h
    have e0 := byte_val (0xE0 + r / 4096) (by omega)
    have e1 := byte_val (0x80 + r / 64 % 64) (by omega)
    have e2 := byte_val (0x80 + r % 64) (by omega)
    have hl := acceptLo_cases (byte (0xE0 + r / 4096)).val
    have hh := acceptHi_cases (byte (0xE0 + r / 4096)).val
    exact ⟨_, Decoded.three _ _ _ x (by omega) (by omega) (by omega)⟩
  · rename_i h
    have e0 := byte_val (0xF0 + r / 262144) (by omega)
    have e1 := byte_val (0x80 + r / 4096 % 64) (by omega)
    have e2 := byte_val (0x80 + r / 64 % 64) (by omega)
    have e3 := byte_val (0x80 + r % 64) (by omega)
    have hl := acceptLo_cases (byte (0xF0 + r / 262144)).val
    have hh := acceptHi_cases (byte (0xF0 + r / 262144)).val
    exact ⟨_, Decoded.four _ _ _ _ x (by omega) (by omega) (by omega) (by omega)⟩

theorem encodeRune_ascii (r : Nat) (hr : r < 0x80) : encodeRune r = [byte r] := by
  unfold encodeRune; rw [if_pos (by omega)]

theorem encodeRune_length_pos (r : Nat) : 1 ≤ (encodeRune r).length := by
  unfold encodeRune; split_ifs <;> simp

/-! ### Fuel -/

theorem drop_decode_length (b : Byte) (t : GoString) :
    ((b :: t).drop (decodeRune (b :: t)).2).length ≤ t.length := by
  have := decodeRune_size_pos b t
  simp only [List.length_drop, List.length_cons]; omega

theorem encodeLoop_fuel (n m : Nat) (s : GoString) (hn : s.length ≤ n) (hm : s.length ≤ m) :
    encodeLoop n s = encodeLoop m s := by
  induction n generalizing m s with
  | zero =>
    cases s with
    | nil => cases m <;> simp [encodeLoop]
    | cons b t => simp at hn
  | succ n ih =>
    cases s with
    | nil => cases m <;> simp [encodeLoop]
    | cons b t =>
      cases m with
      | zero => simp at hm
      | succ m =>
        have hd := drop_decode_length b t
        simp only [List.length_cons, Nat.add_le_add_iff_right] at hn hm
        simp only [encodeLoop]
        rw [ih m t hn hm, ih m ((b :: t).drop _) (by omega) (by omega)]

theorem validLoop_fuel (n m : Nat) (s : GoString) (hn : s.length ≤ n) (hm : s.length ≤ m) :
    validLoop n s = validLoop m s := by
  induction n generalizing m s with
  | zero =>
    cases s with
    | nil => cases m <;> simp [validLoop]
    | cons b t => simp at hn
  | succ n ih =>
    cases s with
    | nil => cases m <;> simp [validLoop]
    | cons b t =>
      cases m with
      | zero => simp at hm
      | succ m =>
        have hd := drop_decode_length b t
        simp only [List.length_cons, Nat.add_le_add_iff_right] at hn hm
        simp only [validLoop]
        rw [ih m ((b :: t).drop _) (by omega) (by omega)]

theorem unquoteScan_fuel (n m : Nat) (s : GoString) (hn : s.length ≤ n) (hm : s.length ≤ m) :
    unquoteScan n s = unquoteScan m s := by
  induction n generalizing m s with
  | zero =>
    cases s with
    | nil => cases m <;> simp [unquoteScan]
    | cons b t => simp at hn
  | succ n ih =>
    cases s with
    | nil => cases m <;> simp [unquoteScan]
    | cons b t =>
      cases m with
      | zero => simp at hm
      | succ m =>
        have hd := drop_decode_length b t
        simp only [List.length_cons, Nat.add_le_add_iff_right] at hn hm
        simp only [unquoteScan]
        rw [ih m t hn hm, ih m ((b :: t).drop _) (by omega) (by omega)]

theorem unquoteLoop_fuel (n m : Nat) (s : GoString) (hn : s.length ≤ n) (hm : s.length ≤ m) :
    unquoteLoop n s = unquoteLoop m s := by
  induction n generalizing m s with
  | zero =>
    cases s with
    | nil => cases m <;> simp [unquoteLoop]
    | cons b t => simp at hn
  | succ n ih =>
    cases s with
    | nil => cases m <;> simp [unquoteLoop]
    | cons b t =>
      cases m with
      | zero => simp at hm
      | succ m =>
        simp only [List.length_cons, Nat.add_le_add_iff_right] at hn hm
        simp only [unquoteLoop]
        cases hs : unquoteStep b t with
        | none => rfl
        | some p =>
          obtain ⟨out, k⟩ := p
          simp only []
          rw [ih m (t.drop k) (by simp; omega) (by simp; omega)]

theorem coerceLoop_fuel (n m : Nat) (s : GoString) (hn : s.length ≤ n) (hm : s.length ≤ m) :
    coerceLoop n s = coerceLoop m s := by
  induction n generalizing m s with
  | zero =>
    cases s with
    | nil => cases m <;> simp [coerceLoop]
    | cons b t => simp at hn
  | succ n ih =>
    cases s with
    | nil => cases m <;> simp [coerceLoop]
    | cons b t =>
      cases m with
      | zero => simp at hm
      | succ m =>
        have hd := drop_decode_length b t
        simp only [List.length_cons, Nat.add_le_add_iff_right] at hn hm
        simp only [coerceLoop]
        rw [ih m t hn hm, ih m ((b :: t).drop _) (by omega) (by omega)]

/-! ### Unfolding the loops at sufficient fuel -/

theorem validUTF8_nil : validUTF8 [] = true := rfl

theorem validUTF8_cons (b : Byte) (t : GoString) :
    validUTF8 (b :: t) =
      if (decodeRune (b :: t)).2 = 1 ∧ 0x80 ≤ b.val then false
      else validUTF8 ((b :: t).drop (decodeRune (b :: t)).2) := by
  have hd := drop_decode_length b t
  simp only [validUTF8, List.length_cons, validLoop]
  rw [validLoop_fuel t.length _ _ hd (le_refl _)]

theorem coerceUTF8_nil : coerceUTF8 [] = [] := rfl

theorem coerceUTF8_cons (b : Byte) (t : GoString) :
    coerceUTF8 (b :: t) =
      if (decodeRune (b :: t)).2 = 1 ∧ 0x80 ≤ b.val then [0xEF, 0xBF, 0xBD] ++ coerceUTF8 t
      else (b :: t).take (decodeRune (b :: t)).2
        ++ coerceUTF8 ((b :: t).drop (decodeRune (b :: t)).2) := by
  have hd := drop_decode_length b t
  simp only [coerceUTF8, List.length_cons, coerceLoop]
  rw [coerceLoop_fuel t.length _ _ hd (le_refl _)]

theorem encodeBody_nil : encodeBody [] = [] := rfl

theorem encodeBody_cons (b : Byte) (t : GoString) :
    encodeBody (b :: t) =
      if b.val < 0x80 then
        (if htmlSafe b.val then [b] else escapeByte b) ++ encodeBody t
      else if (decodeRune (b :: t)).1 = RuneError ∧ (decodeRune (b :: t)).2 = 1 then
        [0x5C, 0x75, 0x66, 0x66, 0x66, 0x64] ++ encodeBody t
      else if (decodeRune (b :: t)).1 = 0x2028 ∨ (decodeRune (b :: t)).1 = 0x2029 then
        [0x5C, 0x75, 0x32, 0x30, 0x32, hexDigit ((decodeRune (b :: t)).1 % 16)]
          ++ encodeBody ((b :: t).drop (decodeRune (b :: t)).2)
      else
        (b :: t).take (decodeRune (b :: t)).2
          ++ encodeBody ((b :: t).drop (decodeRune (b :: t)).2) := by
  have hd := drop_decode_length b t
  simp only [encodeBody, List.length_cons, encodeLoop]
  rw [encodeLoop_fuel t.length _ _ hd (le_refl _)]

theorem unquoteRest_nil : unquoteRest [] = some [] := rfl

theorem unquoteRest_cons (c : Byte) (t : GoString) :
    unquoteRest (c :: t) =
      match unquoteStep c t with
      | none => none
      | some (out, n) => (unquoteRest (t.drop n)).map (out ++ ·) := by
  simp only [unquoteRest, List.length_cons, unquoteLoop]
  cases unquoteStep c t with
  | none => rfl
  | some p =>
    obtain ⟨out, n⟩ := p
    simp only []
    rw [unquoteLoop_fuel t.length (t.drop n).length _ (by simp) (le_refl _)]

theorem unquoteScan_cons (c : Byte) (t : GoString) :
    unquoteScan (c :: t).length (c :: t) =
      if c = 0x5C ∨ c = 0x22 ∨ c.val < 0x20 then 0
      else if c.val < 0x80 then 1 + unquoteScan t.length t
      else if (decodeRune (c :: t)).1 = RuneError ∧ (decodeRune (c :: t)).2 = 1 then 0
      else (decodeRune (c :: t)).2
        + unquoteScan ((c :: t).drop (decodeRune (c :: t)).2).length
            ((c :: t).drop (decodeRune (c :: t)).2) := by
  have hd := drop_decode_length c t
  simp only [List.length_cons, unquoteScan]
  rw [unquoteScan_fuel t.length _ _ hd (le_refl _)]

/-! ### Validity -/

theorem decode_ascii (b : Byte) (t : GoString) (h : b.val < 0x80) :
    decodeRune (b :: t) = (b.val, 1) := by
  simp only [decodeRune]; rw [if_pos h]

theorem validUTF8_ascii (b : Byte) (t : GoString) (h : b.val < 0x80) :
    validUTF8 (b :: t) = validUTF8 t := by
  rw [validUTF8_cons, decode_ascii b t h, if_neg (by omega)]; rfl

theorem validUTF8_decoded {s : GoString} {r k : Nat} (h : Decoded s r k) :
    validUTF8 s = validUTF8 (s.drop k) := by
  have hk := h.size
  have hd := h.decode
  cases s with
  | nil => simp at hk; omega
  | cons b t => rw [validUTF8_cons, hd, if_neg (by simp; omega)]

theorem validUTF8_encodeRune (r : Nat) (x : GoString) :
    validUTF8 (encodeRune r ++ x) = validUTF8 x := by
  by_cases hr : r < 0x80
  · rw [encodeRune_ascii r hr]
    exact validUTF8_ascii _ _ (by rw [byte_val r (by omega)]; exact hr)
  · obtain ⟨r1, h⟩ := encodeRune_decoded r (by omega) x
    rw [validUTF8_decoded h]; simp

theorem validUTF8_take {s : GoString} {r k : Nat} (h : Decoded s r k) (x : GoString) :
    validUTF8 (s.take k ++ x) = validUTF8 x := by
  rw [h.take_eq, validUTF8_encodeRune]

/-- A valid string is left alone by the coercion. -/
theorem coerceUTF8_valid (s : GoString) (h : validUTF8 s = true) : coerceUTF8 s = s := by
  match s with
  | [] => rfl
  | b :: t =>
    have hd := drop_decode_length b t
    rw [validUTF8_cons] at h
    rw [coerceUTF8_cons]
    split_ifs at h ⊢
    rw [coerceUTF8_valid _ h]
    exact List.take_append_drop _ _
termination_by s.length
decreasing_by simp only [List.length_cons]; omega

/-- The coercion always yields valid UTF-8. -/
theorem validUTF8_coerce (s : GoString) : validUTF8 (coerceUTF8 s) = true := by
  match s with
  | [] => rfl
  | b :: t =>
    have hd := drop_decode_length b t
    rw [coerceUTF8_cons]
    split
    · have : ([0xEF, 0xBF, 0xBD] : GoString) = encodeRune RuneError := by decide
      rw [this, validUTF8_encodeRune]
      exact validUTF8_coerce t
    · rename_i hne
      by_cases hb : b.val < 0x80
      · rw [decode_ascii b t hb]
        simp only [List.take_succ_cons, List.take_zero, List.drop_succ_cons, List.drop_zero,
          List.singleton_append]
        rw [validUTF8_ascii _ _ hb]
        exact validUTF8_coerce t
      · rcases decodeRune_cases b t (by omega) with he | hdec
        · exact absurd ⟨by rw [he], by omega⟩ hne
        · rw [validUTF8_take hdec]
          exact validUTF8_coerce _
termination_by s.length
decreasing_by all_goals (simp only [List.length_cons]; omega)

/-! ### One step of the unquoting loop -/

theorem unquoteStep_ascii (c : Byte) (t : GoString) (h1 : 0x20 ≤ c.val) (h2 : c.val < 0x80)
    (h3 : c ≠ 0x22) (h4 : c ≠ 0x5C) : unquoteStep c t = some ([c], 0) := by
  unfold unquoteStep
  rw [if_neg h4, if_neg (by rintro (h | h); exact h3 h; omega), if_pos h2]

theorem unquoteStep_high (c : Byte) (t : GoString) (h : 0x80 ≤ c.val) :
    unquoteStep c t =
      some (encodeRune (decodeRune (c :: t)).1, (decodeRune (c :: t)).2 - 1) := by
  unfold unquoteStep
  have h1 : c ≠ 0x5C := by intro e; rw [e] at h; revert h; decide
  have h2 : c ≠ 0x22 := by intro e; rw [e] at h; revert h; decide
  rw [if_neg h1, if_neg (by rintro (h | h); exact h2 h; omega), if_neg (by omega)]

theorem unquoteStep_stop (c : Byte) (t : GoString) (h : c = 0x22 ∨ c.val < 0x20) :
    unquoteStep c t = none := by
  unfold unquoteStep
  have h1 : c ≠ 0x5C := by
    rintro rfl; revert h; decide
  rw [if_neg h1, if_pos h]

/-- Whatever a step writes is a sequence of well-formed UTF-8. -/
theorem unquoteStep_valid (c : Byte) (t out : GoString) (n : Nat)
    (h : unquoteStep c t = some (out, n)) (x : GoString) :
    validUTF8 (out ++ x) = validUTF8 x := by
  by_cases hc : c = 0x5C
  · subst hc
    cases t with
    | nil => simp [unquoteStep] at h
    | cons e t1 =>
      have key : (∃ b : Byte, b.val < 0x80 ∧ out = [b]) ∨ ∃ r, out = encodeRune r := by
        simp only [unquoteStep, if_true] at h
        split_ifs at h
        all_goals first
          | (left
             simp only [Option.some.injEq, Prod.mk.injEq] at h
             obtain ⟨rfl, -⟩ := h
             rename_i he
             rcases he with rfl | rfl | rfl | rfl <;> exact ⟨_, by decide, rfl⟩)
          | skip
        · right
          split at h
          · exact absurd h (by simp)
          · split_ifs at h
            all_goals
              simp only [Option.some.injEq, Prod.mk.injEq] at h
              obtain ⟨rfl, -⟩ := h
              exact ⟨_, rfl⟩
      rcases key with ⟨b, hb, rfl⟩ | ⟨r, rfl⟩
      · exact validUTF8_ascii b x hb
      · exact validUTF8_encodeRune r x
  · by_cases hs : c = 0x22 ∨ c.val < 0x20
    · rw [unquoteStep_stop c t hs] at h; exact absurd h (by simp)
    · by_cases ha : c.val < 0x80
      · rw [unquoteStep_ascii c t (by omega) ha (fun e => hs (Or.inl e)) hc] at h
        simp only [Option.some.injEq, Prod.mk.injEq] at h
        obtain ⟨rfl, -⟩ := h
        exact validUTF8_ascii c x ha
      · rw [unquoteStep_high c t (by omega)] at h
        simp only [Option.some.injEq, Prod.mk.injEq] at h
        obtain ⟨rfl, -⟩ := h
        exact validUTF8_encodeRune _ x

/-- The decoder only produces valid UTF-8. -/
theorem unquoteRest_valid (s t : GoString) (h : unquoteRest s = some t) : validUTF8 t = true := by
  match s with
  | [] =>
    rw [unquoteRest_nil] at h
    simp only [Option.some.injEq] at h
    subst h; rfl
  | c :: u =>
    rw [unquoteRest_cons] at h
    cases hs : unquoteStep c u with
    | none => rw [hs] at h; exact absurd h (by simp)
    | some p =>
      obtain ⟨out, n⟩ := p
      rw [hs] at h
      simp only [Option.map_eq_some'] at h
      obtain ⟨t1, h1, rfl⟩ := h
      rw [unquoteStep_valid c u out n hs]
      exact unquoteRest_valid (u.drop n) t1 h1
termination_by s.length
decreasing_by simp only [List.length_cons, List.length_drop]; omega

theorem drop_pred_tail (b : Byte) (t : GoString) (k : Nat) (hk : 1 ≤ k) :
    t.drop (k - 1) = (b :: t).drop k := by
  obtain ⟨j, rfl⟩ : ∃ j, k = j + 1 := ⟨k - 1, by omega⟩
  simp

/-- The bytes skipped by the first loop of `unquoteBytes` are copied unchanged by the second. -/
theorem unquoteScan_split (s : GoString) :
    unquoteScan s.length s ≤ s.length ∧
      unquoteRest s =
        (unquoteRest (s.drop (unquoteScan s.length s))).map
          (s.take (unquoteScan s.length s) ++ ·) := by
  match s with
  | [] => exact ⟨le_refl _, rfl⟩
  | c :: t =>
    have hd := drop_decode_length c t
    have hp := decodeRune_size_pos c t
    by_cases h1 : c = 0x5C ∨ c = 0x22 ∨ c.val < 0x20
    · have hscan : unquoteScan (c :: t).length (c :: t) = 0 := by
        rw [unquoteScan_cons, if_pos h1]
      rw [hscan]
      exact ⟨Nat.zero_le _, by simp⟩
    have h5C : c ≠ 0x5C := fun e => h1 (Or.inl e)
    have h22 : c ≠ 0x22 := fun e => h1 (Or.inr (Or.inl e))
    have h20 : 0x20 ≤ c.val := by
      by_contra hlt; exact h1 (Or.inr (Or.inr (by omega)))
    by_cases h2 : c.val < 0x80
    · have hscan : unquoteScan (c :: t).length (c :: t) = unquoteScan t.length t + 1 := by
        rw [unquoteScan_cons, if_neg h1, if_pos h2, Nat.add_comm]
      obtain ⟨ih1, ih2⟩ := unquoteScan_split t
      rw [hscan, unquoteRest_cons, unquoteStep_ascii c t h20 h2 h22 h5C]
      refine ⟨by simp only [List.length_cons]; omega, ?_⟩
      simp only [List.drop_zero, List.drop_succ_cons, List.take_succ_cons]
      rw [ih2]
      cases unquoteRest (List.drop (unquoteScan t.length t) t) <;> simp
    rcases decodeRune_cases c t (by omega) with he | hdec
    · have hscan : unquoteScan (c :: t).length (c :: t) = 0 := by
        rw [unquoteScan_cons, if_neg h1, if_neg h2, if_pos (by rw [he]; exact ⟨rfl, rfl⟩)]
      rw [hscan]
      exact ⟨Nat.zero_le _, by simp⟩
    · have hk := hdec.size
      have hscan : unquoteScan (c :: t).length (c :: t) =
          (decodeRune (c :: t)).2 + unquoteScan ((c :: t).drop (decodeRune (c :: t)).2).length
            ((c :: t).drop (decodeRune (c :: t)).2) := by
        rw [unquoteScan_cons, if_neg h1, if_neg h2, if_neg (by rintro ⟨-, h⟩; omega)]
      obtain ⟨ih1, ih2⟩ := unquoteScan_split ((c :: t).drop (decodeRune (c :: t)).2)
      rw [hscan, unquoteRest_cons, unquoteStep_high c t (by omega)]
      simp only []
      rw [drop_pred_tail c t _ hp, ← hdec.take_eq]
      have hlen := List.length_drop (decodeRune (c :: t)).2 (c :: t)
      refine ⟨by omega, ?_⟩
      rw [ih2, List.drop_drop, List.take_add, Option.map_map, Nat.add_comm]
      congr 1
      funext x
      simp only [Function.comp, List.append_assoc]
termination_by s.length
decreasing_by all_goals (simp only [List.length_cons]; omega)

/-- The first loop of `unquoteBytes` is a shortcut: the function is its second loop. -/
theorem unquote_eq (s : GoString) : unquote s = unquoteRest s := by
  obtain ⟨h1, h2⟩ := unquoteScan_split s
  unfold unquote
  split
  · rename_i h
    rw [h2, h]
    simp [unquoteRest_nil]
  · exact h2.symm

theorem hexVal_hexDigit (n : Nat) (h : n < 16) : hexVal (hexDigit n) = some n := by
  revert n; decide

theorem isHex_hexDigit (n : Nat) (h : n < 16) : isHex (hexDigit n) = true := by
  revert n; decide

/-- The step of the unquoting loop at a `\uXXXX` escape of a rune that is not a surrogate. -/
theorem unquoteStep_u (h1 h2 h3 h4 : Byte) (x : GoString) (a b c d : Nat)
    (e1 : hexVal h1 = some a) (e2 : hexVal h2 = some b) (e3 : hexVal h3 = some c)
    (e4 : hexVal h4 = some d) (hs : isSurrogate (((a * 16 + b) * 16 + c) * 16 + d) = false) :
    unquoteStep 0x5C (0x75 :: h1 :: h2 :: h3 :: h4 :: x) =
      some (encodeRune (((a * 16 + b) * 16 + c) * 16 + d), 5) := by
  have hg : getu4 (0x5C :: 0x75 :: h1 :: h2 :: h3 :: h4 :: x)
      = some (((a * 16 + b) * 16 + c) * 16 + d) := by
    simp only [getu4, e1, e2, e3, e4]
    rfl
  unfold unquoteStep
  simp only [hg, hs]
  rfl

/-- The escape written for an ASCII byte is read back as that byte. -/
theorem unquoteStep_escapeByte (b : Byte) (hb : b.val < 0x80) (x : GoString) :
    ∃ e rest n, escapeByte b ++ x = 0x5C :: e :: rest ∧
      unquoteStep 0x5C (e :: rest) = some ([b], n) ∧ (e :: rest).drop n = x := by
  unfold escapeByte
  by_cases h1 : b = 0x5C ∨ b = 0x22
  · rw [if_pos h1]
    refine ⟨b, x, 1, rfl, ?_, rfl⟩
    rcases h1 with rfl | rfl <;> rfl
  rw [if_neg h1]
  by_cases h2 : b = 0x08
  · rw [if_pos h2]; subst h2; exact ⟨_, x, 1, rfl, rfl, rfl⟩
  rw [if_neg h2]
  by_cases h3 : b = 0x0C
  · rw [if_pos h3]; subst h3; exact ⟨_, x, 1, rfl, rfl, rfl⟩
  rw [if_neg h3]
  by_cases h4 : b = 0x0A
  · rw [if_pos h4]; subst h4; exact ⟨_, x, 1, rfl, rfl, rfl⟩
  rw [if_neg h4]
  by_cases h5 : b = 0x0D
  · rw [if_pos h5]; subst h5; exact ⟨_, x, 1, rfl, rfl, rfl⟩
  rw [if_neg h5]
  by_cases h6 : b = 0x09
  · rw [if_pos h6]; subst h6; exact ⟨_, x, 1, rfl, rfl, rfl⟩
  rw [if_neg h6]
  refine ⟨0x75, _, 5, rfl, ?_, rfl⟩
  have hv : hexVal 0x30 = some 0 := by decide
  have := unquoteStep_u 0x30 0x30 (hexDigit (b.val / 16)) (hexDigit (b.val % 16)) x 0 0
    (b.val / 16) (b.val % 16) hv hv (hexVal_hexDigit _ (by omega)) (hexVal_hexDigit _ (by omega))
    (by simp [isSurrogate]; omega)
  show unquoteStep 0x5C
    (0x75 :: 0x30 :: 0x30 :: hexDigit (b.val / 16) :: hexDigit (b.val % 16) :: x) = _
  rw [this]
  have e : ((0 * 16 + 0) * 16 + b.val / 16) * 16 + b.val % 16 = b.val := by omega
  rw [e, encodeRune_ascii _ hb, byte_eq b _ rfl]

theorem htmlSafe_spec (b : Byte) (h : htmlSafe b.val = true) :
    0x20 ≤ b.val ∧ b ≠ 0x22 ∧ b ≠ 0x5C := by
  simp only [htmlSafe, Bool.and_eq_true, decide_eq_true_eq, bne_iff_ne, ne_eq] at h
  refine ⟨by omega, ?_, ?_⟩ <;> rintro rfl <;> exact absurd h (by decide)

theorem Decoded.head_high {b : Byte} {t : GoString} {r k : Nat} (h : Decoded (b :: t) r k) :
    0x80 ≤ b.val := by
  have hk := h.size
  apply h.high b
  obtain ⟨j, rfl⟩ : ∃ j, k = j + 1 := ⟨k - 1, by omega⟩
  simp

theorem encodeBody_ascii (b : Byte) (t : GoString) (hb : b.val < 0x80) :
    encodeBody (b :: t) = (if htmlSafe b.val then [b] else escapeByte b) ++ encodeBody t := by
  rw [encodeBody_cons, if_pos hb]

theorem encodeBody_invalid (b : Byte) (t : GoString) (hb : 0x80 ≤ b.val)
    (he : decodeRune (b :: t) = (RuneError, 1)) :
    encodeBody (b :: t) = [0x5C, 0x75, 0x66, 0x66, 0x66, 0x64] ++ encodeBody t := by
  have h1 : ¬ b.val < 0x80 := by omega
  rw [encodeBody_cons, he, if_neg h1]
  rfl

theorem encodeBody_decoded {b : Byte} {t : GoString} {r k : Nat} (h : Decoded (b :: t) r k) :
    encodeBody (b :: t) =
      (if r = 0x2028 ∨ r = 0x2029 then [0x5C, 0x75, 0x32, 0x30, 0x32, hexDigit (r % 16)]
        else (b :: t).take k) ++ encodeBody ((b :: t).drop k) := by
  have h1 : ¬ b.val < 0x80 := by have := h.head_high; omega
  have hk := h.size
  have h2 : ¬ (r = RuneError ∧ k = 1) := by omega
  rw [encodeBody_cons, h.decode, if_neg h1]
  simp only []
  rw [if_neg h2]
  split_ifs <;> rfl

theorem coerceUTF8_ascii (b : Byte) (t : GoString) (hb : b.val < 0x80) :
    coerceUTF8 (b :: t) = b :: coerceUTF8 t := by
  rw [coerceUTF8_cons, decode_ascii b t hb]
  split_ifs with h
  · exact absurd h.2 (by omega)
  · rfl

theorem coerceUTF8_invalid (b : Byte) (t : GoString) (hb : 0x80 ≤ b.val)
    (he : decodeRune (b :: t) = (RuneError, 1)) :
    coerceUTF8 (b :: t) = [0xEF, 0xBF, 0xBD] ++ coerceUTF8 t := by
  rw [coerceUTF8_cons, he]
  split_ifs with h
  · rfl
  · exact absurd ⟨rfl, hb⟩ h

theorem coerceUTF8_decoded {b : Byte} {t : GoString} {r k : Nat} (h : Decoded (b :: t) r k) :
    coerceUTF8 (b :: t) = (b :: t).take k ++ coerceUTF8 ((b :: t).drop k) := by
  have hk := h.size
  have h1 : ¬ (k = 1 ∧ 0x80 ≤ b.val) := by omega
  rw [coerceUTF8_cons, h.decode]
  simp only []
  rw [if_neg h1]

/-- Reading back the body of a string literal written by the encoder gives the string coerced to
valid UTF-8. -/
theorem unquoteRest_encodeBody (s : GoString) :
    unquoteRest (encodeBody s) = some (coerceUTF8 s) := by
  match s with
  | [] => rfl
  | b :: t =>
    have hd := drop_decode_length b t
    have hp := decodeRune_size_pos b t
    by_cases hb : b.val < 0x80
    · rw [encodeBody_ascii b t hb, coerceUTF8_ascii b t hb]
      by_cases hsafe : htmlSafe b.val = true
      · rw [if_pos hsafe]
        obtain ⟨h20, h22, h5C⟩ := htmlSafe_spec b hsafe
        simp only [List.singleton_append]
        rw [unquoteRest_cons, unquoteStep_ascii b _ h20 hb h22 h5C]
        simp only [List.drop_zero]
        rw [unquoteRest_encodeBody t]
        rfl
      · rw [if_neg hsafe]
        obtain ⟨e, rest, n, h1, h2, h3⟩ := unquoteStep_escapeByte b hb (encodeBody t)
        rw [h1, unquoteRest_cons, h2]
        simp only []
        rw [h3, unquoteRest_encodeBody t]
        rfl
    rcases decodeRune_cases b t (by omega) with he | hdec
    · rw [encodeBody_invalid b t (by omega) he, coerceUTF8_invalid b t (by omega) he]
      have hv : hexVal 0x66 = some 15 := by decide
      have hv2 : hexVal 0x64 = some 13 := by decide
      have := unquoteStep_u 0x66 0x66 0x66 0x64 (encodeBody t) 15 15 15 13 hv hv hv hv2
        (by decide)
      show unquoteRest (0x5C :: 0x75 :: 0x66 :: 0x66 :: 0x66 :: 0x64 :: encodeBody t) = _
      rw [unquoteRest_cons, this]
      simp only []
      show Option.map _ (unquoteRest (encodeBody t)) = _
      rw [unquoteRest_encodeBody t]
      rfl
    · have hk := hdec.size
      have hr := hdec.rune
      rw [encodeBody_decoded hdec, coerceUTF8_decoded hdec]
      have ih := unquoteRest_encodeBody ((b :: t).drop (decodeRune (b :: t)).2)
      by_cases hls : (decodeRune (b :: t)).1 = 0x2028 ∨ (decodeRune (b :: t)).1 = 0x2029
      · rw [if_pos hls]
        have hv2 : hexVal 0x32 = some 2 := by decide
        have hv0 : hexVal 0x30 = some 0 := by decide
        have hm : (decodeRune (b :: t)).1 % 16 < 16 := by omega
        have := unquoteStep_u 0x32 0x30 0x32 (hexDigit ((decodeRune (b :: t)).1 % 16))
          (encodeBody ((b :: t).drop (decodeRune (b :: t)).2)) 2 0 2
          ((decodeRune (b :: t)).1 % 16) hv2 hv0 hv2 (hexVal_hexDigit _ hm)
          (by simp [isSurrogate]; omega)
        show unquoteRest (0x5C :: 0x75 :: 0x32 :: 0x30 :: 0x32 ::
          hexDigit ((decodeRune (b :: t)).1 % 16) ::
            encodeBody ((b :: t).drop (decodeRune (b :: t)).2)) = _
        rw [unquoteRest_cons, this]
        simp only []
        show Option.map _ (unquoteRest (encodeBody ((b :: t).drop (decodeRune (b :: t)).2))) = _
        rw [ih]
        have e : ((2 * 16 + 0) * 16 + 2) * 16 + (decodeRune (b :: t)).1 % 16
            = (decodeRune (b :: t)).1 := by omega
        rw [e, ← hdec.take_eq]
        rfl
      · rw [if_neg hls]
        have happ := (hdec.append (encodeBody ((b :: t).drop (decodeRune (b :: t)).2))).decode
        obtain ⟨b1, t1, ht⟩ : ∃ b1 t1, (b :: t).take (decodeRune (b :: t)).2 = b1 :: t1 := by
          obtain ⟨j, hj⟩ : ∃ j, (decodeRune (b :: t)).2 = j + 1 :=
            ⟨(decodeRune (b :: t)).2 - 1, by omega⟩
          rw [hj]; exact ⟨b, _, rfl⟩
        have hlen : t1.length = (decodeRune (b :: t)).2 - 1 := by
          have := congrArg List.length ht
          rw [List.length_take_of_le hk.2.1, List.length_cons] at this
          omega
        have hb1 : 0x80 ≤ b1.val := hdec.high b1 (by rw [ht]; simp)
        have hte := hdec.take_eq
        rw [ht] at happ hte ⊢
        rw [List.cons_append, unquoteRest_cons, unquoteStep_high b1 _ hb1]
        rw [List.cons_append] at happ
        rw [happ]
        simp only []
        rw [← hlen, List.drop_left, ih, ← hte]
        rfl
termination_by s.length
decreasing_by all_goals (simp only [List.length_cons]; omega)

/-- Reading back a string literal body gives the string coerced to valid UTF-8. -/
theorem unquote_encodeBody (s : GoString) : unquote (encodeBody s) = some (coerceUTF8 s) := by
  rw [unquote_eq, unquoteRest_encodeBody]

/-! ### The scanner on the text written by the encoder -/

theorem scanBytes_none (s : GoString) : scanBytes none s = none := by
  cases s <;> rfl

theorem scanBytes_append (st : Option Scanner) (a b : GoString) :
    scanBytes st (a ++ b) = scanBytes (scanBytes st a) b := by
  induction a generalizing st with
  | nil => simp [scanBytes]
  | cons c t ih =>
    cases st with
    | none => simp [scanBytes, scanBytes_none]
    | some s => simp only [List.cons_append, scanBytes]; exact ih _

/-- Inside a string literal the scanner copies any byte that is not a control byte, a quote or a
backslash. -/
theorem scanBytes_plain (acc chunk : GoString) (ps : List Frame) (r : Option JValue)
    (h : ∀ c ∈ chunk, 0x20 ≤ c.val ∧ c ≠ 0x22 ∧ c ≠ 0x5C) :
    scanBytes (some ⟨.inString acc, ps, r⟩) chunk = some ⟨.inString (acc ++ chunk), ps, r⟩ := by
  induction chunk generalizing acc with
  | nil => simp [scanBytes]
  | cons c t ih =>
    obtain ⟨h1, h2, h3⟩ := h c (by simp)
    have hl : ¬ c.val < 0x20 := by omega
    simp only [scanBytes, scanByte, if_neg h2, if_neg h3, if_neg hl]
    rw [ih _ (fun c hc => h c (by simp [hc]))]
    simp

theorem scanBytes_escape2 (acc : GoString) (e : Byte) (ps : List Frame) (r : Option JValue)
    (h : e = 0x62 ∨ e = 0x66 ∨ e = 0x6E ∨ e = 0x72 ∨ e = 0x74 ∨ e = 0x5C ∨ e = 0x2F ∨ e = 0x22) :
    scanBytes (some ⟨.inString acc, ps, r⟩) [0x5C, e]
      = some ⟨.inString (acc ++ [0x5C, e]), ps, r⟩ := by
  simp only [scanBytes, scanByte, if_pos h]
  simp

theorem scanBytes_escapeU (acc : GoString) (h1 h2 h3 h4 : Byte) (ps : List Frame)
    (r : Option JValue) (e1 : isHex h1 = true) (e2 : isHex h2 = true) (e3 : isHex h3 = true)
    (e4 : isHex h4 = true) :
    scanBytes (some ⟨.inString acc, ps, r⟩) [0x5C, 0x75, h1, h2, h3, h4]
      = some ⟨.inString (acc ++ [0x5C, 0x75, h1, h2, h3, h4]), ps, r⟩ := by
  simp [scanBytes, scanByte, e1, e2, e3, e4]

theorem scanBytes_escapeByte (acc : GoString) (b : Byte) (hb : b.val < 0x80)
    (ps : List Frame) (r : Option JValue) :
    scanBytes (some ⟨.inString acc, ps, r⟩) (escapeByte b)
      = some ⟨.inString (acc ++ escapeByte b), ps, r⟩ := by
  unfold escapeByte
  split_ifs with h1 h2 h3 h4 h5 h6
  · exact scanBytes_escape2 acc b ps r (by rcases h1 with h | h <;> simp [h])
  · exact scanBytes_escape2 acc _ ps r (by decide)
  · exact scanBytes_escape2 acc _ ps r (by decide)
  · exact scanBytes_escape2 acc _ ps r (by decide)
  · exact scanBytes_escape2 acc _ ps r (by decide)
  · exact scanBytes_escape2 acc _ ps r (by decide)
  · exact scanBytes_escapeU acc _ _ _ _ ps r (by decide) (by decide)
      (isHex_hexDigit _ (by omega)) (isHex_hexDigit _ (by omega))

/-- The scanner accepts the body of every string literal the encoder writes, and keeps it. -/
theorem scanBytes_encodeBody (s acc : GoString) (ps : List Frame) (r : Option JValue) :
    scanBytes (some ⟨.inString acc, ps, r⟩) (encodeBody s)
      = some ⟨.inString (acc ++ encodeBody s), ps, r⟩ := by
  match s with
  | [] => simp [encodeBody_nil, scanBytes]
  | b :: t =>
    have hd := drop_decode_length b t
    by_cases hb : b.val < 0x80
    · rw [encodeBody_ascii b t hb, scanBytes_append]
      by_cases hsafe : htmlSafe b.val = true
      · rw [if_pos hsafe, scanBytes_plain acc [b] ps r
          (by intro c hc; simp only [List.mem_singleton] at hc; subst hc
              exact htmlSafe_spec c hsafe)]
        rw [scanBytes_encodeBody t, List.append_assoc]
      · rw [if_neg hsafe, scanBytes_escapeByte acc b hb, scanBytes_encodeBody t,
          List.append_assoc]
    rcases decodeRune_cases b t (by omega) with he | hdec
    · rw [encodeBody_invalid b t (by omega) he, scanBytes_append,
        scanBytes_escapeU acc _ _ _ _ ps r (by decide) (by decide) (by decide) (by decide),
        scanBytes_encodeBody t, List.append_assoc]
    · have hr := hdec.rune
      rw [encodeBody_decoded hdec, scanBytes_append]
      split_ifs with hls
      · rw [scanBytes_escapeU acc _ _ _ _ ps r (by decide) (by decide) (by decide)
          (isHex_hexDigit _ (by omega)), scanBytes_encodeBody _, List.append_assoc]
      · rw [scanBytes_plain acc _ ps r (by
          intro c hc
          have := hdec.high c hc
          refine ⟨by omega, ?_, ?_⟩ <;> rintro rfl <;> exact absurd this (by decide)),
          scanBytes_encodeBody _, List.append_assoc]
termination_by s.length
decreasing_by all_goals (simp only [List.length_cons]; omega)

/-- The scanner reads the text of one profile as an array element. -/
theorem scanBytes_marshalProfile (p : GitProfile) (es : List JValue) (st : Step)
    (hst : st = .beginValue ∨ st = .beginValueOrEmpty) :
    scanBytes (some ⟨st, [.arr es], none⟩) (marshalProfile p)
      = some ⟨.endValue, [.arr (es ++ [profileValue p])], none⟩ := by
  unfold marshalProfile appendString
  simp only [scanBytes_append]
  have h1 : scanBytes (some ⟨st, [.arr es], none⟩)
      [0x20, 0x20, 0x7B, 0x0A, 0x20, 0x20, 0x20, 0x20, 0x22, 0x6E, 0x61, 0x6D, 0x65, 0x22, 0x3A,
        0x20] = some ⟨.beginValue, [.obj [] (some nameKey), .arr es], none⟩ := by
    rcases hst with rfl | rfl <;> rfl
  rw [h1]
  have h2 : scanBytes (some ⟨.beginValue, [.obj [] (some nameKey), .arr es], none⟩) [0x22]
      = some ⟨.inString [], [.obj [] (some nameKey), .arr es], none⟩ := rfl
  rw [h2, scanBytes_encodeBody]
  have h3 : scanBytes (some ⟨.inString ([] ++ encodeBody p.Name),
        [.obj [] (some nameKey), .arr es], none⟩) [0x22]
      = some ⟨.endValue, [.obj [(nameKey, .string (encodeBody p.Name))] none, .arr es],
          none⟩ := by
    simp [scanBytes, scanByte, complete]
  rw [h3]
  have h4 : scanBytes (some ⟨.endValue,
        [.obj [(nameKey, .string (encodeBody p.Name))] none, .arr es], none⟩)
      [0x2C, 0x0A, 0x20, 0x20, 0x20, 0x20, 0x22, 0x65, 0x6D, 0x61, 0x69, 0x6C, 0x22, 0x3A, 0x20]
      = some ⟨.beginValue,
          [.obj [(nameKey, .string (encodeBody p.Name))] (some emailKey), .arr es], none⟩ := rfl
  rw [h4]
  have h5 : scanBytes (some ⟨.beginValue,
        [.obj [(nameKey, .string (encodeBody p.Name))] (some emailKey), .arr es], none⟩) [0x22]
      = some ⟨.inString [],
          [.obj [(nameKey, .string (encodeBody p.Name))] (some emailKey), .arr es], none⟩ := rfl
  rw [h5, scanBytes_encodeBody]
  have h6 : scanBytes (some ⟨.inString ([] ++ encodeBody p.Email),
        [.obj [(nameKey, .string (encodeBody p.Name))] (some emailKey), .arr es], none⟩) [0x22]
      = some ⟨.endValue, [.obj [(nameKey, .string (encodeBody p.Name)),
          (emailKey, .string (encodeBody p.Email))] none, .arr es], none⟩ := by
    simp [scanBytes, scanByte, complete]
  rw [h6]
  rfl

theorem scanBytes_marshalElems (p : GitProfile) (ps : List GitProfile) (es : List JValue)
    (st : Step) (hst : st = .beginValue ∨ st = .beginValueOrEmpty) :
    scanBytes (some ⟨st, [.arr es], none⟩) (marshalElems (p :: ps))
      = some ⟨.endValue, [.arr (es ++ (p :: ps).map profileValue)], none⟩ := by
  induction ps generalizing p es st with
  | nil => exact scanBytes_marshalProfile p es st hst
  | cons q qs ih =>
    simp only [marshalElems, scanBytes_append]
    rw [scanBytes_marshalProfile p es st hst]
    have h : scanBytes (some ⟨.endValue, [.arr (es ++ [profileValue p])], none⟩) [0x2C, 0x0A]
        = some ⟨.beginValue, [.arr (es ++ [profileValue p])], none⟩ := rfl
    rw [h, ih q _ _ (Or.inl rfl)]
    simp

theorem parseJSON_MarshalIndent (ps : List GitProfile) :
    parseJSON (MarshalIndent ps) = some (.array (ps.map profileValue)) := by
  cases ps with
  | nil => rfl
  | cons p ps =>
    simp only [parseJSON, MarshalIndent, scanBytes_append]
    have h : scanBytes (some ⟨.beginValue, [], none⟩) [0x5B, 0x0A]
        = some ⟨.beginValueOrEmpty, [.arr []], none⟩ := rfl
    rw [h, scanBytes_marshalElems p ps [] _ (Or.inr rfl)]
    rfl

theorem decodeElem_profileValue (p : GitProfile) :
    decodeElem (profileValue p) = some (coerceProfile p) := by
  have h1 : unquote nameKey = some nameKey := by decide
  have h2 : unquote emailKey = some emailKey := by decide
  have h3 : matchesField nameKey nameKey = true := by decide
  have h4 : matchesField emailKey nameKey = false := by decide
  have h5 : matchesField emailKey emailKey = true := by decide
  simp only [decodeElem, profileValue, decodeMembers, h1, h2, h3, h4, h5, decodeField,
    unquote_encodeBody, if_true, Bool.false_eq_true, if_false]
  rfl

theorem decodeElems_profileValue (ps : List GitProfile) :
    decodeElems (ps.map profileValue) = some (ps.map coerceProfile) := by
  induction ps with
  | nil => rfl
  | cons p ps ih => simp only [List.map_cons, decodeElems, decodeElem_profileValue, ih]

/-- Reading back a written catalogue gives the catalogue with every string coerced to valid
UTF-8. -/
theorem Unmarshal_MarshalIndent (ps : List GitProfile) :
    Unmarshal (MarshalIndent ps) = some (ps.map coerceProfile) := by
  simp only [Unmarshal, parseJSON_MarshalIndent, decodeSlice, decodeElems_profileValue]

theorem coerceProfile_valid (p : GitProfile) (h : validProfile p = true) : coerceProfile p = p := by
  simp only [validProfile, Bool.and_eq_true] at h
  cases p with
  | mk n e => simp only [coerceProfile, coerceUTF8_valid n h.1, coerceUTF8_valid e h.2]

/-- A catalogue of valid UTF-8 strings is read back unchanged. -/
theorem Unmarshal_MarshalIndent_valid (ps : List GitProfile)
    (h : ∀ p ∈ ps, validProfile p = true) : Unmarshal (MarshalIndent ps) = some ps := by
  rw [Unmarshal_MarshalIndent]
  congr 1
  conv_rhs => rw [← List.map_id ps]
  exact List.map_congr_left (fun p hp => coerceProfile_valid p (h p hp))

theorem unquote_valid (s t : GoString) (h : unquote s = some t) : validUTF8 t = true := by
  rw [unquote_eq] at h; exact unquoteRest_valid s t h

theorem decodeField_valid (cur : GoString) (v : JValue) (t : GoString)
    (hc : validUTF8 cur = true) (h : decodeField cur v = some t) : validUTF8 t = true := by
  cases v with
  | string raw => exact unquote_valid raw t h
  | null => simp only [decodeField, Option.some.injEq] at h; subst h; exact hc
  | bool b => simp [decodeField] at h
  | number => simp [decodeField] at h
  | array es => simp [decodeField] at h
  | object ms => simp [decodeField] at h

theorem decodeMembers_valid (ms : List (GoString × JValue)) (p q : GitProfile)
    (hp : validProfile p = true) (h : decodeMembers ms p = some q) : validProfile q = true := by
  induction ms generalizing p with
  | nil => simp only [decodeMembers, Option.some.injEq] at h; subst h; exact hp
  | cons m ms ih =>
    obtain ⟨rawKey, v⟩ := m
    simp only [validProfile, Bool.and_eq_true] at hp
    simp only [decodeMembers] at h
    split at h
    · simp at h
    · split_ifs at h
      · split at h
        · simp at h
        · rename_i n hn
          exact ih _ (by simp only [validProfile, Bool.and_eq_true]
                         exact ⟨decodeField_valid _ _ _ hp.1 hn, hp.2⟩) h
      · split at h
        · simp at h
        · rename_i e he
          exact ih _ (by simp only [validProfile, Bool.and_eq_true]
                         exact ⟨hp.1, decodeField_valid _ _ _ hp.2 he⟩) h
      · exact ih _ (by simp only [validProfile, Bool.and_eq_true]; exact hp) h

theorem decodeElem_valid (v : JValue) (p : GitProfile) (h : decodeElem v = some p) :
    validProfile p = true := by
  cases v with
  | object ms => exact decodeMembers_valid ms _ p (by decide) h
  | null => simp only [decodeElem, Option.some.injEq] at h; subst h; decide
  | bool b => simp [decodeElem] at h
  | number => simp [decodeElem] at h
  | array es => simp [decodeElem] at h
  | string raw => simp [decodeElem] at h

theorem decodeElems_valid (vs : List JValue) (ps : List GitProfile)
    (h : decodeElems vs = some ps) : ∀ p ∈ ps, validProfile p = true := by
  induction vs generalizing ps with
  | nil => simp only [decodeElems, Option.some.injEq] at h; subst h; simp
  | cons v vs ih =>
    simp only [decodeElems] at h
    split at h
    · rename_i p1 ps1 h1 h2
      simp only [Option.some.injEq] at h
      subst h
      intro p hp
      rcases List.mem_cons.mp hp with rfl | hp
      · exact decodeElem_valid v p h1
      · exact ih ps1 h2 p hp
    · simp at h

/-- Every catalogue that `json.Unmarshal` returns consists of valid UTF-8 strings. -/
theorem Unmarshal_valid (data : GoString) (ps : List GitProfile) (h : Unmarshal data = some ps) :
    ∀ p ∈ ps, validProfile p = true := by
  simp only [Unmarshal] at h
  split at h
  · simp at h
  · rename_i v hv
    cases v with
    | array es => exact decodeElems_valid es ps h
    | null => simp only [decodeSlice, Option.some.injEq] at h; subst h; simp
    | bool b => simp [decodeSlice] at h
    | number => simp [decodeSlice] at h
    | object ms => simp [decodeSlice] at h
    | string raw => simp [decodeSlice] at h

/-! ### The store -/

theorem World.ready_iff (w : World) :
    w.ready = true ↔ w.homeOk = true ∧ w.dirExists = true ∧ w.docBlocked = false := by
  simp [World.ready, and_assoc]

theorem World.readable_iff (w : World) :
    w.readable = true ↔ ∀ d, w.doc = some d → d.readable = true := by
  unfold World.readable
  cases w.doc with
  | none => simp
  | some d => simp

theorem getConfigFilePath_ready (w : World) (h : w.ready = true) :
    getConfigFilePath w = (.ok (), w) := by
  rw [World.ready_iff] at h
  simp [getConfigFilePath, h.1, h.2.1]

theorem getConfigFilePath_ok (w : World) (h : (getConfigFilePath w).1 = .ok ()) :
    (getConfigFilePath w).2 = { w with dirExists := true } ∧
      (w.docBlocked = false → (getConfigFilePath w).2.ready = true) ∧ w.homeOk = true := by
  unfold getConfigFilePath at h ⊢
  cases hh : w.homeOk <;> cases hd : w.dirExists <;> cases hm : w.mkdirOk <;>
    simp [hh, hd, hm, World.ready] at h ⊢
  all_goals (cases w; simp_all)

theorem getConfigFilePath_error (w : World) (e : Err) (h : (getConfigFilePath w).1 = .error e) :
    (getConfigFilePath w).2 = w := by
  unfold getConfigFilePath at h ⊢
  cases hh : w.homeOk <;> cases hd : w.dirExists <;> cases hm : w.mkdirOk <;>
    simp [hh, hd, hm] at h ⊢

theorem loadProfiles_eq (w : World) :
    loadProfiles w =
      match getConfigFilePath w with
      | (.error err, w1) => (.error err, w1)
      | (.ok _, w1) => (if w1.docBlocked then .error .io else readDocument w1.doc, w1) := by
  unfold loadProfiles readDocument statNotExist readFile
  cases getConfigFilePath w with
  | mk r w1 =>
    cases r with
    | error e => rfl
    | ok u =>
      simp only []
      cases hb : w1.docBlocked
      · cases w1.doc with
        | none => rfl
        | some d =>
          cases hr : d.readable
          · simp [hr]
          · simp only [hr, Bool.not_false, Option.isNone_some, Bool.and_false,
              Bool.false_eq_true, if_false, if_true, Bool.not_true]
            cases Unmarshal d.content <;> rfl
      · cases w1.doc <;> rfl

theorem loadProfiles_ready (w : World) (h : w.ready = true) :
    loadProfiles w = (readDocument w.doc, w) := by
  rw [loadProfiles_eq, getConfigFilePath_ready w h]
  simp only [((World.ready_iff w).mp h).2.2, Bool.false_eq_true, if_false]

theorem saveProfiles_ready (ps : List GitProfile) (w : World) (h : w.ready = true) :
    saveProfiles ps w =
      if w.writeOk then (.ok (), { w with doc := some (writeFile (MarshalIndent ps) w.doc) })
      else (.error .io, w) := by
  unfold saveProfiles
  rw [getConfigFilePath_ready w h]
  simp only [((World.ready_iff w).mp h).2.2, Bool.not_false, Bool.and_true]

theorem readDocument_ok (doc : Option Doc) (C : List GitProfile)
    (h : readDocument doc = .ok C) :
    (doc = none ∧ C = []) ∨ ∃ d, doc = some d ∧ d.readable = true ∧ Unmarshal d.content = some C := by
  unfold readDocument at h
  cases doc with
  | none =>
    simp only [Except.ok.injEq] at h
    exact Or.inl ⟨rfl, h.symm⟩
  | some d =>
    simp only [] at h
    cases hr : d.readable
    · simp [hr] at h
    · simp only [hr, Bool.not_true, Bool.false_eq_true, if_false] at h
      cases hu : Unmarshal d.content with
      | none => simp [hu] at h
      | some ps =>
        simp only [hu, Except.ok.injEq] at h
        subst h
        exact Or.inr ⟨d, rfl, hr, hu⟩

/-- What a successful load tells about the environment. -/
theorem loadProfiles_ok (w : World) (C : List GitProfile) (h : (loadProfiles w).1 = .ok C) :
    (loadProfiles w).2 = { w with dirExists := true } ∧ (loadProfiles w).2.ready = true ∧
      (loadProfiles w).2.readable = true ∧ (loadProfiles w) = (.ok C, (loadProfiles w).2) ∧
      readDocument w.doc = .ok C := by
  rw [loadProfiles_eq] at h ⊢
  cases hg : getConfigFilePath w with
  | mk r w1 =>
    have hg1 : (getConfigFilePath w).1 = r := by rw [hg]
    have hg2 : (getConfigFilePath w).2 = w1 := by rw [hg]
    rw [hg] at h
    cases r with
    | error e => simp at h
    | ok u =>
      obtain ⟨e1, e2, e3⟩ := getConfigFilePath_ok w hg1
      rw [hg2] at e1 e2
      have hdoc : w1.doc = w.doc := by rw [e1]
      have hblk : w1.docBlocked = w.docBlocked := by rw [e1]
      simp only [] at h ⊢
      have hb : w.docBlocked = false := by
        cases hb : w.docBlocked
        · rfl
        · rw [hblk, hb] at h
          simp at h
      replace e2 := e2 hb
      have hb1 : w1.docBlocked = false := hblk.trans hb
      simp only [hb1, Bool.false_eq_true, if_false] at h ⊢
      rw [hdoc] at h
      refine ⟨e1, e2, ?_, by rw [hdoc, h], h⟩
      rw [World.readable_iff]
      intro d hd
      rw [hdoc] at hd
      rcases readDocument_ok _ _ h with ⟨hn, -⟩ | ⟨d1, h1, h2, -⟩
      · rw [hn] at hd; exact nomatch hd
      · rw [h1] at hd
        simp only [Option.some.injEq] at hd
        subst hd; exact h2

/-- A loaded catalogue consists of valid UTF-8 strings. -/
theorem loadProfiles_valid (w : World) (C : List GitProfile) (h : (loadProfiles w).1 = .ok C) :
    ∀ p ∈ C, validProfile p = true := by
  obtain ⟨-, -, -, -, h5⟩ := loadProfiles_ok w C h
  rcases readDocument_ok _ _ h5 with ⟨-, rfl⟩ | ⟨d, -, -, hu⟩
  · simp
  · exact Unmarshal_valid _ _ hu

/-- Loading twice gives the same catalogue. -/
theorem loadProfiles_again (w : World) (C : List GitProfile) (h : (loadProfiles w).1 = .ok C) :
    loadProfiles (loadProfiles w).2 = (.ok C, (loadProfiles w).2) := by
  obtain ⟨h1, h2, h3, h4, h5⟩ := loadProfiles_ok w C h
  rw [loadProfiles_ready _ h2]
  congr 1
  rw [h1]
  exact h5

/-- Saving in a working environment and loading again gives the catalogue coerced to UTF-8. -/
theorem loadProfiles_saveProfiles (ps : List GitProfile) (w : World) (h : w.ready = true)
    (hr : w.readable = true) (hw : w.writeOk = true) :
    (saveProfiles ps w).1 = .ok () ∧
      loadProfiles (saveProfiles ps w).2 = (.ok (ps.map coerceProfile), (saveProfiles ps w).2) := by
  rw [saveProfiles_ready ps w h, if_pos hw]
  refine ⟨rfl, ?_⟩
  show loadProfiles { w with doc := some (writeFile (MarshalIndent ps) w.doc) } =
    (_, { w with doc := some (writeFile (MarshalIndent ps) w.doc) })
  rw [loadProfiles_ready { w with doc := some (writeFile (MarshalIndent ps) w.doc) } h]
  have hread : (writeFile (MarshalIndent ps) w.doc).readable = true := by
    unfold writeFile
    cases hd : w.doc with
    | none => rfl
    | some d => exact (World.readable_iff w).mp hr d hd
  have hcont : (writeFile (MarshalIndent ps) w.doc).content = MarshalIndent ps := by
    unfold writeFile
    cases w.doc <;> rfl
  simp only [readDocument, hread, hcont, Unmarshal_MarshalIndent, Bool.not_true,
    Bool.false_eq_true, if_false]

theorem map_coerceProfile_valid (ps : List GitProfile) (h : ∀ p ∈ ps, validProfile p = true) :
    ps.map coerceProfile = ps := by
  conv_rhs => rw [← List.map_id ps]
  exact List.map_congr_left (fun p hp => coerceProfile_valid p (h p hp))

/-! ### The commands -/

theorem any_name_iff (C : List GitProfile) (n : GoString) :
    C.any (fun p => p.Name = n) = true ↔ ∃ p ∈ C, p.Name = n := by
  simp [List.any_eq_true]

/-- Saving after a successful load: the outcome, and what is loaded afterwards. -/
theorem save_after_load (w : World) (C ps : List GitProfile) (h : (loadProfiles w).1 = .ok C) :
    (w.writeOk = true → (saveProfiles ps (loadProfiles w).2).1 = .ok ()) ∧
      (w.writeOk = false → saveProfiles ps (loadProfiles w).2 = (.error .io, (loadProfiles w).2)) ∧
      ((saveProfiles ps (loadProfiles w).2).1 = .ok () →
        (loadProfiles (saveProfiles ps (loadProfiles w).2).2).1 = .ok (ps.map coerceProfile)) := by
  obtain ⟨h1, h2, h3, h4, h5⟩ := loadProfiles_ok w C h
  have hw : (loadProfiles w).2.writeOk = w.writeOk := by rw [h1]
  rw [saveProfiles_ready _ _ h2, hw]
  refine ⟨fun e => by rw [if_pos e], fun e => by rw [e]; rfl, fun hs => ?_⟩
  cases hwo : w.writeOk
  · rw [hwo] at hs; simp at hs
  · have := loadProfiles_saveProfiles ps _ h2 h3 (hw.trans hwo)
    rw [saveProfiles_ready _ _ h2, hw, hwo] at this
    rw [if_pos rfl] at this ⊢
    rw [this.2]

/-- A save after a load never fails with one of the errors of the commands. -/
theorem save_after_load_cases (w : World) (C ps : List GitProfile)
    (h : (loadProfiles w).1 = .ok C) :
    (saveProfiles ps (loadProfiles w).2).1 = .ok () ∨
      saveProfiles ps (loadProfiles w).2 = (.error .io, (loadProfiles w).2) := by
  obtain ⟨s1, s2, -⟩ := save_after_load w C ps h
  cases hwo : w.writeOk
  · exact Or.inr (s2 hwo)
  · exact Or.inl (s1 hwo)

theorem addProfile_eq (w : World) (C : List GitProfile) (n e : GoString)
    (h : (loadProfiles w).1 = .ok C) :
    addProfile n e w =
      if C.any (fun p => p.Name = n) then (.error (.alreadyExists n), (loadProfiles w).2)
      else saveProfiles (C ++ [{ Name := n, Email := e }]) (loadProfiles w).2 := by
  unfold addProfile
  cases hl : loadProfiles w with
  | mk r w1 =>
    rw [hl] at h
    simp only [] at h
    subst h
    rfl

theorem findIndex_none (n : GoString) (C : List GitProfile) (i : Nat)
    (h : ∀ p ∈ C, p.Name ≠ n) : findIndex n C i = none := by
  induction C generalizing i with
  | nil => rfl
  | cons p ps ih =>
    simp only [findIndex]
    rw [if_neg (h p (by simp))]
    exact ih _ (fun q hq => h q (by simp [hq]))

theorem findIndex_first (n : GoString) (l1 l2 : List GitProfile) (p : GitProfile) (i : Nat)
    (hp : p.Name = n) (h : ∀ q ∈ l1, q.Name ≠ n) :
    findIndex n (l1 ++ p :: l2) i = some (i + l1.length) := by
  induction l1 generalizing i with
  | nil => simp [findIndex, hp]
  | cons q qs ih =>
    simp only [List.cons_append, findIndex]
    rw [if_neg (h q (by simp))]
    show findIndex n (qs ++ p :: l2) (i + 1) = _
    rw [ih _ (fun r hr => h r (by simp [hr]))]
    simp only [List.length_cons]
    congr 1
    omega

/-- A list with an entry named `n` splits at the first such entry. -/
theorem exists_first (n : GoString) (C : List GitProfile) (h : ∃ p ∈ C, p.Name = n) :
    ∃ l1 p l2, C = l1 ++ p :: l2 ∧ p.Name = n ∧ ∀ q ∈ l1, q.Name ≠ n := by
  induction C with
  | nil => obtain ⟨p, hp, -⟩ := h; simp at hp
  | cons c cs ih =>
    by_cases hc : c.Name = n
    · exact ⟨[], c, cs, rfl, hc, by simp⟩
    · obtain ⟨p, hp, hpn⟩ := h
      rcases List.mem_cons.mp hp with rfl | hp1
      · exact absurd hpn hc
      · obtain ⟨m1, q, m2, e1, e2, e3⟩ := ih ⟨p, hp1, hpn⟩
        refine ⟨c :: m1, q, m2, by rw [e1]; rfl, e2, ?_⟩
        intro r hr
        rcases List.mem_cons.mp hr with rfl | hr1
        · exact hc
        · exact e3 r hr1

theorem deleteProfile_eq (w : World) (C : List GitProfile) (n : GoString)
    (h : (loadProfiles w).1 = .ok C) :
    deleteProfile n w =
      match findIndex n C 0 with
      | none => (.error (.notFound n), (loadProfiles w).2)
      | some index => saveProfiles (C.take index ++ C.drop (index + 1)) (loadProfiles w).2 := by
  unfold deleteProfile
  cases hl : loadProfiles w with
  | mk r w1 =>
    rw [hl] at h
    simp only [] at h
    subst h
    rfl

theorem deleteProfile_none (w : World) (C : List GitProfile) (n : GoString)
    (h : (loadProfiles w).1 = .ok C) (hn : ∀ p ∈ C, p.Name ≠ n) :
    deleteProfile n w = (.error (.notFound n), (loadProfiles w).2) := by
  rw [deleteProfile_eq w C n h, findIndex_none n C 0 hn]

theorem deleteProfile_first (w : World) (n : GoString) (l1 l2 : List GitProfile) (p : GitProfile)
    (h : (loadProfiles w).1 = .ok (l1 ++ p :: l2)) (hp : p.Name = n)
    (hl : ∀ q ∈ l1, q.Name ≠ n) :
    deleteProfile n w = saveProfiles (l1 ++ l2) (loadProfiles w).2 := by
  rw [deleteProfile_eq w _ n h, findIndex_first n l1 l2 p 0 hp hl]
  simp only [Nat.zero_add]
  have ht : (l1 ++ p :: l2).take l1.length ++ (l1 ++ p :: l2).drop (l1.length + 1)
      = l1 ++ l2 := by
    rw [List.take_left, List.drop_append_eq_append_drop]
    simp
  rw [ht]

/-! ### strconv.Atoi -/

theorem digitsFrom_nil (n : Nat) : digitsFrom n [] = n := rfl

theorem digitsFrom_cons (n : Nat) (c : Byte) (t : GoString) :
    digitsFrom n (c :: t) = digitsFrom (n * 10 + (c.val - 0x30)) t := rfl

theorem decimalValue_eq (digits : GoString) : decimalValue digits = digitsFrom 0 digits := rfl

theorem le_digitsFrom (n : Nat) (t : GoString) : n ≤ digitsFrom n t := by
  induction t generalizing n with
  | nil => exact le_refl _
  | cons c t ih =>
    rw [digitsFrom_cons]
    exact le_trans (by omega) (ih _)

theorem atoiDigits_some (t : GoString) (n m : Nat) (h : atoiDigits t n = some m) :
    (∀ c ∈ t, isDigit c = true) ∧ m = digitsFrom n t := by
  induction t generalizing n with
  | nil =>
    simp only [atoiDigits, Option.some.injEq] at h
    exact ⟨by simp, h.symm⟩
  | cons c t ih =>
    simp only [atoiDigits] at h
    split_ifs at h with hd
    obtain ⟨h1, h2⟩ := ih _ h
    refine ⟨?_, h2⟩
    intro x hx
    rcases List.mem_cons.mp hx with rfl | hx
    · exact hd
    · exact h1 x hx

theorem atoiDigits_digits (t : GoString) (n : Nat) (h : ∀ c ∈ t, isDigit c = true) :
    atoiDigits t n = some (digitsFrom n t) := by
  induction t generalizing n with
  | nil => rfl
  | cons c t ih =>
    simp only [atoiDigits]
    rw [if_pos (h c (by simp)), ih _ (fun x hx => h x (by simp [hx]))]
    rfl

theorem parseUintLoop_some (t : GoString) (n m : Nat) (h : parseUintLoop t n = some m) :
    (∀ c ∈ t, isDigit c = true) ∧ m = digitsFrom n t := by
  induction t generalizing n with
  | nil =>
    simp only [parseUintLoop, Option.some.injEq] at h
    exact ⟨by simp, h.symm⟩
  | cons c t ih =>
    simp only [parseUintLoop] at h
    split_ifs at h with hd h1 h2
    obtain ⟨k1, k2⟩ := ih _ h
    refine ⟨?_, k2⟩
    intro x hx
    rcases List.mem_cons.mp hx with rfl | hx
    · exact hd
    · exact k1 x hx

theorem parseUintLoop_digits (t : GoString) (n : Nat) (h : ∀ c ∈ t, isDigit c = true)
    (hb : digitsFrom n t ≤ 2 ^ 64 - 1) : parseUintLoop t n = some (digitsFrom n t) := by
  induction t generalizing n with
  | nil => rfl
  | cons c t ih =>
    rw [digitsFrom_cons] at hb ⊢
    have hle := le_digitsFrom (n * 10 + (c.val - 0x30)) t
    simp only [parseUintLoop]
    rw [if_pos (h c (by simp)), if_neg (by omega), if_neg (by omega)]
    exact ih _ (fun x hx => h x (by simp [hx])) hb

theorem digit_not_sign (c : Byte) (h : isDigit c = true) : c ≠ 0x2B ∧ c ≠ 0x2D := by
  constructor <;> rintro rfl <;> exact absurd h (by decide)

theorem isDigit_iff (c : Byte) : isDigit c = true ↔ 0x30 ≤ c.val ∧ c.val ≤ 0x39 := by
  simp [isDigit]

theorem Atoi_some_digits (t : GoString) (v : Int) (h : Atoi t = some v) :
    ∃ digits : GoString, digits ≠ [] ∧ (∀ c ∈ digits, isDigit c = true) ∧
      ((t = digits ∧ v = decimalValue digits) ∨ (t = 0x2B :: digits ∧ v = decimalValue digits)
        ∨ (t = 0x2D :: digits ∧ v = -(decimalValue digits : Int))) := by
  unfold Atoi at h
  cases t with
  | nil => simp [ParseInt] at h
  | cons c t =>
    simp only [] at h
    split_ifs at h with hlen hm hp
    · -- fast path, minus sign
      cases t with
      | nil => simp at h
      | cons d t =>
        simp only [] at h
        cases hn : atoiDigits (d :: t) 0 with
        | none => rw [hn] at h; exact nomatch h
        | some n =>
          rw [hn] at h
          simp only [Option.map_some', Option.some.injEq] at h
          obtain ⟨h1, h2⟩ := atoiDigits_some _ _ _ hn
          exact ⟨d :: t, by simp, h1, Or.inr (Or.inr ⟨by rw [hm], by rw [← h, h2]; rfl⟩)⟩
    · cases t with
      | nil => simp at h
      | cons d t =>
        simp only [] at h
        cases hn : atoiDigits (d :: t) 0 with
        | none => rw [hn] at h; exact nomatch h
        | some n =>
          rw [hn] at h
          simp only [Option.map_some', Option.some.injEq] at h
          obtain ⟨h1, h2⟩ := atoiDigits_some _ _ _ hn
          exact ⟨d :: t, by simp, h1, Or.inr (Or.inl ⟨by rw [hp], by rw [← h, h2]; rfl⟩)⟩
    · cases hn : atoiDigits (c :: t) 0 with
      | none => rw [hn] at h; exact nomatch h
      | some n =>
        rw [hn] at h
        simp only [Option.map_some', Option.some.injEq] at h
        obtain ⟨h1, h2⟩ := atoiDigits_some _ _ _ hn
        exact ⟨c :: t, by simp, h1, Or.inl ⟨rfl, by rw [← h, h2]; rfl⟩⟩
    · -- slow path
      unfold ParseInt at h
      simp only [] at h
      split_ifs at h with hp hm
      · cases t with
        | nil => simp [ParseUint] at h
        | cons d t =>
          simp only [ParseUint] at h
          cases hu : parseUintLoop (d :: t) 0 with
          | none => simp [hu] at h
          | some un =>
            simp only [hu] at h
            split_ifs at h
            simp only [Option.some.injEq] at h
            obtain ⟨h1, h2⟩ := parseUintLoop_some _ _ _ hu
            subst h
            exact ⟨d :: t, by simp, h1, Or.inr (Or.inl ⟨by rw [hp], by rw [h2]; rfl⟩)⟩
      · cases t with
        | nil => simp [ParseUint] at h
        | cons d t =>
          simp only [ParseUint] at h
          cases hu : parseUintLoop (d :: t) 0 with
          | none => simp [hu] at h
          | some un =>
            simp only [hu] at h
            split_ifs at h
            simp only [Option.some.injEq] at h
            obtain ⟨h1, h2⟩ := parseUintLoop_some _ _ _ hu
            subst h
            exact ⟨d :: t, by simp, h1, Or.inr (Or.inr ⟨by rw [hm], by rw [h2]; rfl⟩)⟩
      · simp only [ParseUint] at h
        cases hu : parseUintLoop (c :: t) 0 with
        | none => simp [hu] at h
        | some un =>
          simp only [hu] at h
          split_ifs at h
          simp only [Option.some.injEq] at h
          obtain ⟨h1, h2⟩ := parseUintLoop_some _ _ _ hu
          subst h
          exact ⟨c :: t, by simp, h1, Or.inl ⟨rfl, by rw [h2]; rfl⟩⟩

/-- What `strconv.Atoi` returns is the value of a decimal integer. -/
theorem Atoi_some (t : GoString) (v : Int) (h : Atoi t = some v) : IsDecimalInteger t v := by
  obtain ⟨digits, hne, hd, hcase⟩ := Atoi_some_digits t v h
  exact ⟨digits, hne, fun c hc => (isDigit_iff c).mp (hd c hc), hcase⟩

/-- A decimal integer within the range of `int` is accepted by `strconv.Atoi` with its value. -/
theorem Atoi_decimal (t : GoString) (v : Int) (h : IsDecimalInteger t v)
    (hlo : -(2 : Int) ^ 63 ≤ v) (hhi : v < (2 : Int) ^ 63) : Atoi t = some v := by
  obtain ⟨digits, hne, hd0, hcase⟩ := h
  have hd : ∀ c ∈ digits, isDigit c = true := fun c hc => (isDigit_iff c).mpr (hd0 c hc)
  obtain ⟨c, ds, rfl⟩ : ∃ c ds, digits = c :: ds := by
    cases digits with
    | nil => exact absurd rfl hne
    | cons c ds => exact ⟨c, ds, rfl⟩
  have hval : decimalValue (c :: ds) = digitsFrom 0 (c :: ds) := rfl
  rcases hcase with ⟨rfl, rfl⟩ | ⟨rfl, rfl⟩ | ⟨rfl, rfl⟩
  · obtain ⟨n1, n2⟩ := digit_not_sign c (hd c (by simp))
    unfold Atoi
    simp only []
    split_ifs with hlen
    · rw [atoiDigits_digits _ _ hd]; rfl
    · unfold ParseInt
      simp only [if_neg n1, if_neg n2, ParseUint]
      rw [parseUintLoop_digits _ _ hd (by rw [hval] at hhi; omega)]
      simp only []
      rw [if_neg (by rw [hval] at hhi; omega)]
      rfl
  · have n1 : (0x2B : Byte) ≠ 0x2D := by decide
    unfold Atoi
    simp only [if_neg n1, if_true]
    split_ifs with hlen
    · rw [atoiDigits_digits _ _ hd]; rfl
    · unfold ParseInt
      simp only [if_true, ParseUint]
      rw [parseUintLoop_digits _ _ hd (by rw [hval] at hhi; omega)]
      simp only []
      rw [if_neg (by rw [hval] at hhi; omega)]
      rfl
  · have n1 : (0x2D : Byte) ≠ 0x2B := by decide
    unfold Atoi
    simp only [if_true]
    split_ifs with hlen
    · rw [atoiDigits_digits _ _ hd]; rfl
    · unfold ParseInt
      simp only [if_neg n1, if_true, ParseUint]
      rw [parseUintLoop_digits _ _ hd (by rw [hval] at hlo; omega)]
      simp only []
      rw [if_neg (by rw [hval] at hlo; omega)]
      rfl

/-- A successful `addProfile` of a name that is valid UTF-8 keeps the names distinct. -/
theorem addProfile_nodup (w : World) (C : List GitProfile) (n e : GoString)
    (h : (loadProfiles w).1 = .ok C) (hC : (C.map (·.Name)).Nodup) (hn : validUTF8 n = true)
    (hok : (addProfile n e w).1 = .ok ()) :
    ∃ C1, (loadProfiles (addProfile n e w).2).1 = .ok C1 ∧ (C1.map (·.Name)).Nodup := by
  have hv := loadProfiles_valid w C h
  rw [addProfile_eq w C n e h] at hok ⊢
  by_cases ha : C.any (fun p => p.Name = n) = true
  · rw [if_pos ha] at hok; simp at hok
  · rw [if_neg ha] at hok ⊢
    obtain ⟨-, -, s3⟩ := save_after_load w C (C ++ [{ Name := n, Email := e }]) h
    refine ⟨_, s3 hok, ?_⟩
    rw [List.map_append, map_coerceProfile_valid C hv, List.map_append]
    simp only [List.map_cons, List.map_nil, coerceProfile, coerceUTF8_valid n hn]
    rw [List.nodup_append]
    refine ⟨hC, by simp, ?_⟩
    intro a ha1 ha2
    simp only [List.mem_singleton] at ha2
    subst ha2
    apply ha
    rw [any_name_iff]
    obtain ⟨p, hp, hpa⟩ := List.mem_map.mp ha1
    exact ⟨p, hp, hpa⟩

/-- A successful `deleteProfile` keeps the names distinct. -/
theorem deleteProfile_nodup (w : World) (C : List GitProfile) (n : GoString)
    (h : (loadProfiles w).1 = .ok C) (hC : (C.map (·.Name)).Nodup)
    (hok : (deleteProfile n w).1 = .ok ()) :
    ∃ C1, (loadProfiles (deleteProfile n w).2).1 = .ok C1 ∧ (C1.map (·.Name)).Nodup := by
  have hv := loadProfiles_valid w C h
  by_cases hex : ∃ p ∈ C, p.Name = n
  · obtain ⟨l1, p, l2, rfl, hp, hl⟩ := exists_first n C hex
    rw [deleteProfile_first w n l1 l2 p h hp hl] at hok ⊢
    obtain ⟨-, -, s3⟩ := save_after_load w _ (l1 ++ l2) h
    refine ⟨_, s3 hok, ?_⟩
    rw [map_coerceProfile_valid]
    · have hsub : List.Sublist (l1 ++ l2) (l1 ++ p :: l2) :=
        List.Sublist.append_left (List.sublist_cons_self p l2) l1
      exact (hsub.map _).nodup hC
    · intro q hq
      apply hv
      rcases List.mem_append.mp hq with hq | hq
      · exact List.mem_append_left _ hq
      · exact List.mem_append_right _ (List.mem_cons_of_mem _ hq)
  · rw [deleteProfile_none w C n h (fun p hp hpn => hex ⟨p, hp, hpn⟩)] at hok
    simp at hok

theorem loadProfiles_print (w : World) (ls : List Line) :
    (loadProfiles (w.print ls)).1 = (loadProfiles w).1 := by
  rw [loadProfiles_eq, loadProfiles_eq]
  unfold getConfigFilePath World.print
  simp only []
  split_ifs <;> rfl

theorem any_pair_iff (C : List GitProfile) (n e : GoString) :
    C.any (fun p => p.Name = n ∧ p.Email = e) = true ↔ ∃ p ∈ C, p.Name = n ∧ p.Email = e := by
  simp [List.any_eq_true]

theorem importProfile_eq (w : World) (C : List GitProfile) (n e : GoString)
    (h : (loadProfiles w).1 = .ok C) (hn : getCurrentGitConfig false w = .ok n) (hn0 : n ≠ [])
    (he : getCurrentGitConfig true w = .ok e) (he0 : e ≠ []) :
    importProfile w =
      if C.any (fun p => p.Name = n ∧ p.Email = e) then
        (.error .alreadyImported, (loadProfiles w).2)
      else
        match saveProfiles (C ++ [{ Name := n, Email := e }]) (loadProfiles w).2 with
        | (.error err, w2) => (.error err, w2)
        | (.ok _, w2) => (.ok (), w2.print [.imported n e]) := by
  unfold importProfile
  rw [hn, he]
  simp only [if_neg hn0, if_neg he0]
  cases hl : loadProfiles w with
  | mk r w1 =>
    rw [hl] at h
    simp only [] at h
    subst h
    rfl

theorem enum_map_get? {β : Type} (f : Nat × GitProfile → β) (C : List GitProfile) (i : Nat)
    (p : GitProfile) (hp : C.get? i = some p) : (C.enum.map f).get? i = some (f (i, p)) := by
  rw [List.get?_eq_getElem?] at hp ⊢
  rw [List.getElem?_map, List.getElem?_enum, hp]
  rfl

theorem listEntries_eq (cn ce : GoString) (C : List GitProfile) (i : Nat) :
    listEntries cn ce C i =
      ((C.enumFrom i).map (listLine cn ce), C.any (fun p => p.Name = cn ∧ p.Email = ce)) := by
  induction C generalizing i with
  | nil => rfl
  | cons p ps ih =>
    simp only [listEntries, ih, List.enumFrom_cons, List.map_cons, List.any_cons, listLine]
    split_ifs with hm
    · simp [hm]
    · simp [hm]

theorem getCurrentGitConfig_load (w : World) (C : List GitProfile)
    (h : (loadProfiles w).1 = .ok C) (b : Bool) :
    getCurrentGitConfig b (loadProfiles w).2 = getCurrentGitConfig b w := by
  obtain ⟨h1, -, -, -, -⟩ := loadProfiles_ok w C h
  rw [h1]
  rfl

theorem listProfiles_tail (cn ce : GoString) (C : List GitProfile) (w1 : World) :
    (if cn ≠ [] ∧ ce ≠ [] ∧ (!(listEntries cn ce C 0).2) = true then
        ((.ok () : Except Err Unit),
          (w1.print (.storedProfiles :: (listEntries cn ce C 0).1)).print
            [.currentActive cn ce, .noteNotImported, .hintImport])
      else (.ok (), w1.print (.storedProfiles :: (listEntries cn ce C 0).1))) =
      (.ok (), (w1.print (.storedProfiles :: C.enum.map (listLine cn ce))).print
        (if cn ≠ [] ∧ ce ≠ [] ∧ ¬ (∃ p ∈ C, p.Name = cn ∧ p.Email = ce)
          then [.currentActive cn ce, .noteNotImported, .hintImport]
          else [])) := by
  rw [listEntries_eq]
  simp only []
  by_cases hc : cn ≠ [] ∧ ce ≠ [] ∧ ¬ (∃ p ∈ C, p.Name = cn ∧ p.Email = ce)
  · rw [if_pos hc, if_pos]
    · rfl
    · refine ⟨hc.1, hc.2.1, ?_⟩
      simp only [Bool.not_eq_true', List.any_eq_false, decide_eq_true_eq]
      intro p hp hpe
      exact hc.2.2 ⟨p, hp, hpe⟩
  · rw [if_neg hc, if_neg]
    · simp [World.print, List.enum]
    · rintro ⟨a, b, c⟩
      apply hc
      refine ⟨a, b, ?_⟩
      rintro ⟨p, hp, hpe⟩
      simp only [Bool.not_eq_true', List.any_eq_false, decide_eq_true_eq] at c
      exact c p hp hpe

theorem listProfiles_eq (w : World) (C : List GitProfile) (h : (loadProfiles w).1 = .ok C) :
    listProfiles w =
      (.ok (), ((loadProfiles w).2.print
        (.storedProfiles :: C.enum.map (listLine (currentOrEmpty false w)
          (currentOrEmpty true w)))).print
        (if currentOrEmpty false w ≠ [] ∧ currentOrEmpty true w ≠ [] ∧
            ¬ (∃ p ∈ C, p.Name = currentOrEmpty false w ∧ p.Email = currentOrEmpty true w)
          then [.currentActive (currentOrEmpty false w) (currentOrEmpty true w),
            .noteNotImported, .hintImport]
          else [])) := by
  have g1 := getCurrentGitConfig_load w C h false
  have g2 := getCurrentGitConfig_load w C h true
  unfold listProfiles currentOrEmpty
  cases hl : loadProfiles w with
  | mk r w1 =>
    rw [hl] at h g1 g2
    simp only [] at h g1 g2
    subst h
    simp only [g1, g2]
    cases getCurrentGitConfig false w <;> cases getCurrentGitConfig true w <;>
      exact listProfiles_tail _ _ C w1

theorem loadProfiles_stdout (w : World) (C : List GitProfile) (h : (loadProfiles w).1 = .ok C) :
    (loadProfiles w).2.stdout = w.stdout := by
  obtain ⟨h1, -, -, -, -⟩ := loadProfiles_ok w C h
  rw [h1]

theorem marked_listLine (cn ce : GoString) (ip : Nat × GitProfile) :
    (listLine cn ce ip).marked = decide (ip.2.Name = cn ∧ ip.2.Email = ce) := by
  unfold listLine Line.marked
  split_ifs with hm
  · simp [hm]
  · simp only [hm, decide_False, decide_eq_false_iff_not]
    decide

theorem marked_count (cn ce : GoString) (C : List GitProfile) (i : Nat) :
    (((C.enumFrom i).map (listLine cn ce)).filter Line.marked).length
      = (C.filter (fun p => decide (p.Name = cn ∧ p.Email = ce))).length := by
  induction C generalizing i with
  | nil => rfl
  | cons p ps ih =>
    simp only [List.enumFrom_cons, List.map_cons, List.filter_cons, marked_listLine]
    split_ifs <;> simp [ih]

theorem matching_le_one (cn ce : GoString) (C : List GitProfile)
    (hC : (C.map (·.Name)).Nodup) :
    (C.filter (fun p => decide (p.Name = cn ∧ p.Email = ce))).length ≤ 1 := by
  induction C with
  | nil => simp
  | cons p ps ih =>
    simp only [List.map_cons, List.nodup_cons] at hC
    simp only [List.filter_cons]
    split_ifs with hm
    · have hm1 : p.Name = cn ∧ p.Email = ce := by simpa using hm
      have : ps.filter (fun p => decide (p.Name = cn ∧ p.Email = ce)) = [] := by
        rw [List.filter_eq_nil_iff]
        intro q hq hqm
        have hq1 : q.Name = cn ∧ q.Email = ce := by simpa using hqm
        apply hC.1
        rw [hm1.1, ← hq1.1]
        exact List.mem_map_of_mem _ hq
      rw [this]
      exact le_refl _
    · exact ih hC.2

theorem switchEntries_eq (C : List GitProfile) (i : Nat) :
    switchEntries C i = (C.enumFrom i).map switchLine := by
  induction C generalizing i with
  | nil => rfl
  | cons p ps ih => simp only [switchEntries, ih, List.enumFrom_cons, List.map_cons, switchLine]

theorem switchProfile_eq (w : World) (C : List GitProfile) (line rest : GoString)
    (h : (loadProfiles w).1 = .ok C) (hne : C ≠ [])
    (hline : readString 0x0A w.stdin = some (line, rest)) :
    switchProfile w =
      match Atoi (TrimSpace line) with
      | none => (.error .invalidSelection, promptWorld w C rest)
      | some index =>
        if index < 0 ∨ index ≥ C.length then (.error .invalidSelection, promptWorld w C rest)
        else
          match C.get? index.toNat with
          | none => (.error .indexOutOfRange, promptWorld w C rest)
          | some selected => finishSwitch selected.Name selected.Email (promptWorld w C rest) := by
  obtain ⟨h1, -, -, -, -⟩ := loadProfiles_ok w C h
  have hlen : ¬ C.length = 0 := by
    intro e; exact hne (List.length_eq_zero.mp e)
  unfold switchProfile promptWorld
  cases hl : loadProfiles w with
  | mk r w1 =>
    rw [hl] at h h1
    simp only [] at h h1
    subst h
    have hin : (w1.print (.selectProfile :: switchEntries C 0 ++ [.enterNumber])).stdin
        = w.stdin := by rw [h1]; rfl
    simp only [if_neg hlen, hin, hline]
    rfl

theorem switchProfile_eof (w : World) (C : List GitProfile)
    (h : (loadProfiles w).1 = .ok C) (hne : C ≠ [])
    (hline : readString 0x0A w.stdin = none) :
    switchProfile w = (.error .stdin, promptWorld w C []) := by
  obtain ⟨h1, -, -, -, -⟩ := loadProfiles_ok w C h
  have hlen : ¬ C.length = 0 := by
    intro e; exact hne (List.length_eq_zero.mp e)
  unfold switchProfile promptWorld
  cases hl : loadProfiles w with
  | mk r w1 =>
    rw [hl] at h h1
    simp only [] at h h1
    subst h
    have hin : (w1.print (.selectProfile :: switchEntries C 0 ++ [.enterNumber])).stdin
        = w.stdin := by rw [h1]; rfl
    simp only [if_neg hlen, hin, hline]

theorem promptWorld_eq (w : World) (C : List GitProfile) (rest : GoString)
    (h : (loadProfiles w).1 = .ok C) :
    promptWorld w C rest =
      { w with
        dirExists := true
        stdin := rest
        stdout := w.stdout ++ (.selectProfile :: C.enum.map switchLine ++ [.enterNumber]) } := by
  obtain ⟨h1, -, -, -, -⟩ := loadProfiles_ok w C h
  unfold promptWorld
  rw [h1, switchEntries_eq]
  rfl

/-- An index accepted by `switchProfile` is the value of the trimmed line, and conversely. -/
theorem selection_iff (t : GoString) (len : Nat) (hlen : len < 2 ^ 63) :
    (∃ i : Nat, IsDecimalInteger t i ∧ i < len) ↔
      ∃ index : Int, Atoi t = some index ∧ ¬ (index < 0 ∨ index ≥ len) := by
  constructor
  · rintro ⟨i, hi, hlt⟩
    refine ⟨i, Atoi_decimal t i hi (by omega) (by omega), ?_⟩
    omega
  · rintro ⟨index, ha, hr⟩
    have hd := Atoi_some t index ha
    refine ⟨index.toNat, ?_, by omega⟩
    rw [Int.toNat_of_nonneg (by omega)]
    exact hd

/-- The end of `switchProfile`, once an entry has been selected. -/
theorem switch_selected (n e : GoString) (pw : World) :
    let r : Except Err Unit × World := finishSwitch n e pw
    r.2.setCalls = pw.setCalls ++ [(n, e)] ∧ r.2.stdin = pw.stdin ∧
      r.1 ≠ .error .invalidSelection ∧ r.1 ≠ .error .indexOutOfRange ∧
      (pw.setNameOk = true → pw.setEmailOk = true →
        r.1 = .ok () ∧ r.2.gitName = some (pw.gitKeeps n) ∧
          r.2.gitEmail = some (pw.gitKeeps e) ∧ r.2.stdout = pw.stdout ++ [.switched n e]) ∧
      (¬ (pw.setNameOk = true ∧ pw.setEmailOk = true) →
        r.1 = .error .git ∧ r.2.stdout = pw.stdout) := by
  unfold finishSwitch setGitConfig
  cases hn : pw.setNameOk <;> cases he : pw.setEmailOk
  · exact ⟨rfl, rfl, by simp, by simp, fun a => absurd a (by simp), fun _ => ⟨rfl, rfl⟩⟩
  · exact ⟨rfl, rfl, by simp, by simp, fun a => absurd a (by simp), fun _ => ⟨rfl, rfl⟩⟩
  · exact ⟨rfl, rfl, by simp, by simp, fun _ b => absurd b (by simp), fun _ => ⟨rfl, rfl⟩⟩
  · exact ⟨rfl, rfl, by simp, by simp, fun _ _ => ⟨rfl, rfl, rfl, rfl⟩,
      fun a => absurd ⟨rfl, rfl⟩ a⟩

theorem switchProfile_empty (w : World) (h : (loadProfiles w).1 = .ok []) :
    switchProfile w = (.error .noProfiles, (loadProfiles w).2) := by
  unfold switchProfile
  cases hl : loadProfiles w with
  | mk r w1 =>
    rw [hl] at h
    simp only [] at h
    subst h
    rfl

theorem get?_lt (C : List GitProfile) (i : Nat) (p : GitProfile) (hp : C.get? i = some p) :
    i < C.length := by
  by_contra hge
  rw [List.get?_eq_none.mpr (by omega)] at hp
  exact nomatch hp

theorem enum_switchLine (C : List GitProfile) (i : Nat) (p : GitProfile)
    (hp : C.get? i = some p) :
    (C.enum.map switchLine).get? i = some (.switchEntry i p.Name p.Email) :=
  enum_map_get? switchLine C i p hp



/-! ### strings.TrimSpace -/

theorem trimLeft_fuel (n m : Nat) (s : GoString) (hn : s.length ≤ n) (hm : s.length ≤ m) :
    trimLeft n s = trimLeft m s := by
  induction n generalizing m s with
  | zero =>
    cases s with
    | nil => cases m <;> simp [trimLeft]
    | cons b t => simp at hn
  | succ n ih =>
    cases s with
    | nil => cases m <;> simp [trimLeft]
    | cons b t =>
      cases m with
      | zero => simp at hm
      | succ m =>
        have hd := drop_decode_length b t
        simp only [List.length_cons, Nat.add_le_add_iff_right] at hn hm
        simp only [trimLeft]
        rw [ih m ((b :: t).drop _) (by omega) (by omega)]

theorem trimLeft_cons (n : Nat) (b : Byte) (t : GoString) (hn : (b :: t).length ≤ n) :
    trimLeft n (b :: t) =
      if isSpaceRune (decodeRune (b :: t)).1 then
        trimLeft n ((b :: t).drop (decodeRune (b :: t)).2)
      else b :: t := by
  cases n with
  | zero => simp at hn
  | succ n =>
    have hd := drop_decode_length b t
    simp only [List.length_cons, Nat.add_le_add_iff_right] at hn
    simp only [trimLeft]
    rw [trimLeft_fuel n (n + 1) _ (by omega) (by omega)]

theorem lastRuneStart_pos (rev : GoString) : 1 ≤ lastRuneStart rev := by
  unfold lastRuneStart
  repeat' split
  all_goals simp

theorem decodeLastRune_size_pos (b : Byte) (t : GoString) :
    1 ≤ (decodeLastRune (b :: t)).2 := by
  unfold decodeLastRune
  split
  · rename_i h
    simp at h
  · split_ifs with h1 h2
    · simp
    · simp
    · have := lastRuneStart_pos (b :: t).reverse
      have h3 : (decodeRune (List.drop ((b :: t).length - lastRuneStart (b :: t).reverse)
          (b :: t))).2 = lastRuneStart (b :: t).reverse := by
        by_contra hne
        exact h2 hne
      omega

theorem take_last_length (b : Byte) (t : GoString) :
    ((b :: t).take ((b :: t).length - (decodeLastRune (b :: t)).2)).length ≤ t.length := by
  have := decodeLastRune_size_pos b t
  simp only [List.length_take, List.length_cons]
  omega

theorem trimRight_fuel (n m : Nat) (s : GoString) (hn : s.length ≤ n) (hm : s.length ≤ m) :
    trimRight n s = trimRight m s := by
  induction n generalizing m s with
  | zero =>
    cases s with
    | nil => cases m <;> simp [trimRight]
    | cons b t => simp at hn
  | succ n ih =>
    cases s with
    | nil => cases m <;> simp [trimRight]
    | cons b t =>
      cases m with
      | zero => simp at hm
      | succ m =>
        have hd := take_last_length b t
        simp only [List.length_cons, Nat.add_le_add_iff_right] at hn hm
        simp only [trimRight]
        rw [ih m ((b :: t).take _) (by omega) (by omega)]

theorem trimRight_cons (n : Nat) (s : GoString) (hs : s ≠ []) (hn : s.length ≤ n) :
    trimRight n s =
      if isSpaceRune (decodeLastRune s).1 then
        trimRight n (s.take (s.length - (decodeLastRune s).2))
      else s := by
  cases s with
  | nil => exact absurd rfl hs
  | cons b t =>
    cases n with
    | zero => simp at hn
    | succ n =>
      have hd := take_last_length b t
      simp only [List.length_cons, Nat.add_le_add_iff_right] at hn
      simp only [trimRight]
      rw [trimRight_fuel n (n + 1) _ (by omega) (by omega)]

/-- Every white-space character decodes to a rune that `unicode.IsSpace` accepts. -/
theorem decodeRune_whiteSpace (c : GoString) (hc : c ∈ whiteSpaceChars) (t : GoString) :
    isSpaceRune (decodeRune (c ++ t)).1 = true ∧ (decodeRune (c ++ t)).2 = c.length ∧
      c ≠ [] := by
  unfold whiteSpaceChars at hc
  fin_cases hc <;> exact ⟨rfl, rfl, List.cons_ne_nil _ _⟩

theorem isWhiteSpace_nil : IsWhiteSpace [] := ⟨[], by simp, rfl⟩

theorem isWhiteSpace_cons (c s : GoString) (hc : c ∈ whiteSpaceChars) (hs : IsWhiteSpace s) :
    IsWhiteSpace (c ++ s) := by
  obtain ⟨cs, hcs, rfl⟩ := hs
  refine ⟨c :: cs, ?_, by simp⟩
  intro x hx
  rcases List.mem_cons.mp hx with rfl | hx
  · exact hc
  · exact hcs x hx

theorem isWhiteSpace_snoc (s c : GoString) (hs : IsWhiteSpace s) (hc : c ∈ whiteSpaceChars) :
    IsWhiteSpace (s ++ c) := by
  obtain ⟨cs, hcs, rfl⟩ := hs
  refine ⟨cs ++ [c], ?_, by simp⟩
  intro x hx
  rcases List.mem_append.mp hx with hx | hx
  · exact hcs x hx
  · rw [List.mem_singleton] at hx
    rw [hx]; exact hc

/-- Leading white space is dropped by the left trim. -/
theorem trimLeft_whiteSpace (pre t : GoString) (hpre : IsWhiteSpace pre) (n : Nat)
    (hn : (pre ++ t).length ≤ n) : trimLeft n (pre ++ t) = trimLeft n t := by
  obtain ⟨cs, hcs, rfl⟩ := hpre
  induction cs with
  | nil => rfl
  | cons c cs ih =>
    obtain ⟨h1, h2, h3⟩ :=
      decodeRune_whiteSpace c (hcs c (List.mem_cons_self _ _)) (cs.flatten ++ t)
    simp only [List.flatten_cons, List.append_assoc] at hn ⊢
    have hlen : (cs.flatten ++ t).length ≤ n := by
      simp only [List.length_append] at hn ⊢; omega
    cases hce : c with
    | nil => exact absurd hce h3
    | cons b c1 =>
      rw [hce] at h1 h2 hn
      rw [List.cons_append] at h1 h2 hn ⊢
      rw [trimLeft_cons n b _ hn, if_pos h1, h2, ← List.cons_append, List.drop_left]
      exact ih (fun x hx => hcs x (List.mem_cons_of_mem _ hx)) hlen

theorem trimLeft_stop (n : Nat) (b : Byte) (t : GoString) (hb : b.val < 0x80)
    (hs : isSpaceRune b.val = false) : trimLeft n (b :: t) = b :: t := by
  cases n with
  | zero => rfl
  | succ n =>
    simp only [trimLeft]
    rw [decode_ascii b t hb, if_neg (by simp [hs])]

/-- The encoding of a rune that `unicode.IsSpace` accepts is a white-space character. -/
theorem encodeRune_space (r : Nat) (h : isSpaceRune r = true) : encodeRune r ∈ whiteSpaceChars := by
  have h1 : r = 0x09 ∨ r = 0x0A ∨ r = 0x0B ∨ r = 0x0C ∨ r = 0x0D ∨ r = 0x20 ∨ r = 0x85 ∨
      r = 0xA0 ∨ r = 0x1680 ∨ r = 0x2000 ∨ r = 0x2001 ∨ r = 0x2002 ∨ r = 0x2003 ∨ r = 0x2004 ∨
      r = 0x2005 ∨ r = 0x2006 ∨ r = 0x2007 ∨ r = 0x2008 ∨ r = 0x2009 ∨ r = 0x200A ∨
      r = 0x2028 ∨ r = 0x2029 ∨ r = 0x202F ∨ r = 0x205F ∨ r = 0x3000 := by
    simp only [isSpaceRune, Bool.or_eq_true, Bool.and_eq_true, decide_eq_true_eq] at h
    omega
  rcases h1 with h | h | h | h | h | h | h | h | h | h | h | h | h | h | h | h | h | h | h | h
    | h | h | h | h | h <;> subst h <;> decide

/-- A rune accepted by `unicode.IsSpace` was decoded from a white-space character. -/
theorem take_space (b : Byte) (t : GoString) (h : isSpaceRune (decodeRune (b :: t)).1 = true) :
    (b :: t).take (decodeRune (b :: t)).2 ∈ whiteSpaceChars := by
  by_cases hb : b.val < 0x80
  · rw [decode_ascii b t hb] at h ⊢
    have := encodeRune_space _ h
    rw [encodeRune_ascii _ hb, byte_eq b _ rfl] at this
    exact this
  · rcases decodeRune_cases b t (by omega) with he | hd
    · rw [he] at h
      exact absurd h (by decide)
    · rw [hd.take_eq]
      exact encodeRune_space _ h

/-- What the left trim removes is white space. -/
theorem trimLeft_decompose (n : Nat) (s : GoString) (hn : s.length ≤ n) :
    ∃ pre, IsWhiteSpace pre ∧ s = pre ++ trimLeft n s := by
  induction n generalizing s with
  | zero =>
    cases s with
    | nil => exact ⟨[], isWhiteSpace_nil, rfl⟩
    | cons b t => simp at hn
  | succ n ih =>
    cases s with
    | nil => exact ⟨[], isWhiteSpace_nil, rfl⟩
    | cons b t =>
      have hd := drop_decode_length b t
      simp only [List.length_cons, Nat.add_le_add_iff_right] at hn
      simp only [trimLeft]
      split_ifs with hsp
      · obtain ⟨pre, hpre, he⟩ := ih ((b :: t).drop (decodeRune (b :: t)).2) (by omega)
        refine ⟨(b :: t).take (decodeRune (b :: t)).2 ++ pre,
          isWhiteSpace_cons _ _ (take_space b t hsp) hpre, ?_⟩
        rw [List.append_assoc, ← he, List.take_append_drop]
      · exact ⟨[], isWhiteSpace_nil, rfl⟩


theorem decodeLastRune_ascii (t : GoString) (b : Byte) (hb : b.val < 0x80) :
    decodeLastRune (t ++ [b]) = (b.val, 1) := by
  unfold decodeLastRune
  rw [List.getLast?_concat]
  simp only [if_pos hb]

theorem decodeLastRune_two (t : GoString) (a b : Byte) (r : Nat) (ha : runeStart a = true)
    (hb : 0x80 ≤ b.val) (hd : decodeRune [a, b] = (r, 2)) :
    decodeLastRune (t ++ [a, b]) = (r, 2) := by
  have hl : (t ++ [a, b]).getLast? = some b := by
    rw [show t ++ [a, b] = (t ++ [a]) ++ [b] by simp, List.getLast?_concat]
  have hs : lastRuneStart (t ++ [a, b]).reverse = 2 := by
    simp [lastRuneStart, ha]
  have hdrop : (t ++ [a, b]).drop ((t ++ [a, b]).length - 2) = [a, b] := by
    have : (t ++ [a, b]).length - 2 = t.length := by simp
    rw [this, List.drop_left]
  unfold decodeLastRune
  rw [hl]
  simp only [hs, hdrop, hd]
  rw [if_neg (by omega), if_neg (by simp)]

theorem decodeLastRune_three (t : GoString) (a b c : Byte) (r : Nat) (ha : runeStart a = true)
    (hb : runeStart b = false) (hc : 0x80 ≤ c.val) (hd : decodeRune [a, b, c] = (r, 3)) :
    decodeLastRune (t ++ [a, b, c]) = (r, 3) := by
  have hl : (t ++ [a, b, c]).getLast? = some c := by
    rw [show t ++ [a, b, c] = (t ++ [a, b]) ++ [c] by simp, List.getLast?_concat]
  have hs : lastRuneStart (t ++ [a, b, c]).reverse = 3 := by
    simp [lastRuneStart, ha, hb]
  have hdrop : (t ++ [a, b, c]).drop ((t ++ [a, b, c]).length - 3) = [a, b, c] := by
    have : (t ++ [a, b, c]).length - 3 = t.length := by simp
    rw [this, List.drop_left]
  unfold decodeLastRune
  rw [hl]
  simp only [hs, hdrop, hd]
  rw [if_neg (by omega), if_neg (by simp)]

/-- Every white-space character at the end of a string is found by `utf8.DecodeLastRune`. -/
theorem decodeLastRune_whiteSpace (c : GoString) (hc : c ∈ whiteSpaceChars) (t : GoString) :
    isSpaceRune (decodeLastRune (t ++ c)).1 = true ∧ (decodeLastRune (t ++ c)).2 = c.length := by
  unfold whiteSpaceChars at hc
  fin_cases hc
  all_goals first
    | (rw [decodeLastRune_ascii t _ (by decide)]; exact ⟨rfl, rfl⟩)
    | (rw [decodeLastRune_two t _ _ _ (by rfl) (by decide) (by rfl)]; exact ⟨rfl, rfl⟩)
    | (rw [decodeLastRune_three t _ _ _ _ (by rfl) (by rfl) (by decide) (by rfl)]
       exact ⟨rfl, rfl⟩)

/-- Trailing white space is dropped by the right trim. -/
theorem trimRight_whiteSpace (t post : GoString) (hpost : IsWhiteSpace post) (n : Nat)
    (hn : (t ++ post).length ≤ n) : trimRight n (t ++ post) = trimRight n t := by
  obtain ⟨cs, hcs, rfl⟩ := hpost
  induction cs using List.reverseRecOn with
  | nil => simp
  | append_singleton cs c ih =>
    have hc : c ∈ whiteSpaceChars := hcs c (by simp)
    obtain ⟨h1, h2⟩ := decodeLastRune_whiteSpace c hc (t ++ cs.flatten)
    obtain ⟨-, -, h3⟩ := decodeRune_whiteSpace c hc []
    simp only [List.flatten_append, List.flatten_cons, List.flatten_nil, List.append_nil,
      ← List.append_assoc] at hn ⊢
    have hlen : (t ++ cs.flatten).length ≤ n := by
      simp only [List.length_append] at hn ⊢; omega
    rw [trimRight_cons n _ (by simp [h3]) hn, if_pos h1, h2]
    have : (t ++ cs.flatten ++ c).length - c.length = (t ++ cs.flatten).length := by
      simp only [List.length_append]; omega
    rw [this, List.take_left]
    exact ih (fun x hx => hcs x (by simp [hx])) hlen

theorem trimRight_stop (n : Nat) (t : GoString) (b : Byte) (hb : b.val < 0x80)
    (hs : isSpaceRune b.val = false) : trimRight n (t ++ [b]) = t ++ [b] := by
  cases n with
  | zero => cases t <;> rfl
  | succ n =>
    cases ht : t ++ [b] with
    | nil => simp at ht
    | cons x y =>
      simp only [trimRight]
      rw [← ht, decodeLastRune_ascii t b hb, if_neg (by simp [hs])]


theorem drop_last_one (s : GoString) (l : Byte) (h : s.getLast? = some l) :
    s.drop (s.length - 1) = [l] := by
  obtain ⟨t, rfl⟩ : ∃ t, s = t ++ [l] := by
    rw [List.getLast?_eq_some_iff] at h
    exact h
  have : (t ++ [l]).length - 1 = t.length := by simp
  rw [this, List.drop_left]

/-- A rune accepted by `unicode.IsSpace` at the end of a string was decoded from a white-space
character. -/
theorem drop_space (s : GoString) (h : isSpaceRune (decodeLastRune s).1 = true) :
    s.drop (s.length - (decodeLastRune s).2) ∈ whiteSpaceChars := by
  unfold decodeLastRune at h ⊢
  cases hl : s.getLast? with
  | none =>
    rw [hl] at h
    simp only [] at h
    exact absurd h (by decide)
  | some l =>
    rw [hl] at h
    simp only [] at h ⊢
    split_ifs at h ⊢ with h1 h2
    · simp only [] at h ⊢
      rw [drop_last_one s l hl]
      have := encodeRune_space _ h
      rw [encodeRune_ascii _ h1, byte_eq l _ rfl] at this
      exact this
    · exact absurd h (by decide)
    · have h3 : (decodeRune (s.drop (s.length - lastRuneStart s.reverse))).2
          = lastRuneStart s.reverse := by
        by_contra hne
        exact h2 hne
      cases hd : s.drop (s.length - lastRuneStart s.reverse) with
      | nil =>
        rw [hd] at h
        exact absurd h (by decide)
      | cons b t =>
        rw [hd] at h h3
        have ht := take_space b t h
        have hlen : (b :: t).length ≤ (decodeRune (b :: t)).2 := by
          rw [h3, ← hd, List.length_drop]
          omega
        rw [List.take_of_length_le hlen] at ht
        rw [h3, hd]
        exact ht

/-- What the right trim removes is white space. -/
theorem trimRight_decompose (n : Nat) (s : GoString) (hn : s.length ≤ n) :
    ∃ post, IsWhiteSpace post ∧ s = trimRight n s ++ post := by
  induction n generalizing s with
  | zero =>
    cases s with
    | nil => exact ⟨[], isWhiteSpace_nil, rfl⟩
    | cons b t => simp at hn
  | succ n ih =>
    cases s with
    | nil => exact ⟨[], isWhiteSpace_nil, rfl⟩
    | cons b t =>
      have hd := take_last_length b t
      simp only [List.length_cons, Nat.add_le_add_iff_right] at hn
      simp only [trimRight]
      split_ifs with hsp
      · obtain ⟨post, hpost, he⟩ :=
          ih ((b :: t).take ((b :: t).length - (decodeLastRune (b :: t)).2)) (by omega)
        refine ⟨post ++ (b :: t).drop ((b :: t).length - (decodeLastRune (b :: t)).2),
          isWhiteSpace_snoc _ _ hpost (drop_space _ hsp), ?_⟩
        rw [← List.append_assoc, ← he, List.take_append_drop]
      · exact ⟨[], isWhiteSpace_nil, by simp⟩

theorem trimLeft_length (n : Nat) (s : GoString) : (trimLeft n s).length ≤ s.length := by
  induction n generalizing s with
  | zero => cases s <;> simp [trimLeft]
  | succ n ih =>
    cases s with
    | nil => simp [trimLeft]
    | cons b t =>
      simp only [trimLeft]
      split_ifs
      · exact le_trans (ih _) (by simp)
      · exact le_refl _

/-- What `strings.TrimSpace` removes is white space, on both sides. -/
theorem TrimSpace_decompose (s : GoString) :
    ∃ pre post, IsWhiteSpace pre ∧ IsWhiteSpace post ∧ s = pre ++ TrimSpace s ++ post := by
  obtain ⟨pre, hpre, h1⟩ := trimLeft_decompose s.length s (le_refl _)
  obtain ⟨post, hpost, h2⟩ :=
    trimRight_decompose s.length (trimLeft s.length s) (trimLeft_length _ _)
  refine ⟨pre, post, hpre, hpost, ?_⟩
  unfold TrimSpace
  rw [List.append_assoc, ← h2, ← h1]

/-- A string that starts and ends with an ASCII character other than white space is what
`strings.TrimSpace` keeps of it and the white space around it. -/
theorem TrimSpace_core (pre post : GoString) (a b : Byte) (hpre : IsWhiteSpace pre)
    (hpost : IsWhiteSpace post) (ha : a.val < 0x80) (has : isSpaceRune a.val = false)
    (hb : b.val < 0x80) (hbs : isSpaceRune b.val = false) (core : GoString)
    (h1 : ∃ t, core = a :: t) (h2 : ∃ t, core = t ++ [b]) :
    TrimSpace (pre ++ core ++ post) = core := by
  unfold TrimSpace
  obtain ⟨t1, e1⟩ := h1
  obtain ⟨t2, e2⟩ := h2
  rw [List.append_assoc, trimLeft_whiteSpace pre _ hpre _ (by simp)]
  rw [e1, List.cons_append, trimLeft_stop _ a _ ha has, ← List.cons_append, ← e1]
  rw [trimRight_whiteSpace core post hpost _ (by simp)]
  rw [e2, trimRight_stop _ t2 b hb hbs]


theorem exists_snoc {α : Type} (l : List α) (h : l ≠ []) : ∃ r b, l = r ++ [b] :=
  ⟨l.dropLast, l.getLast h, (List.dropLast_append_getLast h).symm⟩

theorem isDigit_ascii (c : Byte) (h : isDigit c = true) :
    c.val < 0x80 ∧ isSpaceRune c.val = false := by
  simp only [isDigit, Bool.and_eq_true, decide_eq_true_eq] at h
  refine ⟨by omega, ?_⟩
  simp only [isSpaceRune, Bool.or_eq_false_iff, Bool.and_eq_false_iff, decide_eq_false_iff_not]
  omega

/-- A decimal integer starts and ends with an ASCII character other than white space. -/
theorem IsDecimalInteger.ends (t : GoString) (i : Int) (h : IsDecimalInteger t i) :
    (∃ a r, t = a :: r ∧ a.val < 0x80 ∧ isSpaceRune a.val = false) ∧
      (∃ r b, t = r ++ [b] ∧ b.val < 0x80 ∧ isSpaceRune b.val = false) := by
  obtain ⟨digits, hne, hd0, hcase⟩ := h
  have hd : ∀ c ∈ digits, isDigit c = true := fun c hc => (isDigit_iff c).mpr (hd0 c hc)
  obtain ⟨d, ds, e1⟩ := List.exists_cons_of_ne_nil hne
  obtain ⟨ds1, l, e2⟩ := exists_snoc digits hne
  have hd1 := isDigit_ascii d (hd d (by rw [e1]; exact List.mem_cons_self _ _))
  have hl1 := isDigit_ascii l (hd l (by rw [e2]; simp))
  rcases hcase with ⟨rfl, -⟩ | ⟨rfl, -⟩ | ⟨rfl, -⟩
  · exact ⟨⟨d, ds, e1, hd1⟩, ⟨ds1, l, e2, hl1⟩⟩
  · exact ⟨⟨0x2B, digits, rfl, by decide, by decide⟩,
      ⟨0x2B :: ds1, l, by rw [e2]; rfl, hl1⟩⟩
  · exact ⟨⟨0x2D, digits, rfl, by decide, by decide⟩,
      ⟨0x2D :: ds1, l, by rw [e2]; rfl, hl1⟩⟩

/-- The only white-space character that ends with a newline is the newline. -/
theorem whiteSpace_newline (c : GoString) (hc : c ∈ whiteSpaceChars)
    (h : c.getLast? = some 0x0A) : c = [0x0A] := by
  unfold whiteSpaceChars at hc
  fin_cases hc <;> first | rfl | exact absurd h (by decide)

/-- The line read by `switchProfile` is accepted as the integer `i` exactly when the line
without its newline, white space trimmed, is the decimal integer `i`. -/
theorem trimsToInteger_iff (s : GoString) (i : Int) :
    TrimsToInteger s i ↔ IsDecimalInteger (TrimSpace (s ++ [0x0A])) i := by
  constructor
  · rintro ⟨pre, core, post, rfl, hpre, hpost, hcore⟩
    obtain ⟨⟨a, r1, e1, ha, has⟩, ⟨r2, b, e2, hb, hbs⟩⟩ := IsDecimalInteger.ends core i hcore
    have hpost1 : IsWhiteSpace (post ++ [0x0A]) :=
      isWhiteSpace_snoc post [0x0A] hpost (by decide)
    rw [List.append_assoc (pre ++ core) post,
      TrimSpace_core pre (post ++ [0x0A]) a b hpre hpost1 ha has hb hbs core ⟨r1, e1⟩ ⟨r2, e2⟩]
    exact hcore
  · intro h
    obtain ⟨pre, post1, hpre, hpost1, he⟩ := TrimSpace_decompose (s ++ [0x0A])
    obtain ⟨-, ⟨r2, b, e2, hb, hbs⟩⟩ := IsDecimalInteger.ends _ i h
    obtain ⟨cs, hcs, rfl⟩ := hpost1
    by_cases h0 : cs = []
    · subst h0
      rw [e2] at he
      simp only [List.flatten_nil, List.append_nil, ← List.append_assoc] at he
      have := List.append_inj_right' he rfl
      simp only [List.cons.injEq, and_true] at this
      rw [← this] at hbs
      exact absurd hbs (by decide)
    · obtain ⟨cs1, c, h1⟩ := exists_snoc cs h0
      subst h1
      have hc : c ∈ whiteSpaceChars := hcs c (by simp)
      obtain ⟨-, -, hc0⟩ := decodeRune_whiteSpace c hc []
      obtain ⟨c1, l, hcl⟩ := exists_snoc c hc0
      simp only [List.flatten_append, List.flatten_cons, List.flatten_nil, List.append_nil] at he
      rw [hcl] at he
      simp only [← List.append_assoc] at he
      have hl := List.append_inj_right' he rfl
      simp only [List.cons.injEq, and_true] at hl
      have hs := List.append_inj_left' he rfl
      have hc1 : c = [0x0A] := by
        apply whiteSpace_newline c hc
        rw [hcl, List.getLast?_concat, hl]
      have hc2 : c1 = [] := by
        rw [hcl] at hc1
        have := congrArg List.length hc1
        simp only [List.length_append, List.length_singleton, add_left_eq_self] at this
        exact List.length_eq_zero.mp this
      rw [hc2, List.append_nil] at hs
      exact ⟨pre, _, cs1.flatten, hs, hpre,
        ⟨cs1, fun x hx => hcs x (by simp [hx]), rfl⟩, h⟩

theorem readString_line (s rest : GoString) (hs : (0x0A : Byte) ∉ s) :
    readString 0x0A (s ++ 0x0A :: rest) = some (s ++ [0x0A], rest) := by
  induction s with
  | nil => simp [readString]
  | cons c t ih =>
    have hc : c ≠ 0x0A := fun e => hs (by rw [e]; exact List.mem_cons_self _ _)
    have ht : (0x0A : Byte) ∉ t := fun e => hs (List.mem_cons_of_mem _ e)
    show readString 0x0A (c :: (t ++ 0x0A :: rest)) = _
    rw [readString, if_neg hc, ih ht]
    rfl

theorem readString_eof (s : GoString) (hs : (0x0A : Byte) ∉ s) : readString 0x0A s = none := by
  induction s with
  | nil => rfl
  | cons c t ih =>
    have hc : c ≠ 0x0A := fun e => hs (by rw [e]; exact List.mem_cons_self _ _)
    have ht : (0x0A : Byte) ∉ t := fun e => hs (List.mem_cons_of_mem _ e)
    rw [readString, if_neg hc, ih ht]
    rfl


/-- The three ways `switchProfile` ends after reading a line: the line is not an index into the
catalogue, or it is and the selected entry is handed to `setGitConfig`. -/
theorem switchProfile_cases (w : World) (C : List GitProfile) (s rest : GoString)
    (h : (loadProfiles w).1 = .ok C) (hne : C ≠ []) (hlen : C.length < 2 ^ 63)
    (hs : (0x0A : Byte) ∉ s) (hin : w.stdin = s ++ 0x0A :: rest) :
    ((¬ ∃ i : Nat, TrimsToInteger s i ∧ i < C.length) ∧
        switchProfile w = (.error .invalidSelection, promptWorld w C rest)) ∨
      ∃ (i : Nat) (p : GitProfile), TrimsToInteger s i ∧ C.get? i = some p ∧
        (∀ j : Nat, TrimsToInteger s j → j < C.length → j = i) ∧
        switchProfile w = finishSwitch p.Name p.Email (promptWorld w C rest) := by
  have hline : readString 0x0A w.stdin = some (s ++ [0x0A], rest) := by
    rw [hin, readString_line s rest hs]
  have hsel := selection_iff (TrimSpace (s ++ [0x0A])) C.length hlen
  have heq := switchProfile_eq w C _ rest h hne hline
  have hno : ∀ q : Prop, (q ↔ ∃ index : Int, Atoi (TrimSpace (s ++ [0x0A])) = some index ∧
      ¬ (index < 0 ∨ index ≥ C.length)) →
      ((∃ i : Nat, TrimsToInteger s i ∧ i < C.length) ↔ q) := by
    intro q hq
    rw [hq, ← hsel]
    constructor
    · rintro ⟨i, hi, hlt⟩
      exact ⟨i, (trimsToInteger_iff s i).mp hi, hlt⟩
    · rintro ⟨i, hi, hlt⟩
      exact ⟨i, (trimsToInteger_iff s i).mpr hi, hlt⟩
  have hiff := hno _ Iff.rfl
  cases hA : Atoi (TrimSpace (s ++ [0x0A])) with
  | none =>
    rw [hA] at heq
    left
    refine ⟨?_, heq⟩
    rw [hiff, hA]
    rintro ⟨index, hi, -⟩
    exact nomatch hi
  | some index =>
    rw [hA] at heq
    simp only [] at heq
    by_cases hr : index < 0 ∨ index ≥ C.length
    · rw [if_pos hr] at heq
      left
      refine ⟨?_, heq⟩
      rw [hiff, hA]
      rintro ⟨index1, hi, hr1⟩
      simp only [Option.some.injEq] at hi
      subst hi
      exact hr1 hr
    · have hlt : index.toNat < C.length := by omega
      obtain ⟨sel, hsel1⟩ : ∃ sel, C.get? index.toNat = some sel :=
        ⟨C.get ⟨index.toNat, hlt⟩, List.get?_eq_get hlt⟩
      rw [if_neg hr, hsel1] at heq
      simp only [] at heq
      right
      refine ⟨index.toNat, sel, ?_, hsel1, ?_, heq⟩
      · rw [trimsToInteger_iff, Int.toNat_of_nonneg (by omega)]
        exact Atoi_some _ _ hA
      · intro j hj hjl
        rw [trimsToInteger_iff] at hj
        have := Atoi_decimal _ j hj (by omega) (by omega)
        rw [hA] at this
        simp only [Option.some.injEq] at this
        omega

/-- The line printed for the entry at index `i` stands `1 + i` lines after what was printed
before. -/
theorem lines_get? (f : Nat × GitProfile → Line) (C : List GitProfile) (pre tail : List Line)
    (first : Line) (i : Nat) (p : GitProfile) (hp : C.get? i = some p) :
    (pre ++ (first :: C.enum.map f ++ tail)).get? (pre.length + 1 + i) = some (f (i, p)) := by
  have hi := get?_lt C i p hp
  have h1 := enum_map_get? f C i p hp
  rw [List.get?_eq_getElem?] at h1 ⊢
  rw [List.getElem?_append_right (by omega)]
  have : pre.length + 1 + i - pre.length = i + 1 := by omega
  rw [this, List.cons_append, List.getElem?_cons_succ,
    List.getElem?_append_left (by simp [List.enum]; exact hi), h1]

/-! ## The claims -/

/-- C1, amended: for every persisted catalogue `C`, name `n` and email `e`, `addProfile n e`
fails with the `already exists` error exactly when some entry of `C` has name `n`; then the
persisted catalogue is still `C`.  Otherwise it succeeds when the document can be written, and
after a success the persisted catalogue is `C` followed by the single entry `{n, e}` with both
strings coerced to valid UTF-8, that is `{n, e}` itself when `n` and `e` are valid UTF-8. -/
theorem addProfile_contract (w : World) (C : List GitProfile) (n e : GoString)
    (h : (loadProfiles w).1 = .ok C) :
    ((addProfile n e w).1 = .error (.alreadyExists n) ↔ ∃ p ∈ C, p.Name = n) ∧
      ((∃ p ∈ C, p.Name = n) → (loadProfiles (addProfile n e w).2).1 = .ok C) ∧
      ((¬ ∃ p ∈ C, p.Name = n) → w.writeOk = true → (addProfile n e w).1 = .ok ()) ∧
      ((addProfile n e w).1 = .ok () →
        (loadProfiles (addProfile n e w).2).1 = .ok (C ++ [⟨coerceUTF8 n, coerceUTF8 e⟩])) ∧
      ((addProfile n e w).1 = .ok () → validUTF8 n = true → validUTF8 e = true →
        (loadProfiles (addProfile n e w).2).1 = .ok (C ++ [⟨n, e⟩])) := by
  have hv := loadProfiles_valid w C h
  obtain ⟨s1, s2, s3⟩ := save_after_load w C (C ++ [{ Name := n, Email := e }]) h
  have hmap : (C ++ [({ Name := n, Email := e } : GitProfile)]).map coerceProfile
      = C ++ [⟨coerceUTF8 n, coerceUTF8 e⟩] := by
    rw [List.map_append, map_coerceProfile_valid C hv]; rfl
  rw [hmap] at s3
  rw [addProfile_eq w C n e h]
  by_cases hex : ∃ p ∈ C, p.Name = n
  · have ha := (any_name_iff C n).mpr hex
    rw [if_pos ha]
    refine ⟨⟨fun _ => hex, fun _ => rfl⟩, fun _ => ?_, fun hn => absurd hex hn,
      fun hk => ?_, fun hk => ?_⟩
    · rw [loadProfiles_again w C h]
    · simp at hk
    · simp at hk
  · have ha : ¬ (C.any (fun p => p.Name = n) = true) := fun hh => hex ((any_name_iff C n).mp hh)
    rw [if_neg ha]
    refine ⟨⟨fun hk => ?_, fun hk => absurd hk hex⟩, fun hk => absurd hk hex, fun _ hw => s1 hw,
      s3, fun hk hn he => ?_⟩
    · cases hwo : w.writeOk
      · rw [s2 hwo] at hk; simp at hk
      · rw [s1 hwo] at hk; simp at hk
    · rw [s3 hk, coerceUTF8_valid n hn, coerceUTF8_valid e he]

theorem addProfile_contract_witness :
    (loadProfiles freshWorld).1 = .ok [] ∧
      (loadProfiles (addProfile alice.Name alice.Email freshWorld).2).1 = .ok ([] ++ [alice]) :=
  ⟨rfl, (addProfile_contract freshWorld [] alice.Name alice.Email rfl).2.2.2.2 rfl rfl rfl⟩

/-- C1, as stated, fails: on the empty catalogue `addProfile` with the name `0xFF` succeeds, and
the persisted catalogue then holds the name U+FFFD, not the name that was added. -/
theorem addProfile_counterexample :
    (loadProfiles freshWorld).1 = .ok [] ∧
      (addProfile [0xFF] [0x61] freshWorld).1 = .ok () ∧
      (loadProfiles (addProfile [0xFF] [0x61] freshWorld).2).1
        = .ok [⟨[0xEF, 0xBF, 0xBD], [0x61]⟩] ∧
      (loadProfiles (addProfile [0xFF] [0x61] freshWorld).2).1
        ≠ .ok ([] ++ [⟨[0xFF], [0x61]⟩]) := by
  refine ⟨rfl, rfl, rfl, ?_⟩
  have h : (loadProfiles (addProfile [0xFF] [0x61] freshWorld).2).1
      = .ok [⟨[0xEF, 0xBF, 0xBD], [0x61]⟩] := rfl
  rw [h]
  intro e
  rw [Except.ok.injEq] at e
  exact absurd e (by decide)

/-- C2: for every persisted catalogue `C` and name `n`, `deleteProfile n` fails with the
`not found` error exactly when no entry of `C` has name `n`, and the persisted catalogue is then
still `C`; otherwise, when the document can be written, it succeeds and the persisted catalogue
is `C` with the first entry named `n` erased: the entries before and after it keep their order,
and the length is `|C| - 1`. -/
theorem deleteProfile_contract (w : World) (C : List GitProfile) (n : GoString)
    (h : (loadProfiles w).1 = .ok C) :
    ((deleteProfile n w).1 = .error (.notFound n) ↔ ∀ p ∈ C, p.Name ≠ n) ∧
      ((∀ p ∈ C, p.Name ≠ n) → (loadProfiles (deleteProfile n w).2).1 = .ok C) ∧
      (∀ l1 p l2, C = l1 ++ p :: l2 → p.Name = n → (∀ q ∈ l1, q.Name ≠ n) →
        w.writeOk = true →
          (deleteProfile n w).1 = .ok () ∧
            (loadProfiles (deleteProfile n w).2).1 = .ok (l1 ++ l2) ∧
            (l1 ++ l2).length = C.length - 1) := by
  have hv := loadProfiles_valid w C h
  rw [deleteProfile_eq w C n h]
  refine ⟨⟨fun hk => ?_, fun hn => ?_⟩, fun hn => ?_, fun l1 p l2 hC hp hl hw => ?_⟩
  · cases hf : findIndex n C 0 with
    | none =>
      intro p hp hpn
      obtain ⟨l1, l2, hs, hfirst⟩ : ∃ l1 l2, C = l1 ++ p :: l2 ∧ True := by
        obtain ⟨l1, l2, hs⟩ := List.append_of_mem hp
        exact ⟨l1, l2, hs, trivial⟩
      clear hfirst
      -- a first entry named `n` exists, so the search cannot fail
      have : ∃ m1 q m2, C = m1 ++ q :: m2 ∧ q.Name = n ∧ ∀ r ∈ m1, r.Name ≠ n := by
        clear hs hf hk hv h
        induction C with
        | nil => simp at hp
        | cons c cs ih =>
          by_cases hc : c.Name = n
          · exact ⟨[], c, cs, rfl, hc, by simp⟩
          · rcases List.mem_cons.mp hp with rfl | hp'
            · exact absurd hpn hc
            · obtain ⟨m1, q, m2, e1, e2, e3⟩ := ih hp'
              refine ⟨c :: m1, q, m2, by rw [e1]; rfl, e2, ?_⟩
              intro r hr
              rcases List.mem_cons.mp hr with rfl | hr'
              · exact hc
              · exact e3 r hr'
      obtain ⟨m1, q, m2, e1, e2, e3⟩ := this
      rw [e1, findIndex_first n m1 m2 q 0 e2 e3] at hf
      exact nomatch hf
    | some idx =>
      rw [hf] at hk
      simp only [] at hk
      obtain ⟨s1, s2, -⟩ := save_after_load w C (C.take idx ++ C.drop (idx + 1)) h
      cases hwo : w.writeOk
      · rw [s2 hwo] at hk; simp at hk
      · rw [s1 hwo] at hk; simp at hk
  · rw [findIndex_none n C 0 hn]
  · rw [findIndex_none n C 0 hn]
    simp only []
    rw [loadProfiles_again w C h]
  · subst hC
    rw [findIndex_first n l1 l2 p 0 hp hl]
    simp only [Nat.zero_add]
    have ht : (l1 ++ p :: l2).take l1.length ++ (l1 ++ p :: l2).drop (l1.length + 1)
        = l1 ++ l2 := by
      rw [List.take_left, List.drop_append_eq_append_drop]
      simp
    rw [ht]
    obtain ⟨s1, -, s3⟩ := save_after_load w _ (l1 ++ l2) h
    refine ⟨s1 hw, ?_, by simp⟩
    rw [s3 (s1 hw), map_coerceProfile_valid]
    intro q hq
    apply hv
    rcases List.mem_append.mp hq with hq | hq
    · exact List.mem_append_left _ hq
    · exact List.mem_append_right _ (List.mem_cons_of_mem _ hq)

theorem deleteProfile_contract_witness :
    (loadProfiles (storedWorld [alice, bob] none none)).1 = .ok [alice, bob] ∧
      (deleteProfile alice.Name (storedWorld [alice, bob] none none)).1 = .ok () ∧
      (loadProfiles (deleteProfile alice.Name (storedWorld [alice, bob] none none)).2).1
        = .ok ([] ++ [bob]) ∧
      ([] ++ [bob]).length = [alice, bob].length - 1 :=
  ⟨rfl, (deleteProfile_contract (storedWorld [alice, bob] none none) [alice, bob] alice.Name
    rfl).2.2 [] alice [bob] rfl rfl (fun _ hq => nomatch hq) rfl⟩

/-- C3, as stated, fails: saving a catalogue whose name is the single byte `0xFF` succeeds, and
loading returns the name U+FFFD instead. -/
theorem roundtrip_counterexample :
    (saveProfiles [⟨[0xFF], [0x61]⟩] freshWorld).1 = .ok () ∧
      (loadProfiles (saveProfiles [⟨[0xFF], [0x61]⟩] freshWorld).2).1
        = .ok [⟨[0xEF, 0xBF, 0xBD], [0x61]⟩] ∧
      (loadProfiles (saveProfiles [⟨[0xFF], [0x61]⟩] freshWorld).2).1
        ≠ .ok [⟨[0xFF], [0x61]⟩] := by
  refine ⟨rfl, rfl, ?_⟩
  have h : (loadProfiles (saveProfiles [⟨[0xFF], [0x61]⟩] freshWorld).2).1
      = .ok [⟨[0xEF, 0xBF, 0xBD], [0x61]⟩] := rfl
  rw [h]
  intro e
  rw [Except.ok.injEq] at e
  exact absurd e (by decide)

/-- C3, amended: for any catalogue `C` whose names and emails are valid UTF-8, a successful
`saveProfiles C` followed by `loadProfiles` returns without error a catalogue equal to `C`.  For
an arbitrary catalogue the result is `C` with every string coerced to valid UTF-8; the `null`
written for a nil slice loads as the empty catalogue. -/
theorem roundtrip_valid_utf8 (C : List GitProfile) (w : World)
    (hsave : (saveProfiles C w).1 = .ok ()) (hread : w.readable = true) :
    (loadProfiles (saveProfiles C w).2).1 = .ok (C.map coerceProfile) ∧
      ((∀ p ∈ C, validProfile p = true) → (loadProfiles (saveProfiles C w).2).1 = .ok C) ∧
      Unmarshal marshalNil = some [] := by
  have hg : (getConfigFilePath w).1 = .ok () := by
    unfold saveProfiles at hsave
    cases hg : getConfigFilePath w with
    | mk r w1 =>
      rw [hg] at hsave
      cases r with
      | error e => simp at hsave
      | ok u => rfl
  obtain ⟨e1, e2, e3⟩ := getConfigFilePath_ok w hg
  have hb : w.docBlocked = false := by
    unfold saveProfiles at hsave
    cases hg1 : getConfigFilePath w with
    | mk r w1 =>
      rw [hg1] at hsave hg e1
      simp only [] at hg e1 hsave
      subst hg
      cases hb : w.docBlocked
      · rfl
      · have : w1.docBlocked = true := by rw [e1]; exact hb
        simp [this] at hsave
  replace e2 := e2 hb
  have hs : saveProfiles C w = saveProfiles C (getConfigFilePath w).2 := by
    unfold saveProfiles
    rw [getConfigFilePath_ready _ e2]
    cases hg' : getConfigFilePath w with
    | mk r w1 =>
      rw [hg'] at hg
      simp only [] at hg
      subst hg
      rfl
  have hr1 : (getConfigFilePath w).2.readable = true := by
    rw [e1]; exact hread
  have hw : (getConfigFilePath w).2.writeOk = true := by
    rw [hs, saveProfiles_ready _ _ e2] at hsave
    by_contra hn
    rw [if_neg hn] at hsave
    simp at hsave
  obtain ⟨-, h2⟩ := loadProfiles_saveProfiles C _ e2 hr1 hw
  rw [hs, h2]
  refine ⟨rfl, fun hv => ?_, rfl⟩
  rw [map_coerceProfile_valid C hv]

theorem roundtrip_valid_utf8_witness :
    (saveProfiles [alice, bob] freshWorld).1 = .ok () ∧ freshWorld.readable = true ∧
      (loadProfiles (saveProfiles [alice, bob] freshWorld).2).1 = .ok [alice, bob] :=
  ⟨rfl, rfl, (roundtrip_valid_utf8 [alice, bob] freshWorld rfl rfl).2.1 (by decide)⟩

/-- C4, amended: after any finite sequence of successful `addProfile` / `deleteProfile`
operations, with names that are valid UTF-8 and arbitrary emails, starting from the empty
catalogue, the persisted catalogue exists and has no two entries with equal name. -/
theorem uniqueness_preserved (ops : List Op) (w0 w : World)
    (h0 : (loadProfiles w0).1 = .ok []) (hops : ∀ op ∈ ops, op.plain = true)
    (hrun : runOps ops w0 = some w) :
    ∃ C, (loadProfiles w).1 = .ok C ∧ (C.map (·.Name)).Nodup := by
  have key : ∀ (ops : List Op) (w0 w : World),
      (∃ C, (loadProfiles w0).1 = .ok C ∧ (C.map (·.Name)).Nodup) →
      (∀ op ∈ ops, op.plain = true) → runOps ops w0 = some w →
      ∃ C, (loadProfiles w).1 = .ok C ∧ (C.map (·.Name)).Nodup := by
    intro ops
    induction ops with
    | nil =>
      intro w0 w hinv _ hrun
      simp only [runOps, Option.some.injEq] at hrun
      subst hrun; exact hinv
    | cons op ops ih =>
      intro w0 w hinv hops hrun
      obtain ⟨C, hC1, hC2⟩ := hinv
      have hplain := hops op (by simp)
      simp only [runOps] at hrun
      cases hr : runOp op w0 with
      | mk r w1 =>
        rw [hr] at hrun
        cases r with
        | error e => simp at hrun
        | ok u =>
          simp only [] at hrun
          have h1 : (runOp op w0).1 = .ok () := by rw [hr]
          have h2 : (runOp op w0).2 = w1 := by rw [hr]
          refine ih w1 w ?_ (fun o ho => hops o (by simp [ho])) hrun
          rw [← h2]
          cases op with
          | add n e => exact addProfile_nodup w0 C n e hC1 hC2 hplain h1
          | delete n => exact deleteProfile_nodup w0 C n hC1 hC2 h1
          | importCurrent a b => simp [Op.plain] at hplain
  exact key ops w0 w ⟨[], h0, by simp⟩ hops hrun

theorem uniqueness_preserved_witness :
    (loadProfiles freshWorld).1 = .ok [] ∧
      (∀ op ∈ [Op.add [0x41] [0x61], Op.add [0x42] [0x61], Op.delete [0x41]],
        op.plain = true) ∧
      runOps [Op.add [0x41] [0x61], Op.add [0x42] [0x61], Op.delete [0x41]] freshWorld
        = some (deleteProfile [0x41]
            (addProfile [0x42] [0x61] (addProfile [0x41] [0x61] freshWorld).2).2).2 ∧
      ∃ C, (loadProfiles (deleteProfile [0x41]
            (addProfile [0x42] [0x61] (addProfile [0x41] [0x61] freshWorld).2).2).2).1 = .ok C ∧
          (C.map (·.Name)).Nodup :=
  ⟨rfl, by decide, rfl,
    uniqueness_preserved [Op.add [0x41] [0x61], Op.add [0x42] [0x61], Op.delete [0x41]]
      freshWorld _ rfl (by decide) rfl⟩

/-- C4, as stated, fails: adding the name `0xFF` twice succeeds both times, and the persisted
catalogue then has two entries with the same name, U+FFFD. -/
theorem uniqueness_counterexample :
    (loadProfiles freshWorld).1 = .ok [] ∧
      (addProfile [0xFF] [0x61] freshWorld).1 = .ok () ∧
      (addProfile [0xFF] [0x62] (addProfile [0xFF] [0x61] freshWorld).2).1 = .ok () ∧
      (loadProfiles (addProfile [0xFF] [0x62] (addProfile [0xFF] [0x61] freshWorld).2).2).1
        = .ok [⟨[0xEF, 0xBF, 0xBD], [0x61]⟩, ⟨[0xEF, 0xBF, 0xBD], [0x62]⟩] ∧
      ¬ ([(⟨[0xEF, 0xBF, 0xBD], [0x61]⟩ : GitProfile), ⟨[0xEF, 0xBF, 0xBD], [0x62]⟩].map
          (·.Name)).Nodup :=
  ⟨rfl, rfl, rfl, rfl, by decide⟩


/-- C5 fails on the code: after `add Alice a@x`, an import while the global git identity is
`Alice` / `b@x` succeeds and leaves two profiles named `Alice`. -/
theorem import_duplicates_name :
    (loadProfiles freshWorld).1 = .ok [] ∧
      (runOps [Op.add [0x41, 0x6C, 0x69, 0x63, 0x65] [0x61, 0x40, 0x78],
          Op.importCurrent (some [0x41, 0x6C, 0x69, 0x63, 0x65]) (some [0x62, 0x40, 0x78])]
        freshWorld).map (fun w => (loadProfiles w).1)
        = some (.ok [⟨[0x41, 0x6C, 0x69, 0x63, 0x65], [0x61, 0x40, 0x78]⟩,
            ⟨[0x41, 0x6C, 0x69, 0x63, 0x65], [0x62, 0x40, 0x78]⟩]) ∧
      ¬ ([(⟨[0x41, 0x6C, 0x69, 0x63, 0x65], [0x61, 0x40, 0x78]⟩ : GitProfile),
          ⟨[0x41, 0x6C, 0x69, 0x63, 0x65], [0x62, 0x40, 0x78]⟩].map (·.Name)).Nodup :=
  ⟨rfl, rfl, by decide⟩

/-- C6, as stated, fails: with the catalogue `[Alice, Bob]` and the input `1` that ends without
a newline, the input is the decimal integer 1, an index into the catalogue, yet `switchProfile`
neither accepts it nor fails with `invalid selection`: it returns the error of the read, and
the Adapter's `set` is not called. -/
theorem switchProfile_unterminated_counterexample :
    (loadProfiles { storedWorld [alice, bob] none none with stdin := [0x31] }).1
        = .ok [alice, bob] ∧
      TrimsToInteger [0x31] (1 : Nat) ∧ 1 < [alice, bob].length ∧
      (switchProfile { storedWorld [alice, bob] none none with stdin := [0x31] }).1
        = .error .stdin ∧
      (switchProfile { storedWorld [alice, bob] none none with stdin := [0x31] }).2.setCalls
        = [] :=
  ⟨rfl,
    ⟨[], [0x31], [], rfl, isWhiteSpace_nil, isWhiteSpace_nil, [0x31], List.cons_ne_nil _ _,
      fun c hc => by rw [List.mem_singleton] at hc; rw [hc]; decide, Or.inl ⟨rfl, rfl⟩⟩,
    by decide, rfl, rfl⟩

/-- C6, amended: on the empty catalogue `switchProfile` fails before prompting.  On a non-empty
catalogue `C` it prints `Select a profile:`, one `[i]` line per entry in order and the prompt,
and reads the input up to the first newline.  When the input has a first line `s` that ends
with a newline, `s` is accepted exactly when `s` with the white space around it trimmed is a
decimal integer `i` (digits, with an optional sign) with `0 ≤ i < |C|`, and nothing after the
newline is read.  In that case the Adapter's `set` is called with the name and email of `C[i]`,
the entry shown on the `[i]` line; when the Adapter succeeds the external identity is what git
keeps of these two values and `Profile switched to` that entry is reported, and when it fails
its error is returned.  Any other line fails with `invalid selection` without a call of `set`.
The index is never out of range.  When the input ends before a newline, whatever it holds,
`switchProfile` fails with the error of the read, without a call of `set`. -/
theorem switchProfile_contract (w : World) (C : List GitProfile)
    (h : (loadProfiles w).1 = .ok C) :
    (C = [] → (switchProfile w).1 = .error .noProfiles ∧
        (switchProfile w).2.stdout = w.stdout ∧ (switchProfile w).2.stdin = w.stdin ∧
        (switchProfile w).2.setCalls = w.setCalls) ∧
      (∀ s rest : GoString, C ≠ [] → C.length < 2 ^ 63 → (0x0A : Byte) ∉ s →
        w.stdin = s ++ 0x0A :: rest →
          ((switchProfile w).1 ≠ .error .invalidSelection ↔
            ∃ i : Nat, TrimsToInteger s i ∧ i < C.length) ∧
          (switchProfile w).2.stdin = rest ∧
          (∀ (i : Nat) (p : GitProfile), TrimsToInteger s i → C.get? i = some p →
            (switchProfile w).2.setCalls = w.setCalls ++ [(p.Name, p.Email)] ∧
            (switchProfile w).2.stdout.get? (w.stdout.length + 1 + i)
              = some (.switchEntry i p.Name p.Email) ∧
            (w.setNameOk = true → w.setEmailOk = true →
              (switchProfile w).1 = .ok () ∧
              (switchProfile w).2.gitName = some (w.gitKeeps p.Name) ∧
              (switchProfile w).2.gitEmail = some (w.gitKeeps p.Email) ∧
              (switchProfile w).2.stdout
                = w.stdout ++ promptLines C ++ [.switched p.Name p.Email]) ∧
            (¬ (w.setNameOk = true ∧ w.setEmailOk = true) →
              (switchProfile w).1 = .error .git ∧
              (switchProfile w).2.stdout = w.stdout ++ promptLines C)) ∧
          ((¬ ∃ i : Nat, TrimsToInteger s i ∧ i < C.length) →
            (switchProfile w).1 = .error .invalidSelection ∧
            (switchProfile w).2.setCalls = w.setCalls ∧
            (switchProfile w).2.gitName = w.gitName ∧
            (switchProfile w).2.gitEmail = w.gitEmail ∧
            (switchProfile w).2.stdout = w.stdout ++ promptLines C) ∧
          (switchProfile w).1 ≠ .error .indexOutOfRange) ∧
      (C ≠ [] → (0x0A : Byte) ∉ w.stdin →
        (switchProfile w).1 = .error .stdin ∧ (switchProfile w).2.setCalls = w.setCalls ∧
        (switchProfile w).2.stdout = w.stdout ++ promptLines C) := by
  obtain ⟨h1, -, -, -, -⟩ := loadProfiles_ok w C h
  refine ⟨fun hC => ?_, fun s rest hne hlen hs hin => ?_, fun hne hin => ?_⟩
  · subst hC
    rw [switchProfile_empty w h, h1]
    exact ⟨rfl, rfl, rfl, rfl⟩
  · have hpw := promptWorld_eq w C rest h
    have hout : (promptWorld w C rest).stdout = w.stdout ++ promptLines C := by
      rw [hpw]; rfl
    have hcalls : (promptWorld w C rest).setCalls = w.setCalls := by rw [hpw]
    have hgn : (promptWorld w C rest).gitName = w.gitName := by rw [hpw]
    have hge : (promptWorld w C rest).gitEmail = w.gitEmail := by rw [hpw]
    have hsn : (promptWorld w C rest).setNameOk = w.setNameOk := by rw [hpw]
    have hse : (promptWorld w C rest).setEmailOk = w.setEmailOk := by rw [hpw]
    have hgk : (promptWorld w C rest).gitKeeps = w.gitKeeps := by rw [hpw]
    have hrest : (promptWorld w C rest).stdin = rest := by rw [hpw]
    rcases switchProfile_cases w C s rest h hne hlen hs hin with
      ⟨hno, hres⟩ | ⟨i, p, hi, hp, huniq, hres⟩
    · rw [hres]
      refine ⟨⟨fun hk => absurd rfl hk, fun hk => absurd hk hno⟩, hrest,
        fun i p hi hp => absurd ⟨i, hi, get?_lt C i p hp⟩ hno,
        fun _ => ⟨rfl, hcalls, hgn, hge, hout⟩, by simp⟩
    · have hyes : ∃ i : Nat, TrimsToInteger s i ∧ i < C.length := ⟨i, hi, get?_lt C i p hp⟩
      obtain ⟨t1, t2, t3, t4, t5, t6⟩ :=
        switch_selected p.Name p.Email (promptWorld w C rest)
      rw [← hres] at t1 t2 t3 t4 t5 t6
      rw [hout] at t5 t6
      rw [hcalls] at t1
      rw [hsn, hse] at t5 t6
      rw [hgk] at t5
      rw [hrest] at t2
      refine ⟨⟨fun _ => hyes, fun _ => t3⟩, t2, ?_, fun hk => absurd hyes hk, t4⟩
      intro j q hj hq
      have hji := huniq j hj (get?_lt C j q hq)
      subst hji
      rw [hp] at hq
      simp only [Option.some.injEq] at hq
      subst hq
      refine ⟨t1, ?_, t5, t6⟩
      have hline : ∃ tail, (switchProfile w).2.stdout = w.stdout ++ promptLines C ++ tail := by
        by_cases hok : w.setNameOk = true ∧ w.setEmailOk = true
        · exact ⟨_, (t5 hok.1 hok.2).2.2.2⟩
        · exact ⟨[], by rw [(t6 hok).2, List.append_nil]⟩
      obtain ⟨tail, ht⟩ := hline
      rw [ht]
      unfold promptLines
      simp only [List.append_assoc, List.cons_append, List.nil_append]
      exact lines_get? switchLine C w.stdout (.enterNumber :: tail) .selectProfile j p hp
  · rw [switchProfile_eof w C h hne (readString_eof _ hin), promptWorld_eq w C [] h]
    exact ⟨rfl, rfl, rfl⟩

theorem switchProfile_contract_witness :
    (loadProfiles { storedWorld [alice, bob] none none with stdin := [0x20, 0x31, 0x20, 0x0A] }).1
        = .ok [alice, bob] ∧
      (switchProfile
        { storedWorld [alice, bob] none none with stdin := [0x20, 0x31, 0x20, 0x0A] }).1
        = .ok () ∧
      (switchProfile
        { storedWorld [alice, bob] none none with stdin := [0x20, 0x31, 0x20, 0x0A] }).2.gitName
        = some bob.Name ∧
      (switchProfile
        { storedWorld [alice, bob] none none with stdin := [0x20, 0x31, 0x20, 0x0A] }).2.gitEmail
        = some bob.Email :=
  ⟨rfl,
    let c := ((switchProfile_contract
      { storedWorld [alice, bob] none none with stdin := [0x20, 0x31, 0x20, 0x0A] }
      [alice, bob] rfl).2.1
        [0x20, 0x31, 0x20] [] (List.cons_ne_nil _ _) (by norm_num) (by decide) rfl).2.2.1 1 bob
          ⟨[0x20], [0x31], [0x20], rfl,
            ⟨[[0x20]], fun c hc => by rw [List.mem_singleton] at hc; rw [hc]; decide, rfl⟩,
            ⟨[[0x20]], fun c hc => by rw [List.mem_singleton] at hc; rw [hc]; decide, rfl⟩,
            [0x31], List.cons_ne_nil _ _,
            fun c hc => by rw [List.mem_singleton] at hc; rw [hc]; decide,
            Or.inl ⟨rfl, rfl⟩⟩ rfl
    ⟨(c.2.2.1 rfl rfl).1, (c.2.2.1 rfl rfl).2.1, (c.2.2.1 rfl rfl).2.2.1⟩⟩

/-- C7, amended: for every catalogue `C` and every current identity, `listProfiles` prints
`Stored profiles:`, then one line per entry, in order, and then the advisory lines if the
current identity is known and is not an entry, and nothing else.  The line of an entry carries
the marker `*` exactly when the entry equals the current (name, email) pair, and a single space
otherwise: every entry equal to the current pair is marked, not only the first one, so the
number of marked lines is the number of such entries.  It is at most one when the names of `C`
are distinct. -/
theorem listProfiles_markers (w : World) (C : List GitProfile)
    (h : (loadProfiles w).1 = .ok C) :
    (listProfiles w).1 = .ok () ∧
      (listProfiles w).2.stdout = w.stdout ++
        (.storedProfiles :: C.enum.map (listLine (currentOrEmpty false w) (currentOrEmpty true w)))
          ++ advisoryLines (currentOrEmpty false w) (currentOrEmpty true w) C ∧
      (∀ i p, C.get? i = some p →
        (listProfiles w).2.stdout.get? (w.stdout.length + 1 + i)
          = some (.listEntry i p.Name p.Email
              (if p.Name = currentOrEmpty false w ∧ p.Email = currentOrEmpty true w
                then [0x2A] else [0x20]))) ∧
      (((listProfiles w).2.stdout.drop w.stdout.length).filter Line.marked).length
        = (C.filter (fun p =>
            decide (p.Name = currentOrEmpty false w ∧ p.Email = currentOrEmpty true w))).length ∧
      ((C.map (·.Name)).Nodup →
        (((listProfiles w).2.stdout.drop w.stdout.length).filter Line.marked).length ≤ 1) := by
  have hout : (listProfiles w).2.stdout = w.stdout ++
      (.storedProfiles :: C.enum.map (listLine (currentOrEmpty false w) (currentOrEmpty true w)))
        ++ advisoryLines (currentOrEmpty false w) (currentOrEmpty true w) C := by
    rw [listProfiles_eq w C h]
    simp only [World.print, loadProfiles_stdout w C h]
    rfl
  have hadv : (advisoryLines (currentOrEmpty false w) (currentOrEmpty true w) C).filter
      Line.marked = [] := by
    unfold advisoryLines
    split_ifs <;> rfl
  have hcount : (((listProfiles w).2.stdout.drop w.stdout.length).filter Line.marked).length
      = (C.filter (fun p =>
          decide (p.Name = currentOrEmpty false w ∧ p.Email = currentOrEmpty true w))).length := by
    rw [hout, List.append_assoc, List.drop_left, List.filter_append, hadv, List.append_nil,
      List.filter_cons_of_neg (by simp [Line.marked]), List.enum, marked_count]
  refine ⟨by rw [listProfiles_eq w C h], hout, ?_, hcount, ?_⟩
  · intro i p hp
    rw [hout, List.append_assoc, List.cons_append]
    exact lines_get? _ C w.stdout _ _ i p hp
  · intro hC
    rw [hcount]
    exact matching_le_one _ _ C hC

theorem listProfiles_markers_witness :
    (loadProfiles (storedWorld [alice, bob] (some bob.Name) (some bob.Email))).1
        = .ok [alice, bob] ∧
      (listProfiles (storedWorld [alice, bob] (some bob.Name) (some bob.Email))).2.stdout
        = [.storedProfiles, .listEntry 0 alice.Name alice.Email [0x20],
            .listEntry 1 bob.Name bob.Email [0x2A]] :=
  ⟨rfl, (listProfiles_markers (storedWorld [alice, bob] (some bob.Name) (some bob.Email))
    [alice, bob] rfl).2.1⟩

/-- C7, as stated, fails: when the catalogue holds the same entry twice and that entry is the
current identity, both entry lines are marked with `*`. -/
theorem listProfiles_two_marked_counterexample :
    (loadProfiles (storedWorld [alice, alice] (some alice.Name) (some alice.Email))).1
        = .ok [alice, alice] ∧
      (listProfiles (storedWorld [alice, alice] (some alice.Name) (some alice.Email))).2.stdout
        = [.storedProfiles, .listEntry 0 alice.Name alice.Email [0x2A],
            .listEntry 1 alice.Name alice.Email [0x2A]] :=
  ⟨rfl, rfl⟩

/-- C8, amended: for every persisted catalogue `C` and every result of reading `user.name` and
`user.email`, `importProfile` fails and changes nothing when either read fails or returns the
empty string; otherwise, with the current pair `(n, e)`, it fails with the `already exists`
error, leaving the catalogue `C`, exactly when some entry of `C` has both name `n` and email
`e`, and else it succeeds when the document can be written; after a success the persisted
catalogue is `C` followed by `{n, e}` with both strings coerced to valid UTF-8, that is `{n, e}`
itself when `n` and `e` are valid UTF-8. -/
theorem importProfile_contract (w : World) (C : List GitProfile)
    (h : (loadProfiles w).1 = .ok C) :
    ((∀ n, getCurrentGitConfig false w = .ok n → n = []) →
        importProfile w = (.error .noUserName, w)) ∧
      (∀ n, getCurrentGitConfig false w = .ok n → n ≠ [] →
        (∀ e, getCurrentGitConfig true w = .ok e → e = []) →
          importProfile w = (.error .noUserEmail, w)) ∧
      (∀ n e, getCurrentGitConfig false w = .ok n → n ≠ [] →
        getCurrentGitConfig true w = .ok e → e ≠ [] →
          ((importProfile w).1 = .error .alreadyImported ↔
              ∃ p ∈ C, p.Name = n ∧ p.Email = e) ∧
            ((∃ p ∈ C, p.Name = n ∧ p.Email = e) →
              (loadProfiles (importProfile w).2).1 = .ok C) ∧
            ((¬ ∃ p ∈ C, p.Name = n ∧ p.Email = e) → w.writeOk = true →
              (importProfile w).1 = .ok ()) ∧
            ((importProfile w).1 = .ok () →
              (loadProfiles (importProfile w).2).1
                = .ok (C ++ [⟨coerceUTF8 n, coerceUTF8 e⟩])) ∧
            ((importProfile w).1 = .ok () → validUTF8 n = true → validUTF8 e = true →
              (loadProfiles (importProfile w).2).1 = .ok (C ++ [⟨n, e⟩]))) := by
  refine ⟨fun hn => ?_, fun n hn hn0 he => ?_, fun n e hn hn0 he he0 => ?_⟩
  · unfold importProfile
    cases hg : getCurrentGitConfig false w with
    | error err => rfl
    | ok n => simp only [hn n hg, if_true]
  · unfold importProfile
    rw [hn]
    simp only [if_neg hn0]
    cases hg : getCurrentGitConfig true w with
    | error err => rfl
    | ok e => simp only [he e hg, if_true]
  · have hv := loadProfiles_valid w C h
    obtain ⟨s1, s2, s3⟩ := save_after_load w C (C ++ [{ Name := n, Email := e }]) h
    have hmap : (C ++ [({ Name := n, Email := e } : GitProfile)]).map coerceProfile
        = C ++ [⟨coerceUTF8 n, coerceUTF8 e⟩] := by
      rw [List.map_append, map_coerceProfile_valid C hv]; rfl
    rw [hmap] at s3
    rw [importProfile_eq w C n e h hn hn0 he he0]
    by_cases hex : ∃ p ∈ C, p.Name = n ∧ p.Email = e
    · rw [if_pos ((any_pair_iff C n e).mpr hex)]
      refine ⟨⟨fun _ => hex, fun _ => rfl⟩, fun _ => ?_, fun hne => absurd hex hne,
        fun hk => ?_, fun hk => ?_⟩
      · rw [loadProfiles_again w C h]
      · simp at hk
      · simp at hk
    · rw [if_neg (fun hh => hex ((any_pair_iff C n e).mp hh))]
      rcases save_after_load_cases w C (C ++ [{ Name := n, Email := e }]) h with hs | hs
      · cases hsv : saveProfiles (C ++ [{ Name := n, Email := e }]) (loadProfiles w).2 with
        | mk r w2 =>
          rw [hsv] at hs s3
          simp only [] at hs s3
          subst hs
          simp only []
          rw [loadProfiles_print]
          refine ⟨⟨fun hk => ?_, fun hk => absurd hk hex⟩, fun hk => absurd hk hex,
            fun _ _ => trivial, fun _ => s3 rfl, fun _ hvn hve => ?_⟩
          · simp at hk
          · rw [s3 rfl, coerceUTF8_valid n hvn, coerceUTF8_valid e hve]
      · rw [hs]
        simp only []
        refine ⟨⟨fun hk => ?_, fun hk => absurd hk hex⟩, fun hk => absurd hk hex,
          fun _ hw => ?_, fun hk => ?_, fun hk => ?_⟩
        · simp at hk
        · have := s1 hw
          rw [hs] at this
          simp at this
        · simp at hk
        · simp at hk

theorem importProfile_contract_witness :
    (loadProfiles (storedWorld [] (some alice.Name) (some alice.Email))).1 = .ok [] ∧
      (loadProfiles (importProfile (storedWorld [] (some alice.Name) (some alice.Email))).2).1
        = .ok ([] ++ [alice]) :=
  ⟨rfl, ((importProfile_contract (storedWorld [] (some alice.Name) (some alice.Email)) []
    rfl).2.2 alice.Name alice.Email rfl (by decide) rfl (by decide)).2.2.2.2 rfl rfl rfl⟩

/-- C8, as stated, fails: with the global identity `0xFF` / `a` and an empty catalogue,
`importProfile` succeeds and the persisted catalogue then holds the name U+FFFD, not the name
that was read. -/
theorem importProfile_counterexample :
    (loadProfiles (storedWorld [] (some [0xFF]) (some [0x61]))).1
        = .ok [] ∧
      getCurrentGitConfig false
        (storedWorld [] (some [0xFF]) (some [0x61])) = .ok [0xFF] ∧
      getCurrentGitConfig true
        (storedWorld [] (some [0xFF]) (some [0x61])) = .ok [0x61] ∧
      (importProfile (storedWorld [] (some [0xFF]) (some [0x61]))).1
        = .ok () ∧
      (loadProfiles (importProfile
          (storedWorld [] (some [0xFF]) (some [0x61]))).2).1
        = .ok [⟨[0xEF, 0xBF, 0xBD], [0x61]⟩] ∧
      (loadProfiles (importProfile
          (storedWorld [] (some [0xFF]) (some [0x61]))).2).1
        ≠ .ok ([] ++ [⟨[0xFF], [0x61]⟩]) := by
  refine ⟨rfl, rfl, rfl, rfl, rfl, ?_⟩
  have h : (loadProfiles (importProfile
      (storedWorld [] (some [0xFF]) (some [0x61]))).2).1
      = .ok [⟨[0xEF, 0xBF, 0xBD], [0x61]⟩] := rfl
  rw [h]
  intro e
  rw [Except.ok.injEq] at e
  exact absurd e (by decide)

/-- C9, amended: for every loadable catalogue `C`, if the read of `user.name` or of
`user.email` fails, `listProfiles` still succeeds and prints `Stored profiles:` and one line per
entry of `C`, in order, and no advisory lines; the failed read counts as the empty string, so no
entry line is marked with `*` provided no entry of `C` has an empty name or an empty email. -/
theorem listProfiles_adapter_failure (w : World) (C : List GitProfile)
    (h : (loadProfiles w).1 = .ok C)
    (hfail : (∃ err, getCurrentGitConfig false w = .error err) ∨
      (∃ err, getCurrentGitConfig true w = .error err)) :
    (listProfiles w).1 = .ok () ∧
      (listProfiles w).2.stdout = w.stdout ++ (.storedProfiles ::
        C.enum.map (listLine (currentOrEmpty false w) (currentOrEmpty true w))) ∧
      ((∀ p ∈ C, p.Name ≠ [] ∧ p.Email ≠ []) →
        (listProfiles w).2.stdout = w.stdout ++ (.storedProfiles ::
          C.enum.map (fun ip => .listEntry ip.1 ip.2.Name ip.2.Email [0x20]))) := by
  have hempty : currentOrEmpty false w = [] ∨ currentOrEmpty true w = [] := by
    rcases hfail with ⟨err, he⟩ | ⟨err, he⟩
    · left; unfold currentOrEmpty; rw [he]
    · right; unfold currentOrEmpty; rw [he]
  have hadv : ¬ (currentOrEmpty false w ≠ [] ∧ currentOrEmpty true w ≠ [] ∧
      ¬ (∃ p ∈ C, p.Name = currentOrEmpty false w ∧ p.Email = currentOrEmpty true w)) := by
    rintro ⟨a, b, -⟩
    rcases hempty with e | e
    · exact a e
    · exact b e
  rw [listProfiles_eq w C h, if_neg hadv]
  refine ⟨rfl, ?_, fun hne => ?_⟩
  · simp only [World.print, loadProfiles_stdout w C h, List.append_nil]
  · simp only [World.print, loadProfiles_stdout w C h, List.append_nil]
    congr 2
    apply List.map_congr_left
    intro ip hip
    have hmem : ip.2 ∈ C := by
      obtain ⟨i, p⟩ := ip
      exact List.mem_enum hip |>.2 ▸ List.get_mem _ _ _
    obtain ⟨n1, n2⟩ := hne ip.2 hmem
    unfold listLine
    rw [if_neg]
    rintro ⟨a, b⟩
    rcases hempty with e | e
    · exact n1 (a.trans e)
    · exact n2 (b.trans e)

theorem listProfiles_adapter_failure_witness :
    (loadProfiles (storedWorld [alice] none none)).1 = .ok [alice] ∧
      ((∃ err, getCurrentGitConfig false (storedWorld [alice] none none) = .error err) ∨
        (∃ err, getCurrentGitConfig true (storedWorld [alice] none none) = .error err)) ∧
      (listProfiles (storedWorld [alice] none none)).2.stdout
        = [] ++ [.storedProfiles, .listEntry 0 alice.Name alice.Email [0x20]] :=
  ⟨rfl, Or.inl ⟨.git, rfl⟩,
    (listProfiles_adapter_failure (storedWorld [alice] none none) [alice] rfl
      (Or.inl ⟨.git, rfl⟩)).2.2 (by decide)⟩

/-- C9, as stated, fails: when the read of `user.name` fails while `user.email` is `a`, the
entry with the empty name and the email `a` is marked with `*`. -/
theorem listProfiles_failure_marked_counterexample :
    (loadProfiles (storedWorld [⟨[], [0x61]⟩] none (some [0x61]))).1 = .ok [⟨[], [0x61]⟩] ∧
      getCurrentGitConfig false (storedWorld [⟨[], [0x61]⟩] none (some [0x61])) = .error .git ∧
      (listProfiles (storedWorld [⟨[], [0x61]⟩] none (some [0x61]))).1 = .ok () ∧
      (listProfiles (storedWorld [⟨[], [0x61]⟩] none (some [0x61]))).2.stdout
        = [.storedProfiles, .listEntry 0 [] [0x61] [0x2A]] :=
  ⟨rfl, rfl, rfl, rfl⟩

/-- C10, as stated, fails: when `~/.config/git-user` is a regular file, the path is located
without error and the document does not exist, but `os.Stat` fails with an error other than
`not exist`, `ioutil.ReadFile` is called, and `loadProfiles` returns its error. -/
theorem loadProfiles_absent_counterexample :
    (getConfigFilePath { freshWorld with dirExists := true, docBlocked := true }).1 = .ok () ∧
      ({ freshWorld with dirExists := true, docBlocked := true } : World).doc = none ∧
      (loadProfiles { freshWorld with dirExists := true, docBlocked := true }).1
        = .error .io :=
  ⟨rfl, rfl, rfl⟩

/-- C10, amended: whenever the configuration path can be located, the persisted document does
not exist and `os.Stat` reports so (the path of the document can be looked up), `loadProfiles`
returns an empty catalogue and no error, and does not create the document.  When the document
does not exist but its path cannot be looked up (`~/.config/git-user` is not a directory, or may
not be searched), `os.Stat` fails with another error and `loadProfiles` returns the error of
`ioutil.ReadFile`; the document is not created either. -/
theorem loadProfiles_absent_document (w : World) (hpath : (getConfigFilePath w).1 = .ok ())
    (hdoc : w.doc = none) :
    (statNotExist (getConfigFilePath w).2 = true ↔ w.docBlocked = false) ∧
      (w.docBlocked = false →
        (loadProfiles w).1 = .ok [] ∧ (loadProfiles w).2.doc = none) ∧
      (w.docBlocked = true →
        (loadProfiles w).1 = .error .io ∧ (loadProfiles w).2.doc = none) := by
  obtain ⟨e1, -, -⟩ := getConfigFilePath_ok w hpath
  rw [loadProfiles_eq]
  cases hg : getConfigFilePath w with
  | mk r w1 =>
    rw [hg] at hpath e1
    simp only [] at hpath e1
    subst hpath
    have hd : w1.doc = none := by rw [e1]; exact hdoc
    have hb : w1.docBlocked = w.docBlocked := by rw [e1]
    simp only [hd, hb, readDocument, statNotExist]
    cases w.docBlocked <;> simp

theorem loadProfiles_absent_document_witness :
    (getConfigFilePath freshWorld).1 = .ok () ∧ freshWorld.doc = none ∧
      freshWorld.docBlocked = false ∧
      (loadProfiles freshWorld).1 = .ok [] ∧ (loadProfiles freshWorld).2.doc = none :=
  ⟨rfl, rfl, rfl, (loadProfiles_absent_document freshWorld rfl rfl).2.1 rfl⟩


end GitUser
